import Mathlib

/-!
# aerospike-common: the growable sequence `as_arraylist`

Shallow embedding of `src/main/aerospike/as_arraylist.c`.

* An `as_val *` is a machine address, a natural number; `0` is `NULL`.
* `list->elements` is `none` when it is `NULL` and `some xs` when it points to
  a block of `xs.length` slots.
* `uint32_t` values are natural numbers reduced modulo `2 ^ 32 = 4294967296`
  wherever the C arithmetic wraps.  An `int` is carried as its 32-bit pattern.
* An operation that reads or writes outside the block it addresses, or through
  `NULL`, has undefined behaviour; it returns `none`.
* The C library decides whether an allocation succeeds and what a fresh,
  uninitialised slot holds; both are arguments of the functions that allocate.
* Loop counters and `new_capacity` are C `int`s: the loops are modelled on blocks
  of at most `INT_MAX` slots, which is part of `as_arraylist.wf`.
* The calls to `as_val_reserve` and `as_val_destroy` (defined outside this
  file's sources) are recorded, in order, with the pointer they receive.
-/

/-- Modelled from the spec: the status constants of `as_arraylist.h`, which is
not among the sources (`OK`, `AllocationFailed`, `MaxCapacityExceeded`). -/
inductive as_arraylist_status where
  | AS_ARRAYLIST_OK
  | AS_ARRAYLIST_ERR_ALLOC
  | AS_ARRAYLIST_ERR_MAX
  deriving DecidableEq

/-- A call made to the value core: `as_val_reserve(v)` or `as_val_destroy(v)`. -/
inductive as_val_call where
  | reserve (v : Nat)
  | destroy (v : Nat)
  deriving DecidableEq

/-- Modelled from the spec: the sequence record declared in `as_arraylist.h`,
which is not among the sources (`elements`, `size`, `capacity`, `block_size`),
with the `free` flag the functions set.  The three counts are `uint32_t`. -/
structure as_arraylist where
  block_size : Nat
  capacity : Nat
  size : Nat
  free : Bool
  elements : Option (List Nat)
  deriving DecidableEq

/-- What a mutating call leaves behind: its return code, the list, and the
calls it made to the value core. -/
structure as_arraylist_result where
  rc : as_arraylist_status
  list : as_arraylist
  calls : List as_val_call
  deriving DecidableEq

/-- The representation invariant of a sequence: `block_size` is a `uint32_t`,
the slots are addressable by the `int` counters the code indexes them with
(`capacity ≤ INT_MAX`), `size ≤ capacity`, and the element block has exactly
`capacity` slots (`NULL` counting as a block of no slot). -/
def as_arraylist.wf (list : as_arraylist) : Prop :=
  list.block_size < 4294967296 ∧ list.capacity ≤ 2147483647 ∧
    list.size ≤ list.capacity ∧ (list.elements.getD []).length = list.capacity

instance (list : as_arraylist) : Decidable list.wf := by
  unfold as_arraylist.wf; infer_instance

/-- The slots `[0, size)` of a sequence, holes (`0`) included. -/
def as_arraylist.contents (list : as_arraylist) : List Nat :=
  (list.elements.getD []).take list.size

/-- Read `elements[i]`; `none` is an access through `NULL` or outside the block. -/
def mem_load (elements : Option (List Nat)) (i : Nat) : Option Nat :=
  match elements with
  | none => none
  | some xs => xs[i]?

/-- Write `elements[i] = v`, giving the block afterwards; `none` is an access
through `NULL` or outside the block. -/
def mem_store (elements : Option (List Nat)) (i v : Nat) : Option (List Nat) :=
  match elements with
  | none => none
  | some xs => if i < xs.length then some (xs.set i v) else none

/-- The call `calloc(n, sizeof(as_val *))`: `NULL` when the library refuses, else `n`
zeroed slots. -/
def calloc (ok : Bool) (n : Nat) : Option (List Nat) :=
  if ok then some (List.replicate n 0) else none

/-- The conversion `(size_t) x` for an `int x` given by its 32-bit pattern: sign extension to
64 bits. -/
def int_to_size_t (x : Nat) : Nat :=
  if x < 2147483648 then x else x + 18446744069414584320

/-- The call `realloc(old, bytes)`.  A request above `PTRDIFF_MAX` bytes fails; otherwise
the library either fails (`r = none`) or returns a block of `bytes / 8` slots
that keeps the old slots it has room for and holds `junk i` in every fresh
slot `i` (`r = some junk`): fresh memory is not zeroed. -/
def realloc (r : Option (Nat → Nat)) (old : Option (List Nat)) (bytes : Nat) :
    Option (List Nat) :=
  if 9223372036854775807 < bytes then none
  else
    match r with
    | none => none
    | some junk =>
      some ((List.range (bytes / 8)).map fun i => ((old.getD [])[i]?).getD (junk i))

/-- Function `as_arraylist_init` on caller storage (`list` not `NULL`). -/
def as_arraylist_init (calloc_ok : Bool) (capacity block_size : Nat) : as_arraylist :=
  if 0 < capacity then
    { block_size := block_size, capacity := capacity, size := 0, free := true,
      elements := calloc calloc_ok capacity }
  else
    { block_size := block_size, capacity := capacity, size := 0, free := false,
      elements := none }

/-- Function `as_arraylist_new`: `none` is the `NULL` returned when `malloc` fails; the
fields are then set exactly as in `as_arraylist_init`. -/
def as_arraylist_new (malloc_ok calloc_ok : Bool) (capacity block_size : Nat) :
    Option as_arraylist :=
  if malloc_ok then some (as_arraylist_init calloc_ok capacity block_size) else none

/-- The loop of `as_arraylist_release`: `n` iterations from index `i`. -/
def as_arraylist_release_loop :
    Nat → Nat → Option (List Nat) → List as_val_call →
      Option (Option (List Nat) × List as_val_call)
  | 0, _, elements, calls => some (elements, calls)
  | n + 1, i, elements, calls =>
    match mem_load elements i with
    | none => none
    | some p =>
      match mem_store elements i 0 with
      | none => none
      | some xs =>
        as_arraylist_release_loop n (i + 1) (some xs)
          (if p ≠ 0 then calls ++ [as_val_call.destroy p] else calls)

/-- Function `as_arraylist_release`; it always returns `true`. -/
def as_arraylist_release (list : as_arraylist) :
    Option (Bool × as_arraylist × List as_val_call) :=
  match list.elements with
  | some xs =>
    match as_arraylist_release_loop list.size 0 (some xs) [] with
    | none => none
    | some (_, calls) =>
      some (true, { list with elements := none, size := 0, capacity := 0 }, calls)
  | none => some (true, { list with elements := none, size := 0, capacity := 0 }, [])

/-- Function `as_arraylist_ensure` (static).  `new_room`, `new_blocks` and
`new_capacity` are `int`; every operation that computes them has a `uint32_t`
operand and is therefore done modulo `2 ^ 32`; `new_capacity` is sign-extended
for the byte count. -/
def as_arraylist_ensure (r : Option (Nat → Nat)) (list : as_arraylist) (delta : Nat) :
    as_arraylist_status × as_arraylist :=
  if list.capacity < (list.size + delta) % 4294967296 then
    if 0 < list.block_size then
      let new_room := ((list.size + delta) % 4294967296 + 4294967296 - list.capacity) % 4294967296
      let new_blocks := (new_room + list.block_size) % 4294967296 / list.block_size
      let new_capacity :=
        (list.capacity + new_blocks * list.block_size % 4294967296) % 4294967296
      match realloc r list.elements (8 * int_to_size_t new_capacity % 18446744073709551616) with
      | some elements =>
        (as_arraylist_status.AS_ARRAYLIST_OK,
          { list with elements := some elements, capacity := new_capacity })
      | none =>
        (as_arraylist_status.AS_ARRAYLIST_ERR_ALLOC, { list with elements := none })
    else (as_arraylist_status.AS_ARRAYLIST_ERR_MAX, list)
  else (as_arraylist_status.AS_ARRAYLIST_OK, list)

/-- Function `as_arraylist_size`. -/
def as_arraylist_size (list : as_arraylist) : Nat := list.size

/-- Function `as_arraylist_get`; the result `some 0` is `NULL` (absent). -/
def as_arraylist_get (list : as_arraylist) (i : Nat) : Option Nat :=
  if list.size ≤ i then some 0 else mem_load list.elements i

/-- Function `as_arraylist_set`; `e` is the outcome of the growth step, taken
only when `index >= list->capacity`. -/
def as_arraylist_set (r : Option (Nat → Nat)) (list : as_arraylist) (index value : Nat) :
    Option as_arraylist_result :=
  let e :=
    if list.capacity ≤ index then
      as_arraylist_ensure r list
        (((index + 1) % 4294967296 + 4294967296 - list.capacity) % 4294967296)
    else (as_arraylist_status.AS_ARRAYLIST_OK, list)
  if e.1 ≠ as_arraylist_status.AS_ARRAYLIST_OK then some ⟨e.1, e.2, []⟩
  else
    match mem_load e.2.elements index with
    | none => none
    | some old =>
      match mem_store e.2.elements index value with
      | none => none
      | some xs =>
        some ⟨e.1,
          { e.2 with
            elements := some xs
            size := if e.2.size ≤ index then (index + 1) % 4294967296 else e.2.size },
          [as_val_call.destroy old]⟩

/-- Function `as_arraylist_append`. -/
def as_arraylist_append (r : Option (Nat → Nat)) (list : as_arraylist) (value : Nat) :
    Option as_arraylist_result :=
  let e := as_arraylist_ensure r list 1
  if e.1 ≠ as_arraylist_status.AS_ARRAYLIST_OK then some ⟨e.1, e.2, []⟩
  else
    match mem_store e.2.elements e.2.size value with
    | none => none
    | some xs =>
      some ⟨e.1, { e.2 with elements := some xs, size := (e.2.size + 1) % 4294967296 }, []⟩

/-- The loop of `as_arraylist_prepend`, entered with `i` the counter's value:
`elements[i] = elements[i-1]` while `i > 0`. -/
def as_arraylist_prepend_loop : Nat → Option (List Nat) → Option (Option (List Nat))
  | 0, elements => some elements
  | i + 1, elements =>
    match mem_load elements i with
    | none => none
    | some p =>
      match mem_store elements (i + 1) p with
      | none => none
      | some xs => as_arraylist_prepend_loop i (some xs)

/-- Function `as_arraylist_prepend`.  The counter is `int i = list->size`: a size above
`INT_MAX` makes it negative and the loop body never runs. -/
def as_arraylist_prepend (r : Option (Nat → Nat)) (list : as_arraylist) (value : Nat) :
    Option as_arraylist_result :=
  let e := as_arraylist_ensure r list 1
  if e.1 ≠ as_arraylist_status.AS_ARRAYLIST_OK then some ⟨e.1, e.2, []⟩
  else
    match as_arraylist_prepend_loop (if e.2.size < 2147483648 then e.2.size else 0)
        e.2.elements with
    | none => none
    | some shifted =>
      match mem_store shifted 0 value with
      | none => none
      | some xs =>
        some ⟨e.1, { e.2 with elements := some xs, size := (e.2.size + 1) % 4294967296 }, []⟩

/-- Function `as_arraylist_head`: it reads slot 0 whatever the size. -/
def as_arraylist_head (list : as_arraylist) : Option Nat :=
  mem_load list.elements 0

/-- The loop of `as_arraylist_tail`: `todo` iterations from `i`, `j`; the
right-hand side of the copy reads `list2->elements[i]`, the destination's own
slot. -/
def as_arraylist_tail_loop (src : Option (List Nat)) :
    Nat → Nat → Nat → Option (List Nat) → List as_val_call →
      Option (Option (List Nat) × List as_val_call)
  | 0, _, _, dst, calls => some (dst, calls)
  | todo + 1, i, j, dst, calls =>
    match mem_load src i with
    | none => none
    | some p =>
      if p ≠ 0 then
        match mem_load dst i with
        | none => none
        | some q =>
          match mem_store dst j q with
          | none => none
          | some xs =>
            as_arraylist_tail_loop src todo (i + 1) (j + 1) (some xs)
              (calls ++ [as_val_call.reserve p])
      else
        match mem_store dst j 0 with
        | none => none
        | some xs => as_arraylist_tail_loop src todo (i + 1) (j + 1) (some xs) calls

/-- Function `as_arraylist_tail`; the inner `none` is a `NULL` result: for an
empty list, or the unchecked `NULL` of `as_arraylist_new` when the loop has no
iteration to dereference it in.  `list2->size` is left as `as_arraylist_new`
set it. -/
def as_arraylist_tail (malloc_ok calloc_ok : Bool) (list : as_arraylist) :
    Option (Option as_arraylist × List as_val_call) :=
  if list.size = 0 then some (none, [])
  else
    match as_arraylist_new malloc_ok calloc_ok (list.size - 1) list.block_size with
    | none => if list.size - 1 = 0 then some (none, []) else none
    | some list2 =>
      match as_arraylist_tail_loop list.elements (list.size - 1) 1 0 list2.elements [] with
      | none => none
      | some (elements, calls) => some (some { list2 with elements := elements }, calls)

/-- The copying loop of `as_arraylist_drop` and `as_arraylist_take`: `todo`
iterations, reading `list->elements[i]` and writing `list2->elements[j]`. -/
def as_arraylist_copy_loop (src : Option (List Nat)) :
    Nat → Nat → Nat → Option (List Nat) → List as_val_call →
      Option (Option (List Nat) × List as_val_call)
  | 0, _, _, dst, calls => some (dst, calls)
  | todo + 1, i, j, dst, calls =>
    match mem_load src i with
    | none => none
    | some p =>
      if p ≠ 0 then
        match mem_store dst j p with
        | none => none
        | some xs =>
          as_arraylist_copy_loop src todo (i + 1) (j + 1) (some xs)
            (calls ++ [as_val_call.reserve p])
      else
        match mem_store dst j 0 with
        | none => none
        | some xs => as_arraylist_copy_loop src todo (i + 1) (j + 1) (some xs) calls

/-- Function `as_arraylist_drop`; a `NULL` from `as_arraylist_new` is dereferenced by
`list2->size = sz-c`. -/
def as_arraylist_drop (malloc_ok calloc_ok : Bool) (list : as_arraylist) (n : Nat) :
    Option (as_arraylist × List as_val_call) :=
  let sz := list.size
  let c := if n < sz then n else sz
  match as_arraylist_new malloc_ok calloc_ok (sz - c) list.block_size with
  | none => none
  | some list2 =>
    match as_arraylist_copy_loop list.elements (sz - c) c 0 list2.elements [] with
    | none => none
    | some (elements, calls) =>
      some ({ list2 with size := sz - c, elements := elements }, calls)

/-- Function `as_arraylist_take`; its loop uses the one counter `i` for both indices. -/
def as_arraylist_take (malloc_ok calloc_ok : Bool) (list : as_arraylist) (n : Nat) :
    Option (as_arraylist × List as_val_call) :=
  let sz := list.size
  let c := if n < sz then n else sz
  match as_arraylist_new malloc_ok calloc_ok c list.block_size with
  | none => none
  | some list2 =>
    match as_arraylist_copy_loop list.elements c 0 0 list2.elements [] with
    | none => none
    | some (elements, calls) => some ({ list2 with size := c, elements := elements }, calls)

/-- The loop of `as_arraylist_foreach`: `n` iterations from index `i`.  The
callback receives the slot and `udata`, the state it works on; the result
carries the value returned, the final `udata`, and the invocations made, in
order, each with the slot passed and the callback's answer. -/
def as_arraylist_foreach_loop {σ : Type} (callback : Nat → σ → Bool × σ)
    (elements : Option (List Nat)) :
    Nat → Nat → σ → Option (Bool × σ × List (Nat × Bool))
  | 0, _, udata => some (true, udata, [])
  | n + 1, i, udata =>
    match mem_load elements i with
    | none => none
    | some p =>
      if (callback p udata).1 = false then some (false, (callback p udata).2, [(p, false)])
      else
        match as_arraylist_foreach_loop callback elements n (i + 1) (callback p udata).2 with
        | none => none
        | some (b, u, trace) => some (b, u, (p, true) :: trace)

/-- Function `as_arraylist_foreach`. -/
def as_arraylist_foreach {σ : Type} (list : as_arraylist) (callback : Nat → σ → Bool × σ)
    (udata : σ) : Option (Bool × σ × List (Nat × Bool)) :=
  as_arraylist_foreach_loop callback list.elements list.size 0 udata

/-- The answers a callback gives when it is invoked on the slots `ps` in order,
the first time with `udata`, then with the `udata` its earlier invocations
left. -/
def as_arraylist_foreach_answers {σ : Type} (callback : Nat → σ → Bool × σ) :
    List Nat → σ → List Bool
  | [], _ => []
  | p :: ps, udata =>
    (callback p udata).1 :: as_arraylist_foreach_answers callback ps (callback p udata).2

/-- The `udata` a callback leaves after it was invoked on the slots `ps` in
order, starting from `udata`. -/
def as_arraylist_foreach_udata {σ : Type} (callback : Nat → σ → Bool × σ) :
    List Nat → σ → σ
  | [], udata => udata
  | p :: ps, udata => as_arraylist_foreach_udata callback ps (callback p udata).2

/-- Modelled from the spec: the value core (`as_val_destroy`, not among the
sources) releases the value it is given and does nothing for an absent one
(`NULL`).  The values that a sequence of calls releases, in order. -/
def as_val_released (calls : List as_val_call) : List Nat :=
  calls.filterMap fun c =>
    match c with
    | as_val_call.destroy v => if v = 0 then none else some v
    | as_val_call.reserve _ => none

/-- Modelled from the spec: the value core (`as_val_reserve`, not among the
sources) adds one holder to the value it is given and does nothing for an
absent one (`NULL`).  The values that a sequence of calls reserves, in order. -/
def as_val_reserved (calls : List as_val_call) : List Nat :=
  calls.filterMap fun c =>
    match c with
    | as_val_call.reserve v => if v = 0 then none else some v
    | as_val_call.destroy _ => none

/-! # The doubly linked list `cf_ll`

Shallow embedding of `src/main/citrusleaf/cf_ll.c`.  An element is the address
of a `cf_ll_element`; `0` is `NULL`.  The `next` and `prev` fields of all
elements are two maps from addresses to addresses.  Reading or writing a
field through `NULL` is undefined behaviour and gives `none`.  The mutex taken
by the public functions is not modelled: a public function is its lock-free
body.  The calls made to the destructor callback are recorded in order.
-/

/-- Modelled from the spec: the list header declared in `cf_ll.h`, which is not
among the sources (`head`, `tail`, the `uint32_t` element count `sz`, whether a
destructor callback `destroy_fn` is set, `uselock`), together with the `next`
and `prev` fields of the elements and the elements the destructor callback has
been invoked on, in order. -/
structure cf_ll where
  head : Nat
  tail : Nat
  sz : Nat
  destroy_fn : Bool
  uselock : Bool
  next : Nat → Nat
  prev : Nat → Nat
  destroyed : List Nat

/-- Modelled from the spec: the reserved callback result of `cf_ll.h` (not
among the sources) that asks `cf_ll_reduce` to delete the current element; it
is not zero. -/
def CF_LL_REDUCE_DELETE : Int := 1

/-- Modelled from the spec: the reserved callback result of `cf_ll.h` (not
among the sources) that asks `cf_ll_insert_reduce` to insert here; it is not
zero and differs from `CF_LL_REDUCE_DELETE`. -/
def CF_LL_REDUCE_INSERT : Int := 2

/-- The assignment `e->field = v` on the map of a link field. -/
def cf_ll_write (link : Nat → Nat) (e v : Nat) : Nat → Nat :=
  fun x => if x = e then v else link x

/-- Function `cf_ll_init` on the storage `ll`; it returns 0. -/
def cf_ll_init (ll : cf_ll) (destroy_fn uselock : Bool) : Int × cf_ll :=
  (0, { ll with head := 0, tail := 0, destroy_fn := destroy_fn, sz := 0, uselock := uselock })

/-- Function `cf_ll_prepend_lockfree`. -/
def cf_ll_prepend_lockfree (ll : cf_ll) (e : Nat) : Option cf_ll :=
  if e = 0 then none
  else if ll.head = 0 then
    some { ll with
      head := e, tail := e
      next := cf_ll_write ll.next e 0
      prev := cf_ll_write ll.prev e 0
      sz := (ll.sz + 1) % 4294967296 }
  else
    some { ll with
      next := cf_ll_write ll.next e ll.head
      prev := cf_ll_write (cf_ll_write ll.prev e 0) ll.head e
      head := e
      sz := (ll.sz + 1) % 4294967296 }

/-- Function `cf_ll_prepend`. -/
def cf_ll_prepend (ll : cf_ll) (e : Nat) : Option cf_ll :=
  cf_ll_prepend_lockfree ll e

/-- Function `cf_ll_append_lockfree`. -/
def cf_ll_append_lockfree (ll : cf_ll) (e : Nat) : Option cf_ll :=
  if e = 0 then none
  else if ll.head = 0 then
    some { ll with
      head := e, tail := e
      next := cf_ll_write ll.next e 0
      prev := cf_ll_write ll.prev e 0
      sz := (ll.sz + 1) % 4294967296 }
  else if ll.tail = 0 then none
  else
    some { ll with
      next := cf_ll_write (cf_ll_write ll.next e 0) ll.tail e
      prev := cf_ll_write ll.prev e ll.tail
      tail := e
      sz := (ll.sz + 1) % 4294967296 }

/-- Function `cf_ll_append`. -/
def cf_ll_append (ll : cf_ll) (e : Nat) : Option cf_ll :=
  cf_ll_append_lockfree ll e

/-- Function `cf_ll_insert_after_lockfree`; the statements are taken in the
order of the source, each reading the fields as the earlier ones left them. -/
def cf_ll_insert_after_lockfree (ll : cf_ll) (cur ins : Nat) : Option cf_ll :=
  if ins = 0 ∨ cur = 0 then none
  else
    let next1 := cf_ll_write ll.next ins (ll.next cur)
    let prev1 := cf_ll_write ll.prev ins cur
    if next1 cur = 0 then
      some { ll with
        tail := ins
        next := cf_ll_write next1 cur ins
        prev := prev1
        sz := (ll.sz + 1) % 4294967296 }
    else
      some { ll with
        next := cf_ll_write next1 cur ins
        prev := cf_ll_write prev1 (next1 cur) ins
        sz := (ll.sz + 1) % 4294967296 }

/-- Function `cf_ll_insert_after`. -/
def cf_ll_insert_after (ll : cf_ll) (cur ins : Nat) : Option cf_ll :=
  cf_ll_insert_after_lockfree ll cur ins

/-- Function `cf_ll_insert_before_lockfree`; the statements are taken in the
order of the source, each reading the fields as the earlier ones left them. -/
def cf_ll_insert_before_lockfree (ll : cf_ll) (cur ins : Nat) : Option cf_ll :=
  if ins = 0 ∨ cur = 0 then none
  else
    let next1 := cf_ll_write ll.next ins cur
    let prev1 := cf_ll_write ll.prev ins (ll.prev cur)
    if prev1 cur = 0 then
      some { ll with
        head := ins
        next := next1
        prev := cf_ll_write prev1 cur ins
        sz := (ll.sz + 1) % 4294967296 }
    else
      some { ll with
        next := cf_ll_write next1 (prev1 cur) ins
        prev := cf_ll_write prev1 cur ins
        sz := (ll.sz + 1) % 4294967296 }

/-- Function `cf_ll_insert_before`. -/
def cf_ll_insert_before (ll : cf_ll) (cur ins : Nat) : Option cf_ll :=
  cf_ll_insert_before_lockfree ll cur ins

/-- The relinking done by `cf_ll_delete_lockfree`, before the count is
decremented: its four cases in the order of the source. -/
def cf_ll_unlink (ll : cf_ll) (e : Nat) : Option cf_ll :=
  if ll.sz = 1 then some { ll with head := 0, tail := 0 }
  else if e = ll.head then
    if e = 0 ∨ ll.next e = 0 then none
    else some { ll with head := ll.next e, prev := cf_ll_write ll.prev (ll.next e) 0 }
  else if e = ll.tail then
    if e = 0 ∨ ll.prev e = 0 then none
    else some { ll with tail := ll.prev e, next := cf_ll_write ll.next (ll.prev e) 0 }
  else
    if e = 0 ∨ ll.prev e = 0 then none
    else if cf_ll_write ll.next (ll.prev e) (ll.next e) e = 0 then none
    else
      some { ll with
        next := cf_ll_write ll.next (ll.prev e) (ll.next e)
        prev := cf_ll_write ll.prev
          (cf_ll_write ll.next (ll.prev e) (ll.next e) e) (ll.prev e) }

/-- Function `cf_ll_delete_lockfree`: relink, decrement the `uint32_t` count,
then invoke the destructor callback on `e` if one is set. -/
def cf_ll_delete_lockfree (ll : cf_ll) (e : Nat) : Option cf_ll :=
  match cf_ll_unlink ll e with
  | none => none
  | some ll1 =>
    some { ll1 with
      sz := (ll1.sz + 4294967295) % 4294967296
      destroyed := if ll1.destroy_fn then ll1.destroyed ++ [e] else ll1.destroyed }

/-- Function `cf_ll_delete`: nothing happens on a list whose count is 0. -/
def cf_ll_delete (ll : cf_ll) (e : Nat) : Option cf_ll :=
  if ll.sz = 0 then some ll else cf_ll_delete_lockfree ll e

/-- The `while (cur)` loop of `cf_ll_reduce`, run for at most `fuel`
iterations (`none` when they do not suffice, or on a fault).  The callback
receives the element and `udata`, the state it works on.  The result is the
value returned, the list, the final `udata` and the elements the callback was
invoked on, in order. -/
def cf_ll_reduce_loop {σ : Type} (forward : Bool) (fn : Nat → σ → Int × σ) :
    Nat → cf_ll → Nat → Int → σ → List Nat → Option (Int × cf_ll × σ × List Nat)
  | 0, ll, cur, rv, udata, visited =>
    if cur = 0 then some (rv, ll, udata, visited) else none
  | fuel + 1, ll, cur, rv, udata, visited =>
    if cur = 0 then some (rv, ll, udata, visited)
    else if (fn cur udata).1 ≠ 0 then
      if (fn cur udata).1 = CF_LL_REDUCE_DELETE then
        match cf_ll_delete_lockfree ll cur with
        | none => none
        | some ll1 =>
          cf_ll_reduce_loop forward fn fuel ll1 (if forward then ll.next cur else ll.prev cur)
            (fn cur udata).1 (fn cur udata).2 (visited ++ [cur])
      else some ((fn cur udata).1, ll, (fn cur udata).2, visited ++ [cur])
    else
      cf_ll_reduce_loop forward fn fuel ll (if forward then ll.next cur else ll.prev cur)
        (fn cur udata).1 (fn cur udata).2 (visited ++ [cur])

/-- Function `cf_ll_reduce`, its loop given `fuel` iterations. -/
def cf_ll_reduce {σ : Type} (fuel : Nat) (ll : cf_ll) (forward : Bool)
    (fn : Nat → σ → Int × σ) (udata : σ) : Option (Int × cf_ll × σ × List Nat) :=
  cf_ll_reduce_loop forward fn fuel ll (if forward then ll.head else ll.tail) 0 udata []

/-- Function `cf_ll_size`. -/
def cf_ll_size (ll : cf_ll) : Nat := ll.sz

/-- The elements met by following `link` from `cur` are exactly those of the
list, in order, each a non-`NULL` address, and the walk then arrives at `stop`
(`0` for a traversal that ends at `NULL`). -/
def cf_ll_path (link : Nat → Nat) : Nat → List Nat → Nat → Prop
  | cur, [], stop => cur = stop
  | cur, x :: xs, stop => cur = x ∧ x ≠ 0 ∧ cf_ll_path link (link x) xs stop

instance cf_ll_path_decidable (link : Nat → Nat) :
    ∀ (cur : Nat) (L : List Nat) (stop : Nat), Decidable (cf_ll_path link cur L stop)
  | cur, [], stop => by unfold cf_ll_path; infer_instance
  | cur, x :: xs, stop => by
    unfold cf_ll_path
    have := cf_ll_path_decidable link (link x) xs stop
    infer_instance

/-- The traversal that follows `link` from `cur` until `NULL`, cut after `fuel`
elements. -/
def cf_ll_walk (link : Nat → Nat) : Nat → Nat → List Nat
  | 0, _ => []
  | fuel + 1, cur => if cur = 0 then [] else cur :: cf_ll_walk link fuel (link cur)

/-- The forward traversal from `head`.  The walk is allowed `sz + 1` elements,
so that a chain that does not end at `NULL` within `sz` elements shows as a
traversal longer than `sz`. -/
def cf_ll_forward (ll : cf_ll) : List Nat := cf_ll_walk ll.next (ll.sz + 1) ll.head

/-- The backward traversal from `tail`, cut like the forward one. -/
def cf_ll_backward (ll : cf_ll) : List Nat := cf_ll_walk ll.prev (ll.sz + 1) ll.tail

/-- The well-formedness invariant of a list: `head == NULL` iff `tail == NULL`
iff `sz == 0`, both traversals have length `sz`, and the backward traversal
reversed is the forward traversal; `sz` is a `uint32_t`. -/
def cf_ll.wf (ll : cf_ll) : Prop :=
  (ll.head = 0 ↔ ll.tail = 0) ∧ (ll.tail = 0 ↔ ll.sz = 0) ∧
    (cf_ll_forward ll).length = ll.sz ∧ (cf_ll_backward ll).length = ll.sz ∧
    (cf_ll_backward ll).reverse = cf_ll_forward ll ∧ ll.sz < 4294967296

instance (ll : cf_ll) : Decidable ll.wf := by
  unfold cf_ll.wf; infer_instance

/-- The list `ll` is well formed with forward traversal `L`: following `next`
from `head` meets exactly `L` and ends at `NULL`, following `prev` from `tail`
meets exactly `L` reversed and ends at `NULL`, and `sz`, a `uint32_t`, is the
length of `L`. -/
def cf_ll.holds (ll : cf_ll) (L : List Nat) : Prop :=
  cf_ll_path ll.next ll.head L 0 ∧ cf_ll_path ll.prev ll.tail L.reverse 0 ∧
    ll.sz = L.length ∧ L.length < 4294967296

instance (ll : cf_ll) (L : List Nat) : Decidable (ll.holds L) := by
  unfold cf_ll.holds; infer_instance

/-- The list with the two directions exchanged. -/
def cf_ll.mirror (ll : cf_ll) : cf_ll :=
  { ll with head := ll.tail, tail := ll.head, next := ll.prev, prev := ll.next }

/-- The states reached from `cf_ll_init` by the mutators, each called as its
contract asks: a new element is a non-`NULL` address that is not in the list,
`cur` and a deleted element are in the list, and an insertion finds fewer than
`2 ^ 32 - 1` elements (the count is a `uint32_t`). -/
inductive cf_ll_reachable : cf_ll → Prop where
  | init (ll : cf_ll) (destroy_fn uselock : Bool) :
    cf_ll_reachable (cf_ll_init ll destroy_fn uselock).2
  | append (ll ll1 : cf_ll) (e : Nat) :
    cf_ll_reachable ll → e ≠ 0 → e ∉ cf_ll_forward ll → ll.sz < 4294967295 →
    cf_ll_append ll e = some ll1 → cf_ll_reachable ll1
  | prepend (ll ll1 : cf_ll) (e : Nat) :
    cf_ll_reachable ll → e ≠ 0 → e ∉ cf_ll_forward ll → ll.sz < 4294967295 →
    cf_ll_prepend ll e = some ll1 → cf_ll_reachable ll1
  | insert_before (ll ll1 : cf_ll) (cur e : Nat) :
    cf_ll_reachable ll → cur ∈ cf_ll_forward ll → e ≠ 0 → e ∉ cf_ll_forward ll →
    ll.sz < 4294967295 → cf_ll_insert_before ll cur e = some ll1 → cf_ll_reachable ll1
  | insert_after (ll ll1 : cf_ll) (cur e : Nat) :
    cf_ll_reachable ll → cur ∈ cf_ll_forward ll → e ≠ 0 → e ∉ cf_ll_forward ll →
    ll.sz < 4294967295 → cf_ll_insert_after ll cur e = some ll1 → cf_ll_reachable ll1
  | delete (ll ll1 : cf_ll) (e : Nat) :
    cf_ll_reachable ll → e ∈ cf_ll_forward ll →
    cf_ll_delete ll e = some ll1 → cf_ll_reachable ll1

/-- The call `(*fn)(cur, udata)` that `cf_ll_insert_reduce` makes with
`cur == NULL` after its loop ("give chance to insert at end"), and what follows
it: on `CF_LL_REDUCE_INSERT` the element `e` is appended (`forward`) or
prepended and 0 is returned, any other result is returned as it is.  The call is
recorded in `visited` as a visit of `0`. -/
def cf_ll_insert_reduce_end {σ : Type} (e : Nat) (forward : Bool) (fn : Nat → σ → Int × σ)
    (ll : cf_ll) (udata : σ) (visited : List Nat) : Option (Int × cf_ll × σ × List Nat) :=
  if (fn 0 udata).1 ≠ 0 then
    if (fn 0 udata).1 = CF_LL_REDUCE_INSERT then
      match (if forward then cf_ll_append_lockfree ll e else cf_ll_prepend_lockfree ll e) with
      | none => none
      | some ll1 => some (0, ll1, (fn 0 udata).2, visited ++ [0])
    else some ((fn 0 udata).1, ll, (fn 0 udata).2, visited ++ [0])
  else some ((fn 0 udata).1, ll, (fn 0 udata).2, visited ++ [0])

/-- The `while (cur)` loop of `cf_ll_insert_reduce`, run for at most `fuel`
iterations (`none` when they do not suffice, or on a fault), followed by the
call at the end of the list.  A non-zero result of the callback leaves the
loop: on `CF_LL_REDUCE_INSERT` the element `e` is inserted before (`forward`)
or after `cur` and 0 is returned, any other value is returned as it is.  The
result is the value returned, the list, the final `udata` and the positions the
callback was invoked on, in order. -/
def cf_ll_insert_reduce_loop {σ : Type} (e : Nat) (forward : Bool) (fn : Nat → σ → Int × σ) :
    Nat → cf_ll → Nat → σ → List Nat → Option (Int × cf_ll × σ × List Nat)
  | 0, ll, cur, udata, visited =>
    if cur = 0 then cf_ll_insert_reduce_end e forward fn ll udata visited else none
  | fuel + 1, ll, cur, udata, visited =>
    if cur = 0 then cf_ll_insert_reduce_end e forward fn ll udata visited
    else if (fn cur udata).1 ≠ 0 then
      if (fn cur udata).1 = CF_LL_REDUCE_INSERT then
        match (if forward then cf_ll_insert_before_lockfree ll cur e
          else cf_ll_insert_after_lockfree ll cur e) with
        | none => none
        | some ll1 => some (0, ll1, (fn cur udata).2, visited ++ [cur])
      else some ((fn cur udata).1, ll, (fn cur udata).2, visited ++ [cur])
    else
      cf_ll_insert_reduce_loop e forward fn fuel ll (if forward then ll.next cur else ll.prev cur)
        (fn cur udata).2 (visited ++ [cur])

/-- Function `cf_ll_insert_reduce`, its loop given `fuel` iterations. -/
def cf_ll_insert_reduce {σ : Type} (fuel : Nat) (ll : cf_ll) (e : Nat) (forward : Bool)
    (fn : Nat → σ → Int × σ) (udata : σ) : Option (Int × cf_ll × σ × List Nat) :=
  cf_ll_insert_reduce_loop e forward fn fuel ll (if forward then ll.head else ll.tail) udata []

/-- The values a callback returns when it is invoked on the elements of `A` in
order, the first time with `udata`, then with the `udata` its earlier
invocations left. -/
def cf_ll_results {σ : Type} (fn : Nat → σ → Int × σ) : List Nat → σ → List Int
  | [], _ => []
  | a :: A, udata => (fn a udata).1 :: cf_ll_results fn A (fn a udata).2

/-- The `udata` a callback leaves after it was invoked on the elements of `A`
in order, starting from `udata`. -/
def cf_ll_udata_after {σ : Type} (fn : Nat → σ → Int × σ) : List Nat → σ → σ
  | [], udata => udata
  | a :: A, udata => cf_ll_udata_after fn A (fn a udata).2

/-- The elements of `A` on which the callback, invoked on them in order from
`udata`, returns 0. -/
def cf_ll_kept {σ : Type} (fn : Nat → σ → Int × σ) : List Nat → σ → List Nat
  | [], _ => []
  | a :: A, udata =>
    if (fn a udata).1 = 0 then a :: cf_ll_kept fn A (fn a udata).2
    else cf_ll_kept fn A (fn a udata).2

/-! # The pair `as_pair`

Shallow embedding of `as_pair_val_tostring` of `src/main/aerospike/as_pair.c`.
A C string is the list of its characters before the terminating NUL; a `char *`
is `none` when it is `NULL`.  Reading through `NULL` or writing outside the
allocated block is undefined behaviour and gives `none`.
-/

/-- Modelled from the spec: the pair record declared in `as_pair.h`, which is
not among the sources: its two members `_1` and `_2`, each the address of a
value or `0` for `NULL`. -/
structure as_pair where
  _1 : Nat
  _2 : Nat

/-- The terminating character of a C string. -/
def NUL : Char := Char.ofNat 0

/-- The C library function `strlen`; it reads through its argument. -/
def strlen (s : Option (List Char)) : Option Nat :=
  match s with
  | none => none
  | some cs => some cs.length

/-- The C library function `malloc` for a block of `l` characters: `m` is
`none` when the allocation fails, else it gives the content found in the new
block. -/
def malloc (m : Option (Nat → Char)) (l : Nat) : Option (List Char) :=
  match m with
  | none => none
  | some junk => some ((List.range l).map junk)

/-- The C library function `strcpy` to the offset `off` of the block `str`: it
reads through `src`, and writes its characters and the terminating NUL from
`off` on; a write past the end of the block gives `none`. -/
def strcpy (str : List Char) (off : Nat) (src : Option (List Char)) : Option (List Char) :=
  match src with
  | none => none
  | some cs =>
    if off + cs.length + 1 ≤ str.length then
      some (str.take off ++ cs ++ [NUL] ++ str.drop (off + cs.length + 1))
    else none

/-- The assignment `*(str + off) = c`. -/
def char_store (str : List Char) (off : Nat) (c : Char) : Option (List Char) :=
  if off < str.length then some (str.set off c) else none

/-- The C string that starts a block: its characters before the first NUL. -/
def c_string (str : List Char) : List Char := str.takeWhile (fun c => c ≠ NUL)

/-- Function `as_pair_val_tostring`.  The argument `v` is `none` when
`as_pair_fromval(v)` is `NULL`; `as_val_tostring` is the rendering of the value
core (not among the sources), which gives a C string or `NULL`; `m` is the
outcome of `malloc`.  The result is `none` on a fault, `some none` when `NULL`
is returned, else the block returned.  The lengths are `size_t`, taken as 64
bits wide.  The two calls to `free` before the return, on the renderings, leave
the result as it is and are not modelled. -/
def as_pair_val_tostring (as_val_tostring : Nat → Option (List Char)) (m : Option (Nat → Char))
    (v : Option as_pair) : Option (Option (List Char)) :=
  match v with
  | none => some none
  | some p =>
    let a := as_val_tostring p._1
    match strlen a with
    | none => none
    | some al =>
      let b := as_val_tostring p._2
      match strlen b with
      | none => none
      | some bl =>
        match malloc m ((al + bl + 5) % 18446744073709551616) with
        | none => some none
        | some str =>
          (((((strcpy str 0 (some ['('])).bind fun s1 =>
            strcpy s1 1 a).bind fun s2 =>
            strcpy s2 (1 + al) (some [',', ' '])).bind fun s3 =>
            strcpy s3 (1 + al + 2) b).bind fun s4 =>
            strcpy s4 (1 + al + 2 + bl) (some [')'])).bind fun s5 =>
            (char_store s5 (1 + al + 2 + bl + 1) NUL).map some

/-! ## Memory and allocation lemmas -/

theorem realloc_some (r : Option (Nat → Nat)) (old : Option (List Nat)) (bytes : Nat)
    (xs : List Nat) (h : realloc r old bytes = some xs) :
    bytes ≤ 9223372036854775807 ∧ xs.length = bytes / 8 ∧
      ∀ i, i < (old.getD []).length → i < bytes / 8 → xs[i]? = (old.getD [])[i]? := by
  unfold realloc at h
  split at h
  · exact absurd h (by simp)
  · cases r with
    | none => exact absurd h (by simp)
    | some junk =>
      simp only [Option.some.injEq] at h
      subst h
      refine ⟨by omega, by simp, ?_⟩
      intro i hi hb
      simp [List.getElem?_map, List.getElem?_range hb, List.getElem?_eq_getElem hi]

/-- The four ways `as_arraylist_ensure` ends. -/
theorem as_arraylist_ensure_cases (r : Option (Nat → Nat)) (list : as_arraylist) (delta : Nat) :
    as_arraylist_ensure r list delta = (as_arraylist_status.AS_ARRAYLIST_OK, list) ∨
    as_arraylist_ensure r list delta = (as_arraylist_status.AS_ARRAYLIST_ERR_MAX, list) ∨
    as_arraylist_ensure r list delta =
      (as_arraylist_status.AS_ARRAYLIST_ERR_ALLOC, { list with elements := none }) ∨
    ∃ xs nc, as_arraylist_ensure r list delta =
        (as_arraylist_status.AS_ARRAYLIST_OK,
          { list with elements := some xs, capacity := nc }) ∧
      nc < 4294967296 ∧
      realloc r list.elements (8 * int_to_size_t nc % 18446744073709551616) = some xs := by
  unfold as_arraylist_ensure
  split_ifs with h1 h2
  · simp only []
    cases hre : realloc r list.elements (8 * int_to_size_t ((list.capacity +
      (((list.size + delta) % 4294967296 + 4294967296 - list.capacity) % 4294967296 +
        list.block_size) % 4294967296 / list.block_size * list.block_size % 4294967296) %
          4294967296) % 18446744073709551616) with
    | none => right; right; left; rfl
    | some xs =>
      right; right; right
      exact ⟨xs, _, rfl, Nat.mod_lt _ (by norm_num), hre⟩
  · right; left; rfl
  · left; rfl

theorem as_arraylist_ensure_size (r : Option (Nat → Nat)) (list : as_arraylist) (delta : Nat) :
    (as_arraylist_ensure r list delta).2.size = list.size ∧
      (as_arraylist_ensure r list delta).2.block_size = list.block_size ∧
      (as_arraylist_ensure r list delta).2.free = list.free := by
  rcases as_arraylist_ensure_cases r list delta with h | h | h | ⟨xs, nc, h, -, -⟩ <;>
    rw [h] <;> exact ⟨rfl, rfl, rfl⟩

/-- A successful `as_arraylist_ensure` on a well-formed list leaves a block of
exactly `capacity ≤ INT_MAX` slots that agrees with the old block on every slot
both have. -/
theorem as_arraylist_ensure_ok (r : Option (Nat → Nat)) (list : as_arraylist) (delta : Nat)
    (hwf : list.wf)
    (hok : (as_arraylist_ensure r list delta).1 = as_arraylist_status.AS_ARRAYLIST_OK) :
    (as_arraylist_ensure r list delta).2.capacity ≤ 2147483647 ∧
      (((as_arraylist_ensure r list delta).2.elements).getD []).length =
        (as_arraylist_ensure r list delta).2.capacity ∧
      ∀ j, j < list.capacity → j < (as_arraylist_ensure r list delta).2.capacity →
        mem_load (as_arraylist_ensure r list delta).2.elements j = mem_load list.elements j := by
  obtain ⟨hbs, hcap, hsz, hlen⟩ := hwf
  rcases as_arraylist_ensure_cases r list delta with h | h | h | ⟨xs, nc, h, hnc, hre⟩
  · rw [h]; exact ⟨hcap, hlen, fun _ _ _ => rfl⟩
  · rw [h] at hok; simp at hok
  · rw [h] at hok; simp at hok
  · rw [h]
    obtain ⟨hb, hl, hpre⟩ := realloc_some _ _ _ _ hre
    simp only [int_to_size_t] at hb hl hpre
    simp only [Option.getD_some]
    split_ifs at hb hl hpre with h3
    · refine ⟨by omega, by omega, ?_⟩
      intro j hj1 hj2
      have := hpre j (by omega) (by omega)
      cases hel : list.elements with
      | none => simp [hel] at hlen; omega
      | some ys => simp [mem_load, hel] at this ⊢; exact this
    · omega

theorem mem_store_some (elements : Option (List Nat)) (i v : Nat) (xs : List Nat)
    (h : mem_store elements i v = some xs) :
    ∃ ys, elements = some ys ∧ i < ys.length ∧ xs = ys.set i v := by
  unfold mem_store at h
  cases elements with
  | none => simp at h
  | some ys =>
    simp only at h
    split_ifs at h with hi
    exact ⟨ys, rfl, hi, by simpa using h.symm⟩

/-- The copying loop of `drop` and `take`, run inside both blocks, overwrites
the slots `[j, j + todo)` of the destination with the slots `[i, i + todo)` of
the source and touches nothing else. -/
theorem as_arraylist_copy_loop_spec (xs : List Nat) :
    ∀ (todo i j : Nat) (ys : List Nat) (calls : List as_val_call),
      i + todo ≤ xs.length → j + todo ≤ ys.length →
      ∃ zs calls1,
        as_arraylist_copy_loop (some xs) todo i j (some ys) calls = some (some zs, calls1) ∧
        zs.length = ys.length ∧
        ∀ k, zs[k]? = if j ≤ k ∧ k < j + todo then xs[i + (k - j)]? else ys[k]? := by
  intro todo
  induction todo with
  | zero =>
    intro i j ys calls _ _
    refine ⟨ys, calls, rfl, rfl, ?_⟩
    intro k
    rw [if_neg (by omega)]
  | succ todo ih =>
    intro i j ys calls hi hj
    have hload : mem_load (some xs) i = some xs[i] := by
      simp [mem_load, List.getElem?_eq_getElem (show i < xs.length by omega)]
    have hstore : ∀ v, mem_store (some ys) j v = some (ys.set j v) := by
      intro v
      simp [mem_store, show j < ys.length by omega]
    have key : ∀ calls0, ∃ zs calls1,
        as_arraylist_copy_loop (some xs) todo (i + 1) (j + 1) (some (ys.set j xs[i])) calls0 =
          some (some zs, calls1) ∧
        zs.length = ys.length ∧
        ∀ k, zs[k]? = if j ≤ k ∧ k < j + (todo + 1) then xs[i + (k - j)]? else ys[k]? := by
      intro calls0
      obtain ⟨zs, calls1, hrun, hlen, hget⟩ :=
        ih (i + 1) (j + 1) (ys.set j xs[i]) calls0 (by omega) (by simp; omega)
      refine ⟨zs, calls1, hrun, by simpa using hlen, ?_⟩
      intro k
      rw [hget k]
      by_cases h1 : j + 1 ≤ k ∧ k < j + 1 + todo
      · have h2 : j ≤ k ∧ k < j + (todo + 1) := by omega
        have h3 : i + 1 + (k - (j + 1)) = i + (k - j) := by omega
        simp only [h1, h2, and_self, if_true, h3]
      · by_cases h4 : k = j
        · subst h4
          have h2 : k ≤ k ∧ k < k + (todo + 1) := by omega
          simp only [h1, h2, and_self, if_true, if_false, List.getElem?_set, Nat.sub_self,
            Nat.add_zero]
          rw [if_pos (by omega), List.getElem?_eq_getElem (show i < xs.length by omega)]
        · have h2 : ¬ (j ≤ k ∧ k < j + (todo + 1)) := by omega
          simp only [h1, h2, if_false]
          rw [List.getElem?_set_ne (by omega)]
    unfold as_arraylist_copy_loop
    rw [hload]
    simp only []
    by_cases hp : xs[i] = 0
    · obtain ⟨zs, calls1, hrun, hrest⟩ := key calls
      rw [if_neg (by simpa using hp), hstore]
      simp only []
      rw [hp] at hrun
      exact ⟨zs, calls1, hrun, hrest⟩
    · obtain ⟨zs, calls1, hrun, hrest⟩ := key (calls ++ [as_val_call.reserve xs[i]])
      rw [if_pos hp, hstore]
      exact ⟨zs, calls1, hrun, hrest⟩

/-- Copying `m` slots from index `i` of a source block into the block of a
freshly created list of capacity `m` gives exactly those `m` slots. -/
theorem as_arraylist_copy_new (src : Option (List Nat)) (bs m i : Nat)
    (h : i + m ≤ (src.getD []).length) :
    ∃ elements calls,
      as_arraylist_copy_loop src m i 0 (as_arraylist_init true m bs).elements [] =
        some (elements, calls) ∧
      (elements.getD []).take m = ((src.getD []).drop i).take m := by
  rcases Nat.eq_zero_or_pos m with hm | hm
  · subst hm
    exact ⟨_, [], rfl, by simp⟩
  · cases src with
    | none => simp at h; omega
    | some xs =>
      simp only [Option.getD_some] at h ⊢
      obtain ⟨zs, calls1, hrun, hlen, hget⟩ :=
        as_arraylist_copy_loop_spec xs m i 0 (List.replicate m 0) [] h (by simp)
      refine ⟨some zs, calls1, ?_, ?_⟩
      · simpa [as_arraylist_init, hm, calloc] using hrun
      · simp only [Option.getD_some]
        apply List.ext_getElem?
        intro k
        simp only [List.getElem?_take, List.getElem?_drop, hget k, Nat.zero_le, true_and,
          Nat.zero_add, Nat.sub_zero]
        split_ifs <;> rfl

/-- When the block already has room for `delta` more slots, `as_arraylist_ensure`
returns OK and leaves the list untouched. -/
theorem as_arraylist_ensure_noop (r : Option (Nat → Nat)) (list : as_arraylist) (delta : Nat)
    (h : list.size + delta ≤ list.capacity) :
    as_arraylist_ensure r list delta = (as_arraylist_status.AS_ARRAYLIST_OK, list) := by
  unfold as_arraylist_ensure
  rw [if_neg]
  have := Nat.mod_le (list.size + delta) 4294967296
  omega

/-! ## Claims -/

/-- C1 fails on `create(2, 2)` followed by `set(3, v)`: the list is well formed,
`as_arraylist_set` asks `as_arraylist_ensure` for `(3 + 1) - capacity = 2` slots
beyond `size = 0`, which the 2-slot block already has, so ensure returns OK
without growing (capacity 2, not above index 3) and set then reads and writes
slot 3 outside the block. -/
theorem as_arraylist_set_beyond_capacity :
    as_arraylist_new true true 2 2 = some ⟨2, 2, 0, true, some [0, 0]⟩ ∧
    as_arraylist.wf ⟨2, 2, 0, true, some [0, 0]⟩ ∧
    as_arraylist_ensure (some fun _ => 0) ⟨2, 2, 0, true, some [0, 0]⟩ ((3 + 1) - 2) =
      (as_arraylist_status.AS_ARRAYLIST_OK, ⟨2, 2, 0, true, some [0, 0]⟩) ∧
    mem_load (some [0, 0]) 3 = none ∧
    mem_store (some [0, 0]) 3 9 = none ∧
    as_arraylist_set (some fun _ => 0) ⟨2, 2, 0, true, some [0, 0]⟩ 3 9 = none := by
  decide

/-- C2: on a well-formed sequence, when `as_arraylist_append(list, v)` returns
OK the size has grown by exactly 1, `get(new_size - 1)` returns `v`, and
`get(j)` is unchanged for every `j` below the old size. -/
theorem as_arraylist_append_ok (r : Option (Nat → Nat)) (list : as_arraylist) (v : Nat)
    (res : as_arraylist_result) (hwf : list.wf)
    (h : as_arraylist_append r list v = some res)
    (hok : res.rc = as_arraylist_status.AS_ARRAYLIST_OK) :
    res.list.size = list.size + 1 ∧
      as_arraylist_get res.list (res.list.size - 1) = some v ∧
      ∀ j, j < list.size → as_arraylist_get res.list j = as_arraylist_get list j := by
  unfold as_arraylist_append at h
  simp only at h
  split_ifs at h with hne
  · simp only [Option.some.injEq] at h
    subst h
    exact absurd hok hne
  · have hok1 : (as_arraylist_ensure r list 1).1 = as_arraylist_status.AS_ARRAYLIST_OK := by
      simpa using hne
    obtain ⟨hcap, hlen, hpre⟩ := as_arraylist_ensure_ok r list 1 hwf hok1
    obtain ⟨hsz, -, -⟩ := as_arraylist_ensure_size r list 1
    split at h
    · simp at h
    · rename_i xs hst
      obtain ⟨ys, hys, hi, hxs⟩ := mem_store_some _ _ _ _ hst
      simp only [Option.some.injEq] at h
      subst h
      rw [hys] at hlen hpre
      simp only [Option.getD_some] at hlen
      rw [hsz] at hi
      have hsize : (list.size + 1) % 4294967296 = list.size + 1 := by omega
      obtain ⟨-, -, hsz0, -⟩ := hwf
      simp only [hsz, hsize, as_arraylist_get, Nat.add_sub_cancel]
      refine ⟨trivial, ?_, ?_⟩
      · simp [mem_load, hxs, hi, hsz]
      · intro j hj
        have hj1 : ¬ list.size + 1 ≤ j := by omega
        have hj2 : ¬ list.size ≤ j := by omega
        simp only [hj1, hj2, if_false]
        rw [← hpre j (by omega) (by omega)]
        simp only [mem_load, hxs, hsz]
        rw [List.getElem?_set_ne (by omega)]

/-- C2 at the scenario `create(2, 2)`, `append 1`, `append 2`, `append 3`: the
third append grows the block to 4 slots and the sequence reads 1, 2, 3. -/
theorem as_arraylist_append_ok_witness :
    (as_arraylist_new true true 2 2 = some ⟨2, 2, 0, true, some [0, 0]⟩ ∧
      as_arraylist_append none ⟨2, 2, 0, true, some [0, 0]⟩ 1 =
        some ⟨as_arraylist_status.AS_ARRAYLIST_OK, ⟨2, 2, 1, true, some [1, 0]⟩, []⟩ ∧
      as_arraylist_append none ⟨2, 2, 1, true, some [1, 0]⟩ 2 =
        some ⟨as_arraylist_status.AS_ARRAYLIST_OK, ⟨2, 2, 2, true, some [1, 2]⟩, []⟩ ∧
      as_arraylist_append (some fun _ => 7) ⟨2, 2, 2, true, some [1, 2]⟩ 3 =
        some ⟨as_arraylist_status.AS_ARRAYLIST_OK, ⟨2, 4, 3, true, some [1, 2, 3, 7]⟩, []⟩ ∧
      as_arraylist.wf ⟨2, 2, 2, true, some [1, 2]⟩) ∧
    ((⟨2, 4, 3, true, some [1, 2, 3, 7]⟩ : as_arraylist).size = 2 + 1 ∧
      as_arraylist_get ⟨2, 4, 3, true, some [1, 2, 3, 7]⟩ (3 - 1) = some 3 ∧
      ∀ j, j < 2 → as_arraylist_get ⟨2, 4, 3, true, some [1, 2, 3, 7]⟩ j =
        as_arraylist_get ⟨2, 2, 2, true, some [1, 2]⟩ j) :=
  ⟨by decide,
    as_arraylist_append_ok (some fun _ => 7) ⟨2, 2, 2, true, some [1, 2]⟩ 3
      ⟨as_arraylist_status.AS_ARRAYLIST_OK, ⟨2, 4, 3, true, some [1, 2, 3, 7]⟩, []⟩
      (by decide) (by decide) rfl⟩

/-- C3 fails on `create(1, 1)` followed by `set(3, 9)` when `realloc` hands back
memory that is not zero (here the fresh slots 1 and 2 hold `57005` and slot 3
happens to hold 0): set returns OK, the size is 4 and `get(3)` is 9, but the
spanned slots 1 and 2 hold what `realloc` left there. -/
theorem as_arraylist_set_growth_garbage :
    as_arraylist_new true true 1 1 = some ⟨1, 1, 0, true, some [0]⟩ ∧
    as_arraylist_set (some fun i => if i = 3 then 0 else 57005)
        ⟨1, 1, 0, true, some [0]⟩ 3 9 =
      some ⟨as_arraylist_status.AS_ARRAYLIST_OK,
        ⟨1, 4, 4, true, some [0, 57005, 57005, 9]⟩, [as_val_call.destroy 0]⟩ ∧
    as_arraylist_get ⟨1, 4, 4, true, some [0, 57005, 57005, 9]⟩ 3 = some 9 ∧
    as_arraylist_get ⟨1, 4, 4, true, some [0, 57005, 57005, 9]⟩ 1 = some 57005 ∧
    as_arraylist_get ⟨1, 4, 4, true, some [0, 57005, 57005, 9]⟩ 2 = some 57005 := by
  decide

/-- C4 fails on the full sequence holding `5` (capacity 1, block size 1) when
`realloc` fails: ensure, append, prepend and set all return
`AS_ARRAYLIST_ERR_ALLOC`, but `list->elements` has been overwritten with `NULL`,
so the element block is no longer referenced and `get(0)` reads through `NULL`. -/
theorem as_arraylist_alloc_failure_drops_elements :
    as_arraylist_ensure none ⟨1, 1, 1, true, some [5]⟩ 1 =
      (as_arraylist_status.AS_ARRAYLIST_ERR_ALLOC, ⟨1, 1, 1, true, none⟩) ∧
    as_arraylist_append none ⟨1, 1, 1, true, some [5]⟩ 6 =
      some ⟨as_arraylist_status.AS_ARRAYLIST_ERR_ALLOC, ⟨1, 1, 1, true, none⟩, []⟩ ∧
    as_arraylist_prepend none ⟨1, 1, 1, true, some [5]⟩ 6 =
      some ⟨as_arraylist_status.AS_ARRAYLIST_ERR_ALLOC, ⟨1, 1, 1, true, none⟩, []⟩ ∧
    as_arraylist_set none ⟨1, 1, 1, true, some [5]⟩ 1 6 =
      some ⟨as_arraylist_status.AS_ARRAYLIST_ERR_ALLOC, ⟨1, 1, 1, true, none⟩, []⟩ ∧
    as_arraylist_get ⟨1, 1, 1, true, some [5]⟩ 0 = some 5 ∧
    as_arraylist_get ⟨1, 1, 1, true, none⟩ 0 = none := by
  decide

/-- C5: on a well-formed sequence with `block_size == 0` and `size == capacity`,
`as_arraylist_append` and `as_arraylist_prepend` return `AS_ARRAYLIST_ERR_MAX`
(MaxCapacityExceeded), leave the list (size, capacity, every slot) exactly as it
was, and make no call to the value core. -/
theorem as_arraylist_fixed_full (r : Option (Nat → Nat)) (list : as_arraylist) (v : Nat)
    (hwf : list.wf) (hbs : list.block_size = 0) (hfull : list.size = list.capacity) :
    as_arraylist_append r list v =
        some ⟨as_arraylist_status.AS_ARRAYLIST_ERR_MAX, list, []⟩ ∧
      as_arraylist_prepend r list v =
        some ⟨as_arraylist_status.AS_ARRAYLIST_ERR_MAX, list, []⟩ := by
  obtain ⟨-, hcap, -, -⟩ := hwf
  have hens : as_arraylist_ensure r list 1 =
      (as_arraylist_status.AS_ARRAYLIST_ERR_MAX, list) := by
    unfold as_arraylist_ensure
    rw [if_pos (by omega), if_neg (by omega)]
  unfold as_arraylist_append as_arraylist_prepend
  simp [hens]

/-- C5 at the scenario of a fixed sequence (`block_size = 0`, `capacity = 1`):
`append(5)` succeeds, a second `append(6)` (and a `prepend(6)`) fails with
`AS_ARRAYLIST_ERR_MAX`, and the sequence still has size 1 and `get(0) == 5`. -/
theorem as_arraylist_fixed_full_witness :
    (as_arraylist_new true true 1 0 = some ⟨0, 1, 0, true, some [0]⟩ ∧
      as_arraylist_append none ⟨0, 1, 0, true, some [0]⟩ 5 =
        some ⟨as_arraylist_status.AS_ARRAYLIST_OK, ⟨0, 1, 1, true, some [5]⟩, []⟩ ∧
      as_arraylist_get ⟨0, 1, 1, true, some [5]⟩ 0 = some 5) ∧
    (as_arraylist_append none ⟨0, 1, 1, true, some [5]⟩ 6 =
        some ⟨as_arraylist_status.AS_ARRAYLIST_ERR_MAX, ⟨0, 1, 1, true, some [5]⟩, []⟩ ∧
      as_arraylist_prepend none ⟨0, 1, 1, true, some [5]⟩ 6 =
        some ⟨as_arraylist_status.AS_ARRAYLIST_ERR_MAX, ⟨0, 1, 1, true, some [5]⟩, []⟩) :=
  ⟨by decide,
    as_arraylist_fixed_full none ⟨0, 1, 1, true, some [5]⟩ 6 (by decide) rfl rfl⟩

/-- C6 fails where the 32-bit arithmetic of `as_arraylist_ensure` wraps.  On the
full sequence holding `5` (capacity 1): with `block_size = 4294967295`,
`ensure(1)` computes `new_blocks = 0`, reallocates to the same single slot and
returns OK with capacity `1 < size + delta = 2`; with `block_size = 1`,
`ensure(4294967295)` finds `size + delta` wrapped to 0 and returns OK without
growing.  On the full sequence `5, 6, 7` with `block_size = 4294967294`,
`ensure(1)` wraps the new capacity down to 1 and shrinks the block. -/
theorem as_arraylist_ensure_wraps :
    as_arraylist.wf ⟨4294967295, 1, 1, true, some [5]⟩ ∧
    as_arraylist_ensure (some fun _ => 0) ⟨4294967295, 1, 1, true, some [5]⟩ 1 =
      (as_arraylist_status.AS_ARRAYLIST_OK, ⟨4294967295, 1, 1, true, some [5]⟩) ∧
    ¬ ((⟨4294967295, 1, 1, true, some [5]⟩ : as_arraylist).size + 1 ≤
      (as_arraylist_ensure (some fun _ => 0)
        ⟨4294967295, 1, 1, true, some [5]⟩ 1).2.capacity) ∧
    as_arraylist_append (some fun _ => 0) ⟨4294967295, 1, 1, true, some [5]⟩ 6 = none ∧
    as_arraylist_ensure none ⟨1, 1, 1, true, some [5]⟩ 4294967295 =
      (as_arraylist_status.AS_ARRAYLIST_OK, ⟨1, 1, 1, true, some [5]⟩) ∧
    as_arraylist_ensure (some fun _ => 0) ⟨4294967294, 3, 3, true, some [5, 6, 7]⟩ 1 =
      (as_arraylist_status.AS_ARRAYLIST_OK, ⟨4294967294, 1, 3, true, some [5]⟩) := by
  decide

/-- C7 as stated fails on the empty sequence `create(0, 1)`: `ensure(1)` must
cover a shortfall of one slot, one block of one slot covers it (`k = 1` is the
least `k` with `capacity + k * block_size ≥ size + delta`), and the code
allocates two blocks. -/
theorem as_arraylist_ensure_not_minimal :
    as_arraylist_new true true 0 1 = some ⟨1, 0, 0, false, none⟩ ∧
    as_arraylist_ensure (some fun _ => 0) ⟨1, 0, 0, false, none⟩ 1 =
      (as_arraylist_status.AS_ARRAYLIST_OK, ⟨1, 2, 0, false, some [0, 0]⟩) ∧
    ¬ ∀ k : Nat,
      ((⟨1, 0, 0, false, none⟩ : as_arraylist).size + 1 ≤
          (⟨1, 0, 0, false, none⟩ : as_arraylist).capacity +
            k * (⟨1, 0, 0, false, none⟩ : as_arraylist).block_size ∧
        ∀ k1, k1 < k →
          ¬ ((⟨1, 0, 0, false, none⟩ : as_arraylist).size + 1 ≤
            (⟨1, 0, 0, false, none⟩ : as_arraylist).capacity +
              k1 * (⟨1, 0, 0, false, none⟩ : as_arraylist).block_size)) →
      (as_arraylist_ensure (some fun _ => 0) ⟨1, 0, 0, false, none⟩ 1).2.capacity =
        (⟨1, 0, 0, false, none⟩ : as_arraylist).capacity +
          k * (⟨1, 0, 0, false, none⟩ : as_arraylist).block_size := by
  refine ⟨by decide, by decide, ?_⟩
  intro h
  have h1 := h 1 ⟨by decide, by
    intro k1 hk1
    have : k1 = 0 := by omega
    subst this
    decide⟩
  revert h1
  decide

/-- C7, amended: when `as_arraylist_ensure(list, delta)` has to grow
(`size + delta > capacity`, `block_size > 0`), the allocation succeeds and
`capacity + k * block_size` with `k = shortfall / block_size + 1` fits an `int`
(no 32-bit wrap), it returns OK and the new capacity is that
`capacity + k * block_size`; this `k` is the least for which
`capacity + k * block_size` is strictly greater than `size + delta`. -/
theorem as_arraylist_ensure_growth (junk : Nat → Nat) (list : as_arraylist) (delta : Nat)
    (hgrow : list.capacity < list.size + delta) (hbs : 0 < list.block_size)
    (hrange : list.capacity +
      ((list.size + delta - list.capacity) / list.block_size + 1) * list.block_size ≤
        2147483647) :
    (as_arraylist_ensure (some junk) list delta).1 = as_arraylist_status.AS_ARRAYLIST_OK ∧
      (as_arraylist_ensure (some junk) list delta).2.capacity =
        list.capacity +
          ((list.size + delta - list.capacity) / list.block_size + 1) * list.block_size ∧
      list.size + delta <
        list.capacity +
          ((list.size + delta - list.capacity) / list.block_size + 1) * list.block_size ∧
      ∀ k, list.size + delta < list.capacity + k * list.block_size →
        (list.size + delta - list.capacity) / list.block_size + 1 ≤ k := by
  have hq1 : (list.size + delta - list.capacity) / list.block_size * list.block_size ≤
      list.size + delta - list.capacity := Nat.div_mul_le_self _ _
  have hq2 : list.size + delta - list.capacity <
      ((list.size + delta - list.capacity) / list.block_size + 1) * list.block_size := by
    rw [Nat.mul_comm]
    exact Nat.lt_mul_div_succ _ hbs
  have hq3 : ((list.size + delta - list.capacity) / list.block_size + 1) * list.block_size =
      (list.size + delta - list.capacity) / list.block_size * list.block_size +
        list.block_size := Nat.succ_mul _ _
  have e1 : (list.size + delta) % 4294967296 = list.size + delta := by omega
  have e2 : (list.size + delta + 4294967296 - list.capacity) % 4294967296 =
      list.size + delta - list.capacity := by omega
  have e3 : (list.size + delta - list.capacity + list.block_size) % 4294967296 =
      list.size + delta - list.capacity + list.block_size := by omega
  have e4 : (list.size + delta - list.capacity + list.block_size) / list.block_size =
      (list.size + delta - list.capacity) / list.block_size + 1 :=
    Nat.add_div_right _ hbs
  have e5 : ((list.size + delta - list.capacity) / list.block_size + 1) * list.block_size %
      4294967296 =
      ((list.size + delta - list.capacity) / list.block_size + 1) * list.block_size := by
    omega
  have e6 : (list.capacity +
      ((list.size + delta - list.capacity) / list.block_size + 1) * list.block_size) %
        4294967296 =
      list.capacity +
        ((list.size + delta - list.capacity) / list.block_size + 1) * list.block_size := by
    omega
  have e7 : int_to_size_t (list.capacity +
      ((list.size + delta - list.capacity) / list.block_size + 1) * list.block_size) =
      list.capacity +
        ((list.size + delta - list.capacity) / list.block_size + 1) * list.block_size := by
    unfold int_to_size_t
    rw [if_pos (by omega)]
  have hens : as_arraylist_ensure (some junk) list delta =
      (as_arraylist_status.AS_ARRAYLIST_OK,
        { list with
          elements := some ((List.range ((8 * (list.capacity +
            ((list.size + delta - list.capacity) / list.block_size + 1) * list.block_size) %
              18446744073709551616) / 8)).map fun i =>
                ((list.elements.getD [])[i]?).getD (junk i))
          capacity := list.capacity +
            ((list.size + delta - list.capacity) / list.block_size + 1) *
              list.block_size }) := by
    unfold as_arraylist_ensure
    rw [e1, if_pos hgrow, if_pos hbs]
    simp only [e2, e3, e4, e5, e6, e7]
    unfold realloc
    rw [if_neg (by omega)]
  rw [hens]
  refine ⟨rfl, rfl, by omega, ?_⟩
  intro k hk
  have hlt : list.size + delta - list.capacity < k * list.block_size := by omega
  have := (Nat.div_lt_iff_lt_mul hbs).mpr hlt
  omega

/-- C7 amended, on the full sequence `1, 2` with block size 2: one more slot is
a shortfall of 1, `k = 1 / 2 + 1 = 1`, the capacity becomes `2 + 1 * 2 = 4`. -/
theorem as_arraylist_ensure_growth_witness :
    as_arraylist.wf ⟨2, 2, 2, true, some [1, 2]⟩ ∧
    (as_arraylist_ensure (some fun _ => 7) ⟨2, 2, 2, true, some [1, 2]⟩ 1).1 =
      as_arraylist_status.AS_ARRAYLIST_OK ∧
    (as_arraylist_ensure (some fun _ => 7) ⟨2, 2, 2, true, some [1, 2]⟩ 1).2.capacity =
      2 + ((2 + 1 - 2) / 2 + 1) * 2 ∧
    2 + 1 < 2 + ((2 + 1 - 2) / 2 + 1) * 2 ∧
    ∀ k, 2 + 1 < 2 + k * 2 → (2 + 1 - 2) / 2 + 1 ≤ k :=
  ⟨by decide,
    as_arraylist_ensure_growth (fun _ => 7) ⟨2, 2, 2, true, some [1, 2]⟩ 1
      (by decide) (by decide) (by decide)⟩

/-- Growth that does not lower the capacity keeps the content.  On a
well-formed sequence, whenever `as_arraylist_ensure` returns OK without
lowering the capacity (it grew the block, or had nothing to do), the size is
unchanged and `get(j)` returns the same value before and after for every
`j < size`. -/
theorem as_arraylist_ensure_preserves (r : Option (Nat → Nat)) (list : as_arraylist)
    (delta : Nat) (hwf : list.wf)
    (hok : (as_arraylist_ensure r list delta).1 = as_arraylist_status.AS_ARRAYLIST_OK)
    (hgrow : list.capacity ≤ (as_arraylist_ensure r list delta).2.capacity) :
    (as_arraylist_ensure r list delta).2.size = list.size ∧
      ∀ j, j < list.size →
        as_arraylist_get (as_arraylist_ensure r list delta).2 j = as_arraylist_get list j := by
  obtain ⟨-, -, hpre⟩ := as_arraylist_ensure_ok r list delta hwf hok
  obtain ⟨hsz, -, -⟩ := as_arraylist_ensure_size r list delta
  obtain ⟨-, -, hle, -⟩ := hwf
  refine ⟨hsz, ?_⟩
  intro j hj
  unfold as_arraylist_get
  rw [hsz, if_neg (by omega), if_neg (by omega)]
  exact hpre j (by omega) (by omega)

/-- C8 fails where the 32-bit arithmetic of `as_arraylist_ensure` wraps.  On the
full sequence `5, 6, 7` (capacity 3) with `block_size = 4294967294`, `ensure(1)`
finds `size + delta = 4 > 3`, computes `new_blocks = 1` and a new capacity
`3 + 4294967294` that wraps to 1, reallocates the block to that one slot and
returns OK: the size is still 3, `get(0)` is still 5, but `get(1)`, which was
6, and `get(2)`, which was 7, now read outside the block.  The same step is
taken by `as_arraylist_append`, and by `as_arraylist_set` at index 3. -/
theorem as_arraylist_ensure_loses_content :
    as_arraylist.wf ⟨4294967294, 3, 3, true, some [5, 6, 7]⟩ ∧
    as_arraylist_ensure (some fun _ => 0) ⟨4294967294, 3, 3, true, some [5, 6, 7]⟩ 1 =
      (as_arraylist_status.AS_ARRAYLIST_OK, ⟨4294967294, 1, 3, true, some [5]⟩) ∧
    (as_arraylist_get ⟨4294967294, 3, 3, true, some [5, 6, 7]⟩ 0 = some 5 ∧
      as_arraylist_get ⟨4294967294, 3, 3, true, some [5, 6, 7]⟩ 1 = some 6 ∧
      as_arraylist_get ⟨4294967294, 3, 3, true, some [5, 6, 7]⟩ 2 = some 7) ∧
    (as_arraylist_get (as_arraylist_ensure (some fun _ => 0)
        ⟨4294967294, 3, 3, true, some [5, 6, 7]⟩ 1).2 0 = some 5 ∧
      as_arraylist_get (as_arraylist_ensure (some fun _ => 0)
        ⟨4294967294, 3, 3, true, some [5, 6, 7]⟩ 1).2 1 = none ∧
      as_arraylist_get (as_arraylist_ensure (some fun _ => 0)
        ⟨4294967294, 3, 3, true, some [5, 6, 7]⟩ 1).2 2 = none) ∧
    as_arraylist_append (some fun _ => 0) ⟨4294967294, 3, 3, true, some [5, 6, 7]⟩ 8 = none ∧
    as_arraylist_set (some fun _ => 0) ⟨4294967294, 3, 3, true, some [5, 6, 7]⟩ 3 8 = none := by
  decide

/-- C9 fails on the sequence `1, 2, hole`: `as_arraylist_tail` returns a list of
size 0 whose two slots are empty (it copies from the destination's own slots and
never sets the size) while `as_arraylist_drop(list, 1)` returns the sequence
`2, hole` of size 2; on the sequence `1, 2` tail reads slot 1 of its own 1-slot
block. -/
theorem as_arraylist_tail_differs_from_drop :
    as_arraylist.wf ⟨1, 3, 3, true, some [1, 2, 0]⟩ ∧
    as_arraylist_tail true true ⟨1, 3, 3, true, some [1, 2, 0]⟩ =
      some (some ⟨1, 2, 0, true, some [0, 0]⟩, [as_val_call.reserve 2]) ∧
    as_arraylist_drop true true ⟨1, 3, 3, true, some [1, 2, 0]⟩ 1 =
      some (⟨1, 2, 2, true, some [2, 0]⟩, [as_val_call.reserve 2]) ∧
    as_arraylist_get ⟨1, 2, 0, true, some [0, 0]⟩ 0 = some 0 ∧
    as_arraylist_get ⟨1, 3, 3, true, some [1, 2, 0]⟩ 1 = some 2 ∧
    as_arraylist_tail true true ⟨1, 2, 2, true, some [1, 2]⟩ = none := by
  decide

/-- C10: for a well-formed sequence and any `n`, when the allocations succeed
`as_arraylist_take(list, n)` and `as_arraylist_drop(list, n)` return lists of
sizes `min(n, size)` and `size - min(n, size)` whose slot contents are the first
`n` and the remaining slots of the source, so that together, in this order, they
are the source's slots `[0, size)`, holes included; for `n > size` take yields
all `size` slots and drop an empty sequence. -/
theorem as_arraylist_take_drop (list : as_arraylist) (n : Nat) (hwf : list.wf) :
    ∃ t d ct cd,
      as_arraylist_take true true list n = some (t, ct) ∧
      as_arraylist_drop true true list n = some (d, cd) ∧
      t.size = min n list.size ∧ d.size = list.size - min n list.size ∧
      t.contents = list.contents.take n ∧ d.contents = list.contents.drop n ∧
      t.contents ++ d.contents = list.contents ∧
      (list.size < n → t.contents = list.contents ∧ d.size = 0 ∧ d.contents = []) := by
  obtain ⟨-, -, hsz, hlen⟩ := hwf
  have hc : (if n < list.size then n else list.size) = min n list.size := by
    split_ifs <;> omega
  obtain ⟨et, ct, hrt, het⟩ :=
    as_arraylist_copy_new list.elements list.block_size (min n list.size) 0 (by omega)
  obtain ⟨ed, cd, hrd, hed⟩ :=
    as_arraylist_copy_new list.elements list.block_size (list.size - min n list.size)
      (min n list.size) (by omega)
  have htake : as_arraylist_take true true list n =
      some ({ as_arraylist_init true (min n list.size) list.block_size with
        size := min n list.size, elements := et }, ct) := by
    unfold as_arraylist_take
    simp only [hc, as_arraylist_new, if_true, hrt]
  have hdrop : as_arraylist_drop true true list n =
      some ({ as_arraylist_init true (list.size - min n list.size) list.block_size with
        size := list.size - min n list.size, elements := ed }, cd) := by
    unfold as_arraylist_drop
    simp only [hc, as_arraylist_new, if_true, hrd]
  have ht : (et.getD []).take (min n list.size) = list.contents.take n := by
    rw [het, as_arraylist.contents, List.drop_zero, List.take_take, Nat.min_comm]
  have hd : (ed.getD []).take (list.size - min n list.size) = list.contents.drop n := by
    rw [hed, as_arraylist.contents]
    apply List.ext_getElem?
    intro k
    simp only [List.getElem?_take, List.getElem?_drop]
    by_cases hn : n ≤ list.size
    · rw [Nat.min_eq_left hn]
      by_cases hk : k < list.size - n
      · rw [if_pos hk, if_pos (by omega)]
      · rw [if_neg hk, if_neg (by omega)]
    · rw [Nat.min_eq_right (by omega), Nat.sub_self, if_neg (by omega), if_neg (by omega)]
  refine ⟨_, _, ct, cd, htake, hdrop, rfl, rfl, ht, hd, ?_, ?_⟩
  · show (et.getD []).take (min n list.size) ++
      (ed.getD []).take (list.size - min n list.size) = list.contents
    rw [ht, hd, List.take_append_drop]
  · intro hn
    refine ⟨?_, by simp only []; omega, ?_⟩
    · show (et.getD []).take (min n list.size) = list.contents
      rw [ht]
      exact List.take_of_length_le (by simp [as_arraylist.contents]; omega)
    · show (ed.getD []).take (list.size - min n list.size) = []
      rw [hd]
      exact List.drop_of_length_le (by simp [as_arraylist.contents]; omega)

/-- C10 on the sequence `7, hole, 9` (capacity 4) with `n = 2`: take gives
`7, hole`, drop gives `9`. -/
theorem as_arraylist_take_drop_witness :
    as_arraylist.wf ⟨4, 4, 3, true, some [7, 0, 9, 0]⟩ ∧
    as_arraylist_take true true ⟨4, 4, 3, true, some [7, 0, 9, 0]⟩ 2 =
      some (⟨4, 2, 2, true, some [7, 0]⟩, [as_val_call.reserve 7]) ∧
    as_arraylist_drop true true ⟨4, 4, 3, true, some [7, 0, 9, 0]⟩ 2 =
      some (⟨4, 1, 1, true, some [9]⟩, [as_val_call.reserve 9]) ∧
    ∃ t d ct cd,
      as_arraylist_take true true ⟨4, 4, 3, true, some [7, 0, 9, 0]⟩ 2 = some (t, ct) ∧
      as_arraylist_drop true true ⟨4, 4, 3, true, some [7, 0, 9, 0]⟩ 2 = some (d, cd) ∧
      t.size = min 2 3 ∧ d.size = 3 - min 2 3 ∧
      t.contents = (as_arraylist.contents ⟨4, 4, 3, true, some [7, 0, 9, 0]⟩).take 2 ∧
      d.contents = (as_arraylist.contents ⟨4, 4, 3, true, some [7, 0, 9, 0]⟩).drop 2 ∧
      t.contents ++ d.contents = as_arraylist.contents ⟨4, 4, 3, true, some [7, 0, 9, 0]⟩ ∧
      (3 < 2 → t.contents = as_arraylist.contents ⟨4, 4, 3, true, some [7, 0, 9, 0]⟩ ∧
        d.size = 0 ∧ d.contents = []) :=
  ⟨by decide, by decide, by decide,
    as_arraylist_take_drop ⟨4, 4, 3, true, some [7, 0, 9, 0]⟩ 2 (by decide)⟩

/-! ## Reservations, head, prepend, set, foreach, release -/

/-- The copying loop of `drop` and `take` calls `as_val_reserve` once on every
non-`NULL` slot it copies, in index order, and on nothing else. -/
theorem as_arraylist_copy_loop_calls (xs : List Nat) :
    ∀ (todo i j : Nat) (ys : List Nat) (calls : List as_val_call),
      i + todo ≤ xs.length → j + todo ≤ ys.length →
      ∃ zs,
        as_arraylist_copy_loop (some xs) todo i j (some ys) calls =
          some (some zs,
            calls ++ (((xs.drop i).take todo).filter fun v => decide (v ≠ 0)).map
              as_val_call.reserve) := by
  intro todo
  induction todo with
  | zero =>
    intro i j ys calls _ _
    exact ⟨ys, by simp [as_arraylist_copy_loop]⟩
  | succ todo ih =>
    intro i j ys calls hi hj
    have hlt : i < xs.length := by omega
    have hload : mem_load (some xs) i = some xs[i] := by
      simp [mem_load, List.getElem?_eq_getElem hlt]
    have hstore : ∀ v, mem_store (some ys) j v = some (ys.set j v) := by
      intro v
      simp [mem_store, show j < ys.length by omega]
    have hdrop : (xs.drop i).take (todo + 1) = xs[i] :: (xs.drop (i + 1)).take todo := by
      rw [List.drop_eq_getElem_cons hlt, List.take_succ_cons]
    unfold as_arraylist_copy_loop
    rw [hload]
    simp only []
    by_cases hp : xs[i] = 0
    · obtain ⟨zs, hrun⟩ := ih (i + 1) (j + 1) (ys.set j 0) calls (by omega) (by simp; omega)
      rw [if_neg (by simpa using hp), hstore]
      simp only []
      refine ⟨zs, ?_⟩
      rw [hrun, hdrop]
      simp [hp]
    · obtain ⟨zs, hrun⟩ := ih (i + 1) (j + 1) (ys.set j xs[i])
        (calls ++ [as_val_call.reserve xs[i]]) (by omega) (by simp; omega)
      rw [if_pos hp, hstore]
      simp only []
      refine ⟨zs, ?_⟩
      rw [hrun, hdrop]
      simp [hp]

/-- On a well-formed sequence, with the allocations succeeding, the calls that
`as_arraylist_take` and `as_arraylist_drop` make to the value core are one
`as_val_reserve` for each populated slot of the list they return, in order. -/
theorem as_arraylist_take_drop_reserves (list : as_arraylist) (n : Nat) (hwf : list.wf) :
    ∃ t d,
      as_arraylist_take true true list n =
        some (t, (t.contents.filter fun v => decide (v ≠ 0)).map as_val_call.reserve) ∧
      as_arraylist_drop true true list n =
        some (d, (d.contents.filter fun v => decide (v ≠ 0)).map as_val_call.reserve) := by
  obtain ⟨-, -, hsz, hlen⟩ := hwf
  have hc : (if n < list.size then n else list.size) = min n list.size := by
    split_ifs <;> omega
  have key : ∀ m i, i + m ≤ (list.elements.getD []).length →
      ∃ elements, as_arraylist_copy_loop list.elements m i 0
          (as_arraylist_init true m list.block_size).elements [] =
          some (elements, ((((list.elements.getD []).drop i).take m).filter
            fun v => decide (v ≠ 0)).map as_val_call.reserve) ∧
        (elements.getD []).take m = ((list.elements.getD []).drop i).take m := by
    intro m i him
    obtain ⟨e1, c1, hrun1, hcont⟩ :=
      as_arraylist_copy_new list.elements list.block_size m i him
    rcases Nat.eq_zero_or_pos m with hm | hm
    · subst hm
      exact ⟨(as_arraylist_init true 0 list.block_size).elements,
        by simp [as_arraylist_copy_loop], by simp⟩
    · cases hel : list.elements with
      | none => simp [hel] at him; omega
      | some xs =>
        simp only [hel, Option.getD_some] at him hrun1 hcont ⊢
        obtain ⟨zs, hrun⟩ :=
          as_arraylist_copy_loop_calls xs m i 0 (List.replicate m 0) [] him (by simp)
        have hrun2 : as_arraylist_copy_loop (some xs) m i 0
            (as_arraylist_init true m list.block_size).elements [] =
            some (some zs, (((xs.drop i).take m).filter
              fun v => decide (v ≠ 0)).map as_val_call.reserve) := by
          simpa [as_arraylist_init, hm, calloc] using hrun
        have he1 : e1 = some zs := by
          have := hrun1.symm.trans hrun2
          simp only [Option.some.injEq, Prod.mk.injEq] at this
          exact this.1
        exact ⟨some zs, hrun2, he1 ▸ hcont⟩
  obtain ⟨et, hrt, het⟩ := key (min n list.size) 0 (by omega)
  obtain ⟨ed, hrd, hed⟩ := key (list.size - min n list.size) (min n list.size) (by omega)
  refine ⟨{ as_arraylist_init true (min n list.size) list.block_size with
      size := min n list.size, elements := et },
    { as_arraylist_init true (list.size - min n list.size) list.block_size with
      size := list.size - min n list.size, elements := ed }, ?_, ?_⟩
  · unfold as_arraylist_take
    simp only [hc, as_arraylist_new, if_true, hrt, as_arraylist.contents, het]
  · unfold as_arraylist_drop
    simp only [hc, as_arraylist_new, if_true, hrd, as_arraylist.contents, hed]

/-- C11 fails for `as_arraylist_tail`.  On the sequence `1, 2, hole` it calls
`as_val_reserve` on the element `2` and returns a list (size 0, two empty slots)
that holds no element at all: one reservation taken, no populated slot in the
result.  `as_arraylist_drop(list, 1)` on the same source takes the same
reservation and does carry `2` into its result. -/
theorem as_arraylist_tail_reserves_unplaced :
    as_arraylist.wf ⟨1, 3, 3, true, some [1, 2, 0]⟩ ∧
    as_arraylist_tail true true ⟨1, 3, 3, true, some [1, 2, 0]⟩ =
      some (some ⟨1, 2, 0, true, some [0, 0]⟩, [as_val_call.reserve 2]) ∧
    as_val_reserved [as_val_call.reserve 2] = [2] ∧
    (as_arraylist.contents ⟨1, 2, 0, true, some [0, 0]⟩).filter (fun v => decide (v ≠ 0)) = [] ∧
    ([0, 0] : List Nat).filter (fun v => decide (v ≠ 0)) = [] ∧
    as_arraylist_drop true true ⟨1, 3, 3, true, some [1, 2, 0]⟩ 1 =
      some (⟨1, 2, 2, true, some [2, 0]⟩, [as_val_call.reserve 2]) ∧
    (as_arraylist.contents ⟨1, 2, 2, true, some [2, 0]⟩).filter (fun v => decide (v ≠ 0)) =
      [2] := by
  decide

/-- On a non-empty sequence `as_arraylist_head` and `as_arraylist_get(list, 0)`
agree: both read slot 0. -/
theorem as_arraylist_head_eq_get (list : as_arraylist) (h : 0 < list.size) :
    as_arraylist_head list = as_arraylist_get list 0 := by
  unfold as_arraylist_head as_arraylist_get
  rw [if_neg (by omega)]

/-- C12 fails on an empty sequence without element storage.  For
`as_arraylist_new(0, 4)` (capacity 0, `elements == NULL`), and for that list
after `as_arraylist_release`, `as_arraylist_head` reads `list->elements[0]`
through `NULL`, while `as_arraylist_get(list, 0)` returns absent. -/
theorem as_arraylist_head_null_deref :
    as_arraylist_new true true 0 4 = some ⟨4, 0, 0, false, none⟩ ∧
    as_arraylist.wf ⟨4, 0, 0, false, none⟩ ∧
    as_arraylist_head ⟨4, 0, 0, false, none⟩ = none ∧
    as_arraylist_get ⟨4, 0, 0, false, none⟩ 0 = some 0 ∧
    as_arraylist_release ⟨4, 2, 1, true, some [7, 0]⟩ =
      some (true, ⟨4, 0, 0, true, none⟩, [as_val_call.destroy 7]) ∧
    as_arraylist_head ⟨4, 0, 0, true, none⟩ = none ∧
    as_arraylist_get ⟨4, 0, 0, true, none⟩ 0 = some 0 := by
  decide

/-- When the shifting loop of `as_arraylist_prepend`, entered with counter `i`
on a block, completes, every slot `k` in `[1, i]` holds what slot `k - 1` held
and the other slots are as they were. -/
theorem as_arraylist_prepend_loop_some :
    ∀ (i : Nat) (xs : List Nat) (shifted : Option (List Nat)),
      as_arraylist_prepend_loop i (some xs) = some shifted →
      ∃ zs, shifted = some zs ∧ zs.length = xs.length ∧ (0 < i → i < xs.length) ∧
        ∀ k, zs[k]? = if 1 ≤ k ∧ k ≤ i then xs[k - 1]? else xs[k]? := by
  intro i
  induction i with
  | zero =>
    intro xs shifted h
    simp only [as_arraylist_prepend_loop, Option.some.injEq] at h
    refine ⟨xs, h.symm, rfl, by omega, ?_⟩
    intro k
    rw [if_neg (by omega)]
  | succ i ih =>
    intro xs shifted h
    unfold as_arraylist_prepend_loop at h
    cases hld : mem_load (some xs) i with
    | none => simp [hld] at h
    | some p =>
      simp only [hld] at h
      cases hst : mem_store (some xs) (i + 1) p with
      | none => simp [hst] at h
      | some ys =>
        simp only [hst] at h
        obtain ⟨ys0, hys0, hlt, hys⟩ := mem_store_some _ _ _ _ hst
        simp only [Option.some.injEq] at hys0
        subst hys0
        obtain ⟨zs, hzs, hlen, -, hget⟩ := ih ys shifted h
        refine ⟨zs, hzs, by simp [hlen, hys], fun _ => hlt, ?_⟩
        intro k
        rw [hget k, hys]
        simp only [mem_load] at hld
        by_cases h1 : 1 ≤ k ∧ k ≤ i
        · rw [if_pos h1, if_pos (by omega), List.getElem?_set_ne (by omega)]
        · rw [if_neg h1]
          by_cases h2 : k = i + 1
          · subst h2
            rw [if_pos (by omega), List.getElem?_set_self hlt, Nat.add_sub_cancel, hld]
          · rw [if_neg (by omega), List.getElem?_set_ne (by omega)]

/-- C13: on a well-formed sequence, when `as_arraylist_prepend(list, v)` returns
OK the size has grown by exactly 1, `get(0)` returns `v`, and `get(j + 1)` after
the call equals `get(j)` before it for every `j` below the old size (holes
included). -/
theorem as_arraylist_prepend_ok (r : Option (Nat → Nat)) (list : as_arraylist) (v : Nat)
    (res : as_arraylist_result) (hwf : list.wf)
    (h : as_arraylist_prepend r list v = some res)
    (hok : res.rc = as_arraylist_status.AS_ARRAYLIST_OK) :
    res.list.size = list.size + 1 ∧
      as_arraylist_get res.list 0 = some v ∧
      ∀ j, j < list.size → as_arraylist_get res.list (j + 1) = as_arraylist_get list j := by
  obtain ⟨hsz, -, -⟩ := as_arraylist_ensure_size r list 1
  have hcap0 : list.capacity ≤ 2147483647 := hwf.2.1
  have hsz0 : list.size ≤ list.capacity := hwf.2.2.1
  unfold as_arraylist_prepend at h
  simp only [hsz, if_pos (show list.size < 2147483648 by omega)] at h
  split_ifs at h with hne
  · simp only [Option.some.injEq] at h
    subst h
    exact absurd hok hne
  · have hok1 : (as_arraylist_ensure r list 1).1 = as_arraylist_status.AS_ARRAYLIST_OK := by
      simpa using hne
    obtain ⟨hcap, hlen, hpre⟩ := as_arraylist_ensure_ok r list 1 hwf hok1
    cases hel : (as_arraylist_ensure r list 1).2.elements with
    | none =>
      rw [hel] at h
      rcases Nat.eq_zero_or_pos list.size with h0 | h0
      · rw [h0] at h
        simp [as_arraylist_prepend_loop, mem_store] at h
      · obtain ⟨m, hm⟩ : ∃ m, list.size = m + 1 := ⟨list.size - 1, by omega⟩
        rw [hm] at h
        simp [as_arraylist_prepend_loop, mem_load] at h
    | some xs =>
      rw [hel] at h hlen hpre
      simp only [Option.getD_some] at hlen
      cases hlp : as_arraylist_prepend_loop list.size (some xs) with
      | none => simp [hlp] at h
      | some shifted =>
        simp only [hlp] at h
        obtain ⟨zs, hzs, hzlen, hbound, hget⟩ := as_arraylist_prepend_loop_some _ _ _ hlp
        subst hzs
        cases hst : mem_store (some zs) 0 v with
        | none => simp [hst] at h
        | some ys =>
          simp only [hst, Option.some.injEq] at h
          obtain ⟨zs0, hzs0, hlt, hys⟩ := mem_store_some _ _ _ _ hst
          simp only [Option.some.injEq] at hzs0
          subst hzs0
          subst h
          have hsize : (list.size + 1) % 4294967296 = list.size + 1 := by omega
          simp only [hsz, hsize, as_arraylist_get]
          refine ⟨trivial, ?_, ?_⟩
          · rw [if_neg (by omega)]
            simp [mem_load, hys, hlt]
          · intro j hj
            have hb := hbound (by omega)
            rw [if_neg (by omega), if_neg (by omega), ← hpre j (by omega) (by omega)]
            simp only [mem_load, hys]
            rw [List.getElem?_set_ne (by omega), hget (j + 1), if_pos (by omega),
              Nat.add_sub_cancel]

/-- C13 on the sequence `1, hole, 3` (capacity 4): `prepend(9)` gives
`9, 1, hole, 3`. -/
theorem as_arraylist_prepend_ok_witness :
    (as_arraylist.wf ⟨2, 4, 3, true, some [1, 0, 3, 0]⟩ ∧
      as_arraylist_prepend none ⟨2, 4, 3, true, some [1, 0, 3, 0]⟩ 9 =
        some ⟨as_arraylist_status.AS_ARRAYLIST_OK, ⟨2, 4, 4, true, some [9, 1, 0, 3]⟩, []⟩) ∧
    ((⟨2, 4, 4, true, some [9, 1, 0, 3]⟩ : as_arraylist).size = 3 + 1 ∧
      as_arraylist_get ⟨2, 4, 4, true, some [9, 1, 0, 3]⟩ 0 = some 9 ∧
      ∀ j, j < 3 → as_arraylist_get ⟨2, 4, 4, true, some [9, 1, 0, 3]⟩ (j + 1) =
        as_arraylist_get ⟨2, 4, 3, true, some [1, 0, 3, 0]⟩ j) :=
  ⟨by decide,
    as_arraylist_prepend_ok none ⟨2, 4, 3, true, some [1, 0, 3, 0]⟩ 9
      ⟨as_arraylist_status.AS_ARRAYLIST_OK, ⟨2, 4, 4, true, some [9, 1, 0, 3]⟩, []⟩
      (by decide) (by decide) rfl⟩

/-- C14: on a well-formed sequence and for every index `i < size`,
`as_arraylist_set(list, i, v)` returns OK; its one call to the value core is
`as_val_destroy` on the previous occupant `old` of slot `i`, which releases
`old` once, or nothing when the slot was a hole; afterwards `get(i)` returns
`v`, and size, capacity and `get(j)` for every `j ≠ i` are unchanged. -/
theorem as_arraylist_set_within (r : Option (Nat → Nat)) (list : as_arraylist) (i v : Nat)
    (hwf : list.wf) (hi : i < list.size) :
    ∃ res old,
      as_arraylist_set r list i v = some res ∧
      res.rc = as_arraylist_status.AS_ARRAYLIST_OK ∧
      mem_load list.elements i = some old ∧
      res.calls = [as_val_call.destroy old] ∧
      as_val_released res.calls = (if old = 0 then [] else [old]) ∧
      as_arraylist_get res.list i = some v ∧
      res.list.size = list.size ∧ res.list.capacity = list.capacity ∧
      ∀ j, j ≠ i → as_arraylist_get res.list j = as_arraylist_get list j := by
  obtain ⟨-, -, hsz, hlen⟩ := hwf
  cases hel : list.elements with
  | none => simp [hel] at hlen; omega
  | some xs =>
    simp only [hel, Option.getD_some] at hlen
    have hlt : i < xs.length := by omega
    refine ⟨⟨as_arraylist_status.AS_ARRAYLIST_OK,
      { list with elements := some (xs.set i v) }, [as_val_call.destroy xs[i]]⟩, xs[i],
      ?_, rfl, ?_, rfl, ?_, ?_, rfl, rfl, ?_⟩
    · unfold as_arraylist_set
      simp only [if_neg (show ¬ list.capacity ≤ i by omega), ne_eq, not_true_eq_false,
        if_false, hel, mem_load, mem_store, List.getElem?_eq_getElem hlt, if_pos hlt,
        if_neg (show ¬ list.size ≤ i by omega)]
    · simp [mem_load, List.getElem?_eq_getElem hlt]
    · by_cases h0 : xs[i] = 0 <;> simp [as_val_released, h0]
    · simp only [as_arraylist_get, if_neg (show ¬ list.size ≤ i by omega), mem_load]
      exact List.getElem?_set_self hlt
    · intro j hj
      simp only [as_arraylist_get, hel, mem_load]
      rw [List.getElem?_set_ne (by omega)]

/-- C14 on the sequence `1, hole, 3`: `set(2, 9)` destroys the old `3`, and
`set(1, 9)` on the hole passes `NULL` to `as_val_destroy`, releasing nothing. -/
theorem as_arraylist_set_within_witness :
    (as_arraylist.wf ⟨2, 4, 3, true, some [1, 0, 3, 0]⟩ ∧
      as_arraylist_set none ⟨2, 4, 3, true, some [1, 0, 3, 0]⟩ 2 9 =
        some ⟨as_arraylist_status.AS_ARRAYLIST_OK, ⟨2, 4, 3, true, some [1, 0, 9, 0]⟩,
          [as_val_call.destroy 3]⟩ ∧
      as_arraylist_set none ⟨2, 4, 3, true, some [1, 0, 3, 0]⟩ 1 9 =
        some ⟨as_arraylist_status.AS_ARRAYLIST_OK, ⟨2, 4, 3, true, some [1, 9, 3, 0]⟩,
          [as_val_call.destroy 0]⟩ ∧
      as_val_released [as_val_call.destroy 0] = []) ∧
    ∃ res old,
      as_arraylist_set none ⟨2, 4, 3, true, some [1, 0, 3, 0]⟩ 2 9 = some res ∧
      res.rc = as_arraylist_status.AS_ARRAYLIST_OK ∧
      mem_load (some [1, 0, 3, 0]) 2 = some old ∧
      res.calls = [as_val_call.destroy old] ∧
      as_val_released res.calls = (if old = 0 then [] else [old]) ∧
      as_arraylist_get res.list 2 = some 9 ∧
      res.list.size = 3 ∧ res.list.capacity = 4 ∧
      ∀ j, j ≠ 2 → as_arraylist_get res.list j =
        as_arraylist_get ⟨2, 4, 3, true, some [1, 0, 3, 0]⟩ j :=
  ⟨by decide,
    as_arraylist_set_within none ⟨2, 4, 3, true, some [1, 0, 3, 0]⟩ 2 9
      (by decide) (by decide)⟩

/-- The loop of `as_arraylist_release`, run inside the block, calls
`as_val_destroy` once on every non-`NULL` slot of `[i, i + n)`, in index
order. -/
theorem as_arraylist_release_loop_spec :
    ∀ (n i : Nat) (xs : List Nat) (calls : List as_val_call),
      i + n ≤ xs.length →
      ∃ zs,
        as_arraylist_release_loop n i (some xs) calls =
          some (some zs,
            calls ++ (((xs.drop i).take n).filter fun v => decide (v ≠ 0)).map
              as_val_call.destroy) := by
  intro n
  induction n with
  | zero =>
    intro i xs calls _
    exact ⟨xs, by simp [as_arraylist_release_loop]⟩
  | succ n ih =>
    intro i xs calls hi
    have hlt : i < xs.length := by omega
    have hdrop : (xs.drop i).take (n + 1) = xs[i] :: (xs.drop (i + 1)).take n := by
      rw [List.drop_eq_getElem_cons hlt, List.take_succ_cons]
    obtain ⟨zs, hrun⟩ := ih (i + 1) (xs.set i 0)
      (if xs[i] ≠ 0 then calls ++ [as_val_call.destroy xs[i]] else calls) (by simp; omega)
    refine ⟨zs, ?_⟩
    unfold as_arraylist_release_loop
    simp only [mem_load, mem_store, List.getElem?_eq_getElem hlt, if_pos hlt]
    rw [hrun, hdrop, List.drop_set_of_lt 0 xs (Nat.lt_succ_self i)]
    by_cases hp : xs[i] = 0 <;> simp [hp]

/-- C16: on a well-formed sequence `as_arraylist_release` returns `true`; its
calls to the value core are one `as_val_destroy` for each populated slot of
`[0, size)`, in increasing index order, and none for a hole; it leaves size 0,
capacity 0 and no element storage. -/
theorem as_arraylist_release_spec (list : as_arraylist) (hwf : list.wf) :
    ∃ after calls,
      as_arraylist_release list = some (true, after, calls) ∧
      calls = (list.contents.filter fun v => decide (v ≠ 0)).map as_val_call.destroy ∧
      as_val_released calls = list.contents.filter (fun v => decide (v ≠ 0)) ∧
      after.size = 0 ∧ after.capacity = 0 ∧ after.elements = none := by
  obtain ⟨-, -, hsz, hlen⟩ := hwf
  have hrel : ∀ ws : List Nat, (∀ w ∈ ws, w ≠ 0) →
      as_val_released (ws.map as_val_call.destroy) = ws := by
    intro ws
    induction ws with
    | nil => intro _; rfl
    | cons w ws ih =>
      intro hall
      have hw : w ≠ 0 := hall w (List.mem_cons_self _ _)
      have ih1 := ih (fun x hx => hall x (List.mem_cons_of_mem _ hx))
      simp only [as_val_released] at ih1 ⊢
      simp only [List.map_cons, List.filterMap_cons, if_neg hw, ih1]
  have hfil : ∀ ws : List Nat, as_val_released
      ((ws.filter fun v => decide (v ≠ 0)).map as_val_call.destroy) =
        ws.filter (fun v => decide (v ≠ 0)) := by
    intro ws
    apply hrel
    intro w hw
    simpa using (List.mem_filter.mp hw).2
  cases hel : list.elements with
  | none =>
    refine ⟨{ list with elements := none, size := 0, capacity := 0 }, [],
      by simp [as_arraylist_release, hel], ?_, ?_, rfl, rfl, rfl⟩
    · simp [as_arraylist.contents, hel]
    · simp [as_arraylist.contents, hel, as_val_released]
  | some xs =>
    simp only [hel, Option.getD_some] at hlen
    obtain ⟨zs, hrun⟩ := as_arraylist_release_loop_spec list.size 0 xs [] (by omega)
    simp only [List.nil_append, List.drop_zero] at hrun
    refine ⟨{ list with elements := none, size := 0, capacity := 0 },
      ((xs.take list.size).filter fun v => decide (v ≠ 0)).map as_val_call.destroy,
      by simp only [as_arraylist_release, hel, hrun], ?_, ?_, rfl, rfl, rfl⟩
    · simp [as_arraylist.contents, hel]
    · simpa [as_arraylist.contents, hel] using hfil (xs.take list.size)

/-- C16 on the sequence `7, hole, 9` (capacity 4): release destroys 7 then 9. -/
theorem as_arraylist_release_spec_witness :
    (as_arraylist.wf ⟨4, 4, 3, true, some [7, 0, 9, 0]⟩ ∧
      as_arraylist_release ⟨4, 4, 3, true, some [7, 0, 9, 0]⟩ =
        some (true, ⟨4, 0, 0, true, none⟩,
          [as_val_call.destroy 7, as_val_call.destroy 9])) ∧
    ∃ after calls,
      as_arraylist_release ⟨4, 4, 3, true, some [7, 0, 9, 0]⟩ = some (true, after, calls) ∧
      calls = ((as_arraylist.contents ⟨4, 4, 3, true, some [7, 0, 9, 0]⟩).filter
        fun v => decide (v ≠ 0)).map as_val_call.destroy ∧
      as_val_released calls = (as_arraylist.contents ⟨4, 4, 3, true, some [7, 0, 9, 0]⟩).filter
        (fun v => decide (v ≠ 0)) ∧
      after.size = 0 ∧ after.capacity = 0 ∧ after.elements = none :=
  ⟨by decide, as_arraylist_release_spec ⟨4, 4, 3, true, some [7, 0, 9, 0]⟩ (by decide)⟩

/-- The loop of `as_arraylist_foreach`, run inside the block from index `i` for
at most `n` slots: it passes the slots `i, i + 1, ...` in order, every
invocation but the last answered `true`, it returns `true` exactly when no
invocation answered `false` and then all `n` slots were passed, and when it
returns `false` the last invocation is the one that answered `false`. -/
theorem as_arraylist_foreach_loop_spec {σ : Type} (callback : Nat → σ → Bool × σ)
    (xs : List Nat) :
    ∀ (n i : Nat) (udata : σ), i + n ≤ xs.length →
      ∃ b u visits,
        as_arraylist_foreach_loop callback (some xs) n i udata = some (b, u, visits) ∧
        visits.map Prod.fst = (xs.drop i).take visits.length ∧
        visits.length ≤ n ∧
        (∀ k, k + 1 < visits.length → (visits[k]?).map Prod.snd = some true) ∧
        (b = true ↔ ∀ t ∈ visits, t.2 = true) ∧
        (b = true → visits.length = n) ∧
        (b = false → ∃ p, visits.getLast? = some (p, false)) := by
  intro n
  induction n with
  | zero =>
    intro i udata _
    refine ⟨true, udata, [], rfl, by simp, by simp, ?_, by simp, by simp, by simp⟩
    intro k hk
    simp at hk
  | succ n ih =>
    intro i udata hi
    have hlt : i < xs.length := by omega
    have hdrop : ∀ m, (xs.drop i).take (m + 1) = xs[i] :: (xs.drop (i + 1)).take m := by
      intro m
      rw [List.drop_eq_getElem_cons hlt, List.take_succ_cons]
    unfold as_arraylist_foreach_loop
    simp only [mem_load, List.getElem?_eq_getElem hlt]
    by_cases hcb : (callback xs[i] udata).1 = false
    · rw [if_pos hcb]
      refine ⟨false, _, [(xs[i], false)], rfl, ?_, by simp, ?_, by simp, by simp,
        fun _ => ⟨xs[i], rfl⟩⟩
      · simpa using (hdrop 0).symm
      · intro k hk
        simp at hk
    · rw [if_neg hcb]
      obtain ⟨b, u, visits, hrun, hfst, hlen, hall, hiff, htrue, hfalse⟩ :=
        ih (i + 1) (callback xs[i] udata).2 (by omega)
      rw [hrun]
      refine ⟨b, u, (xs[i], true) :: visits, rfl, ?_, by simp; omega, ?_, ?_, ?_, ?_⟩
      · simp only [List.map_cons, List.length_cons, hdrop, hfst]
      · intro k hk
        cases k with
        | zero => simp
        | succ k =>
          simp only [List.length_cons] at hk
          simpa using hall k (by omega)
      · simp [hiff]
      · intro hb
        simp [htrue hb]
      · intro hb
        obtain ⟨p, hp⟩ := hfalse hb
        refine ⟨p, ?_⟩
        cases visits with
        | nil => simp at hp
        | cons t ts => simpa [List.getLast?_cons_cons] using hp

/-- The loop of `as_arraylist_foreach` over slots on all of which the callback
answers `true`: every slot is passed and the loop returns `true`. -/
theorem as_arraylist_foreach_loop_true {σ : Type} (callback : Nat → σ → Bool × σ)
    (xs : List Nat) :
    ∀ (n i : Nat) (udata : σ), i + n ≤ xs.length →
      (∀ a ∈ as_arraylist_foreach_answers callback ((xs.drop i).take n) udata, a = true) →
      as_arraylist_foreach_loop callback (some xs) n i udata =
        some (true, as_arraylist_foreach_udata callback ((xs.drop i).take n) udata,
          ((xs.drop i).take n).map (fun p => (p, true))) := by
  intro n
  induction n with
  | zero =>
    intro i udata _ _
    simp [as_arraylist_foreach_loop, as_arraylist_foreach_udata]
  | succ n ih =>
    intro i udata hi hall
    have hlt : i < xs.length := by omega
    have hdrop : (xs.drop i).take (n + 1) = xs[i] :: (xs.drop (i + 1)).take n := by
      rw [List.drop_eq_getElem_cons hlt, List.take_succ_cons]
    rw [hdrop] at hall ⊢
    simp only [as_arraylist_foreach_answers, List.mem_cons, forall_eq_or_imp] at hall
    unfold as_arraylist_foreach_loop
    simp only [mem_load, List.getElem?_eq_getElem hlt]
    rw [if_neg (by simp [hall.1]), ih (i + 1) _ (by omega) hall.2]
    simp [as_arraylist_foreach_udata]

/-- The loop of `as_arraylist_foreach` over slots `A ++ p :: B` when the
callback answers `true` on `A` and `false` on `p`: the loop passes `A` and `p`,
nothing of `B`, and returns `false`. -/
theorem as_arraylist_foreach_loop_false {σ : Type} (callback : Nat → σ → Bool × σ)
    (xs : List Nat) :
    ∀ (A : List Nat) (n i : Nat) (udata : σ) (p : Nat) (B : List Nat), i + n ≤ xs.length →
      (xs.drop i).take n = A ++ p :: B →
      (∀ a ∈ as_arraylist_foreach_answers callback A udata, a = true) →
      (callback p (as_arraylist_foreach_udata callback A udata)).1 = false →
      as_arraylist_foreach_loop callback (some xs) n i udata =
        some (false, (callback p (as_arraylist_foreach_udata callback A udata)).2,
          A.map (fun q => (q, true)) ++ [(p, false)]) := by
  intro A
  induction A with
  | nil =>
    intro n i udata p B hi hsplit _ hp
    cases n with
    | zero => simp at hsplit
    | succ n =>
      have hlt : i < xs.length := by omega
      rw [List.drop_eq_getElem_cons hlt, List.take_succ_cons, List.nil_append] at hsplit
      obtain ⟨hxp, -⟩ := List.cons.inj hsplit
      simp only [as_arraylist_foreach_udata] at hp ⊢
      unfold as_arraylist_foreach_loop
      simp only [mem_load, List.getElem?_eq_getElem hlt, hxp]
      rw [if_pos hp]
      rfl
  | cons a A1 ih =>
    intro n i udata p B hi hsplit hall hp
    cases n with
    | zero => simp at hsplit
    | succ n =>
      have hlt : i < xs.length := by omega
      rw [List.drop_eq_getElem_cons hlt, List.take_succ_cons, List.cons_append] at hsplit
      obtain ⟨hxa, hrest⟩ := List.cons.inj hsplit
      simp only [as_arraylist_foreach_answers, List.mem_cons, forall_eq_or_imp] at hall
      simp only [as_arraylist_foreach_udata] at hp ⊢
      unfold as_arraylist_foreach_loop
      simp only [mem_load, List.getElem?_eq_getElem hlt, hxa]
      rw [if_neg (by simp [hall.1]), ih n (i + 1) _ p B (by omega) hrest hall.2 hp]
      simp

/-- C15: on a well-formed sequence, for every callback and `udata`, the answers
being those the callback gives on the slots in order, each invocation with the
`udata` the earlier ones left.  First, `as_arraylist_foreach` returns; the
invocations it makes pass the slots `0, 1, ...` in increasing index order
(holes included), every invocation but the last answered `true`, it returns
`true` exactly when no invocation answered `false`, in which case all `size`
slots were passed, and on an empty sequence it returns `true` without any
invocation.  Second, when the callback answers `true` on every slot, all `size`
slots are passed and the result is `true`.  Third, when the callback answers
`true` on the slots `A` and `false` on the slot `p` that follows them, the
invocations are those on `A` and the one on `p`, no later slot is passed, and
the result is `false`. -/
theorem as_arraylist_foreach_spec {σ : Type} (list : as_arraylist)
    (callback : Nat → σ → Bool × σ) (udata : σ) (hwf : list.wf) :
    (∃ b u visits,
      as_arraylist_foreach list callback udata = some (b, u, visits) ∧
      visits.map Prod.fst = list.contents.take visits.length ∧
      visits.length ≤ list.size ∧
      (∀ k, k + 1 < visits.length → (visits[k]?).map Prod.snd = some true) ∧
      (b = true ↔ ∀ t ∈ visits, t.2 = true) ∧
      (b = true → visits.length = list.size) ∧
      (b = false → ∃ p, visits.getLast? = some (p, false)) ∧
      (list.size = 0 → b = true ∧ visits = [])) ∧
    ((∀ a ∈ as_arraylist_foreach_answers callback list.contents udata, a = true) →
      as_arraylist_foreach list callback udata =
        some (true, as_arraylist_foreach_udata callback list.contents udata,
          list.contents.map (fun p => (p, true)))) ∧
    (∀ A p B, list.contents = A ++ p :: B →
      (∀ a ∈ as_arraylist_foreach_answers callback A udata, a = true) →
      (callback p (as_arraylist_foreach_udata callback A udata)).1 = false →
      as_arraylist_foreach list callback udata =
        some (false, (callback p (as_arraylist_foreach_udata callback A udata)).2,
          A.map (fun q => (q, true)) ++ [(p, false)])) := by
  obtain ⟨-, -, hsz, hlen⟩ := hwf
  cases hel : list.elements with
  | none =>
    have h0 : list.size = 0 := by
      simp [hel] at hlen
      omega
    have hc : list.contents = [] := by simp [as_arraylist.contents, hel]
    have hrun : as_arraylist_foreach list callback udata = some (true, udata, []) := by
      simp [as_arraylist_foreach, h0, as_arraylist_foreach_loop]
    refine ⟨⟨true, udata, [], hrun, by simp, by simp, ?_, by simp, by simp [h0], by simp,
      fun _ => ⟨rfl, rfl⟩⟩, ?_, ?_⟩
    · intro k hk
      simp at hk
    · intro _
      rw [hrun, hc]
      rfl
    · intro A p B hsplit
      rw [hc] at hsplit
      simp at hsplit
  | some xs =>
    simp only [hel, Option.getD_some] at hlen
    have hc : list.contents = (xs.drop 0).take list.size := by
      simp [as_arraylist.contents, hel]
    refine ⟨?_, ?_, ?_⟩
    · obtain ⟨b, u, visits, hrun, hfst, hlen2, hall, hiff, htrue, hfalse⟩ :=
        as_arraylist_foreach_loop_spec callback xs list.size 0 udata (by omega)
      refine ⟨b, u, visits, ?_, ?_, hlen2, hall, hiff, htrue, hfalse, ?_⟩
      · simpa [as_arraylist_foreach, hel] using hrun
      · rw [hfst]
        simp only [as_arraylist.contents, hel, Option.getD_some, List.drop_zero,
          List.take_take, Nat.min_eq_left hlen2]
      · intro h0
        have hl : visits.length = 0 := by omega
        have ht : visits = [] := List.length_eq_zero.mp hl
        subst ht
        exact ⟨hiff.mpr (by simp), rfl⟩
    · intro hall
      rw [hc] at hall ⊢
      unfold as_arraylist_foreach
      rw [hel]
      exact as_arraylist_foreach_loop_true callback xs list.size 0 udata (by omega) hall
    · intro A p B hsplit hall hp
      rw [hc] at hsplit
      unfold as_arraylist_foreach
      rw [hel]
      exact as_arraylist_foreach_loop_false callback xs A list.size 0 udata p B (by omega)
        hsplit hall hp

/-- C15 on the sequence `7, hole, 9, 4` with a callback that counts its
invocations in `udata` and answers `false` on the value 9: the slots 7, hole, 9
are passed, 4 is not, and the result is `false`; with the callback that always
answers `true` all four slots are passed and the result is `true`. -/
theorem as_arraylist_foreach_spec_witness :
    (as_arraylist.wf ⟨4, 4, 4, true, some [7, 0, 9, 4]⟩ ∧
      as_arraylist_foreach ⟨4, 4, 4, true, some [7, 0, 9, 4]⟩
          (fun p (u : Nat) => (decide (p ≠ 9), u + 1)) 0 =
        some (false, 3, [(7, true), (0, true), (9, false)]) ∧
      as_arraylist_foreach ⟨4, 4, 4, true, some [7, 0, 9, 4]⟩
          (fun _ (u : Nat) => (true, u + 1)) 0 =
        some (true, 4, [(7, true), (0, true), (9, true), (4, true)]) ∧
      as_arraylist_foreach ⟨4, 4, 0, true, some [7, 0, 9, 4]⟩
          (fun _ (u : Nat) => (false, u + 1)) 0 = some (true, 0, [])) ∧
    as_arraylist_foreach ⟨4, 4, 4, true, some [7, 0, 9, 4]⟩
        (fun p (u : Nat) => (decide (p ≠ 9), u + 1)) 0 =
      some (false,
        ((fun p (u : Nat) => (decide (p ≠ 9), u + 1)) 9
          (as_arraylist_foreach_udata (fun p (u : Nat) => (decide (p ≠ 9), u + 1)) [7, 0] 0)).2,
        [7, 0].map (fun q => (q, true)) ++ [(9, false)]) :=
  ⟨⟨by decide, by decide, by decide, by decide⟩,
    (as_arraylist_foreach_spec ⟨4, 4, 4, true, some [7, 0, 9, 4]⟩
      (fun p (u : Nat) => (decide (p ≠ 9), u + 1)) 0 (by decide)).2.2 [7, 0] 9 [4] rfl
      (by decide) (by decide)⟩

/-! ## Linked list: walks along a link field -/

theorem cf_ll_write_same (link : Nat → Nat) (e v : Nat) : cf_ll_write link e v e = v := by
  simp [cf_ll_write]

theorem cf_ll_write_other (link : Nat → Nat) (e v x : Nat) (h : x ≠ e) :
    cf_ll_write link e v x = link x := by
  simp [cf_ll_write, h]

theorem cf_ll_path_nil (link : Nat → Nat) (cur stop : Nat) :
    cf_ll_path link cur [] stop ↔ cur = stop := by
  simp [cf_ll_path]

theorem cf_ll_path_cons (link : Nat → Nat) (cur x stop : Nat) (xs : List Nat) :
    cf_ll_path link cur (x :: xs) stop ↔
      cur = x ∧ x ≠ 0 ∧ cf_ll_path link (link x) xs stop := by
  simp [cf_ll_path]

/-- A walk does not see a write to the field of an element it does not meet. -/
theorem cf_ll_path_write (link : Nat → Nat) (a v : Nat) :
    ∀ (L : List Nat) (cur stop : Nat), a ∉ L →
      (cf_ll_path (cf_ll_write link a v) cur L stop ↔ cf_ll_path link cur L stop) := by
  intro L
  induction L with
  | nil => intro cur stop _; simp [cf_ll_path]
  | cons x xs ih =>
    intro cur stop ha
    have hx : x ≠ a := fun h => ha (h ▸ List.mem_cons_self _ _)
    have hxs : a ∉ xs := fun h => ha (List.mem_cons_of_mem _ h)
    simp only [cf_ll_path, cf_ll_write_other link a v x hx, ih _ _ hxs]

/-- A walk over `A ++ B` is a walk over `A` to some address followed by a walk
over `B` from there. -/
theorem cf_ll_path_append (link : Nat → Nat) :
    ∀ (A : List Nat) (cur : Nat) (B : List Nat) (stop : Nat),
      cf_ll_path link cur (A ++ B) stop ↔
        ∃ mid, cf_ll_path link cur A mid ∧ cf_ll_path link mid B stop := by
  intro A
  induction A with
  | nil =>
    intro cur B stop
    simp [cf_ll_path]
  | cons x xs ih =>
    intro cur B stop
    rw [List.cons_append, cf_ll_path_cons, ih]
    simp only [cf_ll_path_cons]
    constructor
    · rintro ⟨h1, h2, mid, h3, h4⟩
      exact ⟨mid, ⟨h1, h2, h3⟩, h4⟩
    · rintro ⟨mid, ⟨h1, h2, h3⟩, h4⟩
      exact ⟨h1, h2, mid, h3, h4⟩

theorem cf_ll_path_ne_zero (link : Nat → Nat) :
    ∀ (L : List Nat) (cur stop : Nat), cf_ll_path link cur L stop → ∀ x ∈ L, x ≠ 0 := by
  intro L
  induction L with
  | nil => intro _ _ _ x hx; simp at hx
  | cons y ys ih =>
    intro cur stop h x hx
    obtain ⟨-, hy, hrest⟩ := h
    rcases List.mem_cons.mp hx with rfl | hx1
    · exact hy
    · exact ih _ _ hrest x hx1

theorem cf_ll_path_start (link : Nat → Nat) (L : List Nat) (cur stop : Nat)
    (h : cf_ll_path link cur L stop) : cur = L.head?.getD stop := by
  cases L with
  | nil => simpa [cf_ll_path] using h
  | cons x xs => simpa using h.1

/-- Two traversals from the same address that both end at `NULL` are equal. -/
theorem cf_ll_path_unique (link : Nat → Nat) :
    ∀ (L1 L2 : List Nat) (cur : Nat),
      cf_ll_path link cur L1 0 → cf_ll_path link cur L2 0 → L1 = L2 := by
  intro L1
  induction L1 with
  | nil =>
    intro L2 cur h1 h2
    cases L2 with
    | nil => rfl
    | cons y ys =>
      simp only [cf_ll_path] at h1 h2
      exact absurd (h2.1 ▸ h1) h2.2.1
  | cons x xs ih =>
    intro L2 cur h1 h2
    cases L2 with
    | nil =>
      simp only [cf_ll_path] at h1 h2
      exact absurd (h1.1 ▸ h2) h1.2.1
    | cons y ys =>
      simp only [cf_ll_path] at h1 h2
      have hxy : x = y := h1.1.symm.trans h2.1
      subst hxy
      rw [ih ys _ h1.2.2 h2.2.2]

/-- A traversal that ends at `NULL` meets no element twice. -/
theorem cf_ll_path_nodup (link : Nat → Nat) :
    ∀ (L : List Nat) (cur : Nat), cf_ll_path link cur L 0 → L.Nodup := by
  intro L
  induction L with
  | nil => intro _ _; exact List.nodup_nil
  | cons x xs ih =>
    intro cur h
    obtain ⟨-, -, hrest⟩ := h
    refine List.nodup_cons.mpr ⟨?_, ih _ hrest⟩
    intro hx
    obtain ⟨A, B, hAB⟩ := List.append_of_mem hx
    have h2 := hrest
    rw [hAB, cf_ll_path_append] at h2
    obtain ⟨mid, -, hB⟩ := h2
    have hB2 : cf_ll_path link (link x) B 0 := hB.2.2
    have := cf_ll_path_unique link xs B _ hrest hB2
    have hl := congrArg List.length (hAB.symm.trans this)
    simp at hl
    omega

theorem cf_ll_walk_of_path (link : Nat → Nat) :
    ∀ (L : List Nat) (cur fuel : Nat), cf_ll_path link cur L 0 → L.length ≤ fuel →
      cf_ll_walk link fuel cur = L := by
  intro L
  induction L with
  | nil =>
    intro cur fuel h _
    simp only [cf_ll_path] at h
    subst h
    cases fuel <;> simp [cf_ll_walk]
  | cons x xs ih =>
    intro cur fuel h hf
    obtain ⟨rfl, hx, hrest⟩ := h
    cases fuel with
    | zero => simp at hf
    | succ fuel =>
      simp only [List.length_cons] at hf
      simp only [cf_ll_walk, if_neg hx, ih _ fuel hrest (by omega)]

theorem cf_ll_path_of_walk (link : Nat → Nat) :
    ∀ (fuel cur : Nat), (cf_ll_walk link fuel cur).length < fuel →
      cf_ll_path link cur (cf_ll_walk link fuel cur) 0 := by
  intro fuel
  induction fuel with
  | zero => intro cur h; simp at h
  | succ fuel ih =>
    intro cur h
    by_cases hc : cur = 0
    · simp [cf_ll_walk, hc, cf_ll_path]
    · simp only [cf_ll_walk, if_neg hc, List.length_cons] at h ⊢
      exact ⟨rfl, hc, ih _ (by omega)⟩

/-! ## Linked list: well-formed lists -/

theorem cf_ll_reverse_middle (A B : List Nat) (x : Nat) :
    (A ++ x :: B).reverse = B.reverse ++ x :: A.reverse := by
  simp

theorem cf_ll_holds_nodup (ll : cf_ll) (L : List Nat) (h : ll.holds L) : L.Nodup :=
  cf_ll_path_nodup _ _ _ h.1

theorem cf_ll_holds_ends (ll : cf_ll) (L : List Nat) (h : ll.holds L) :
    ll.head = L.head?.getD 0 ∧ ll.tail = L.getLast?.getD 0 := by
  refine ⟨cf_ll_path_start _ _ _ _ h.1, ?_⟩
  have := cf_ll_path_start _ _ _ _ h.2.1
  rwa [List.head?_reverse] at this

/-- For a well-formed list the two traversals are the list and its reverse. -/
theorem cf_ll_holds_forward (ll : cf_ll) (L : List Nat) (h : ll.holds L) :
    cf_ll_forward ll = L ∧ cf_ll_backward ll = L.reverse := by
  obtain ⟨h1, h2, h3, -⟩ := h
  exact ⟨cf_ll_walk_of_path _ _ _ _ h1 (by omega),
    cf_ll_walk_of_path _ _ _ _ h2 (by simp; omega)⟩

theorem cf_ll_holds_wf (ll : cf_ll) (L : List Nat) (h : ll.holds L) : ll.wf := by
  obtain ⟨hf, hb⟩ := cf_ll_holds_forward ll L h
  obtain ⟨hh, ht⟩ := cf_ll_holds_ends ll L h
  have hz := cf_ll_path_ne_zero _ _ _ _ h.1
  obtain ⟨-, -, hsz, hlt⟩ := h
  unfold cf_ll.wf
  rw [hf, hb, hh, ht, hsz]
  cases L with
  | nil => simp
  | cons x xs =>
    have hx : x ≠ 0 := hz x (List.mem_cons_self _ _)
    have hl : (x :: xs).getLast (List.cons_ne_nil _ _) ≠ 0 :=
      hz _ (List.getLast_mem _)
    simp only [List.head?_cons, Option.getD_some, hx, List.length_cons, List.length_reverse,
      List.reverse_reverse, List.getLast?_eq_getLast _ (List.cons_ne_nil x xs), hl,
      Nat.add_one_ne_zero, true_and, and_true]
    exact hlt

theorem cf_ll_wf_holds (ll : cf_ll) (h : ll.wf) : ll.holds (cf_ll_forward ll) := by
  obtain ⟨-, -, hf, hb, hrev, hlt⟩ := h
  refine ⟨cf_ll_path_of_walk _ _ _ (by unfold cf_ll_forward at hf; omega), ?_, hf.symm,
    by omega⟩
  rw [← hrev, List.reverse_reverse]
  exact cf_ll_path_of_walk _ _ _ (by unfold cf_ll_backward at hb; omega)

/-- What a well-formed list says about an element `x` between `A` and `B`. -/
theorem cf_ll_holds_split (ll : cf_ll) (A B : List Nat) (x : Nat)
    (h : ll.holds (A ++ x :: B)) :
    x ≠ 0 ∧ x ∉ A ∧ x ∉ B ∧ (A ++ B).Nodup ∧
      cf_ll_path ll.next ll.head A x ∧ cf_ll_path ll.next (ll.next x) B 0 ∧
      cf_ll_path ll.prev ll.tail B.reverse x ∧ cf_ll_path ll.prev (ll.prev x) A.reverse 0 := by
  have hnd := cf_ll_holds_nodup ll _ h
  obtain ⟨hf, hb, -, -⟩ := h
  rw [cf_ll_path_append] at hf
  rw [cf_ll_reverse_middle, cf_ll_path_append] at hb
  obtain ⟨m1, hA, hxB⟩ := hf
  obtain ⟨m2, hB, hxA⟩ := hb
  rw [cf_ll_path_cons] at hxB hxA
  obtain ⟨rfl, hx, hB2⟩ := hxB
  obtain ⟨rfl, -, hA2⟩ := hxA
  rw [List.nodup_middle, List.nodup_cons] at hnd
  refine ⟨hx, ?_, ?_, hnd.2, hA, hB2, hB, hA2⟩
  · exact fun hm => hnd.1 (List.mem_append_left _ hm)
  · exact fun hm => hnd.1 (List.mem_append_right _ hm)

/-- Prepending a fresh element to a well-formed list. -/
theorem cf_ll_prepend_holds (ll : cf_ll) (L : List Nat) (e : Nat) (h : ll.holds L)
    (he0 : e ≠ 0) (he : e ∉ L) (hsz : L.length < 4294967295) :
    ∃ ll1, cf_ll_prepend_lockfree ll e = some ll1 ∧ ll1.holds (e :: L) ∧
      ll1.destroyed = ll.destroyed ∧ ll1.destroy_fn = ll.destroy_fn := by
  obtain ⟨hh, -⟩ := cf_ll_holds_ends ll L h
  have hnd := cf_ll_holds_nodup ll L h
  have hz := cf_ll_path_ne_zero _ _ _ _ h.1
  obtain ⟨hf, hb, hlen, -⟩ := h
  have hmod : (ll.sz + 1) % 4294967296 = (e :: L).length := by
    simp only [List.length_cons]
    omega
  cases L with
  | nil =>
    simp only [List.head?_nil, Option.getD_none] at hh
    refine ⟨{ ll with
      head := e, tail := e
      next := cf_ll_write ll.next e 0
      prev := cf_ll_write ll.prev e 0
      sz := (ll.sz + 1) % 4294967296 },
      by simp only [cf_ll_prepend_lockfree, if_neg he0, if_pos hh], ?_, rfl, rfl⟩
    refine ⟨?_, ?_, hmod, by simp⟩
    · simp [cf_ll_path, he0, cf_ll_write_same]
    · simp [cf_ll_path, he0, cf_ll_write_same]
  | cons x xs =>
    simp only [List.head?_cons, Option.getD_some] at hh
    have hx0 : x ≠ 0 := hz x (List.mem_cons_self _ _)
    have hxe : x ≠ e := fun hxe => he (hxe ▸ List.mem_cons_self _ _)
    have hexs : e ∉ xs := fun hm => he (List.mem_cons_of_mem _ hm)
    have hxxs : x ∉ xs := (List.nodup_cons.mp hnd).1
    refine ⟨{ ll with
      next := cf_ll_write ll.next e ll.head
      prev := cf_ll_write (cf_ll_write ll.prev e 0) ll.head e
      head := e
      sz := (ll.sz + 1) % 4294967296 },
      by simp only [cf_ll_prepend_lockfree, if_neg he0, if_neg (hh ▸ hx0)], ?_, rfl, rfl⟩
    refine ⟨?_, ?_, hmod, by simp only [List.length_cons] at hsz ⊢; omega⟩
    · show cf_ll_path (cf_ll_write ll.next e ll.head) e (e :: x :: xs) 0
      rw [cf_ll_path_cons]
      refine ⟨rfl, he0, ?_⟩
      rw [cf_ll_write_same, hh, cf_ll_path_write _ _ _ _ _ _ he]
      rw [hh] at hf
      exact hf
    · show cf_ll_path (cf_ll_write (cf_ll_write ll.prev e 0) ll.head e) ll.tail
        (e :: x :: xs).reverse 0
      rw [hh]
      have hrev : (e :: x :: xs).reverse = xs.reverse ++ [x, e] := by simp
      rw [hrev, cf_ll_path_append]
      have hb2 : cf_ll_path ll.prev ll.tail (xs.reverse ++ [x]) 0 := by simpa using hb
      rw [cf_ll_path_append] at hb2
      obtain ⟨mid, hxs, hx⟩ := hb2
      simp only [cf_ll_path] at hx
      obtain ⟨rfl, -, hpx⟩ := hx
      refine ⟨mid, ?_, ?_⟩
      · rw [cf_ll_path_write _ _ _ _ _ _ (by simpa using hxxs),
          cf_ll_path_write _ _ _ _ _ _ (by simpa using hexs)]
        exact hxs
      · simp [cf_ll_path, cf_ll_write_same, cf_ll_write_other _ _ _ _ (Ne.symm hxe), hx0,
          he0]

/-- Inserting a fresh element before an element of a well-formed list. -/
theorem cf_ll_insert_before_holds (ll : cf_ll) (A B : List Nat) (cur e : Nat)
    (h : ll.holds (A ++ cur :: B)) (he0 : e ≠ 0) (he : e ∉ A ++ cur :: B)
    (hsz : (A ++ cur :: B).length < 4294967295) :
    ∃ ll1, cf_ll_insert_before_lockfree ll cur e = some ll1 ∧
      ll1.holds (A ++ e :: cur :: B) ∧
      ll1.destroyed = ll.destroyed ∧ ll1.destroy_fn = ll.destroy_fn := by
  obtain ⟨hc0, hcA, hcB, hndAB, hfA, hfB, hbB, hbA⟩ := cf_ll_holds_split ll A B cur h
  obtain ⟨-, -, hlen, -⟩ := h
  have heA : e ∉ A := fun hm => he (List.mem_append_left _ hm)
  have hecur : e ≠ cur := fun hm => he (hm ▸ by simp)
  have heB : e ∉ B := fun hm => he (List.mem_append_right _ (List.mem_cons_of_mem _ hm))
  have hmod : (ll.sz + 1) % 4294967296 = (A ++ e :: cur :: B).length := by
    simp only [List.length_append, List.length_cons] at hlen hsz ⊢
    omega
  have hlt : (A ++ e :: cur :: B).length < 4294967296 := by
    simp only [List.length_append, List.length_cons] at hsz ⊢
    omega
  have hp1 : cf_ll_write ll.prev e (ll.prev cur) cur = ll.prev cur :=
    cf_ll_write_other _ _ _ _ (Ne.symm hecur)
  -- the backward walk is the same in both cases
  have hbwd : cf_ll_path (cf_ll_write (cf_ll_write ll.prev e (ll.prev cur)) cur e) ll.tail
      (A ++ e :: cur :: B).reverse 0 := by
    have hrev : (A ++ e :: cur :: B).reverse = B.reverse ++ cur :: e :: A.reverse := by simp
    rw [hrev, cf_ll_path_append]
    refine ⟨cur, ?_, ?_⟩
    · rw [cf_ll_path_write _ _ _ _ _ _ (by simpa using hcB),
        cf_ll_path_write _ _ _ _ _ _ (by simpa using heB)]
      exact hbB
    · rw [cf_ll_path_cons, cf_ll_write_same, cf_ll_path_cons,
        cf_ll_write_other _ _ _ _ hecur, cf_ll_write_same,
        cf_ll_path_write _ _ _ _ _ _ (by simpa using hcA),
        cf_ll_path_write _ _ _ _ _ _ (by simpa using heA)]
      exact ⟨rfl, hc0, rfl, he0, hbA⟩
  have hprev := cf_ll_path_start _ _ _ _ hbA
  rcases List.eq_nil_or_concat A with hA | ⟨A1, a, hA⟩
  · subst hA
    simp only [List.reverse_nil, List.head?_nil, Option.getD_none] at hprev
    simp only [cf_ll_path] at hfA
    rw [hprev] at hp1
    refine ⟨{ ll with
      head := e
      next := cf_ll_write ll.next e cur
      prev := cf_ll_write (cf_ll_write ll.prev e (ll.prev cur)) cur e
      sz := (ll.sz + 1) % 4294967296 },
      by simp only [cf_ll_insert_before_lockfree, he0, hc0, or_self, if_false, hp1,
        hprev, if_true], ⟨?_, hbwd, hmod, hlt⟩, rfl, rfl⟩
    show cf_ll_path (cf_ll_write ll.next e cur) e ([] ++ e :: cur :: B) 0
    rw [List.nil_append, cf_ll_path_cons, cf_ll_write_same,
      cf_ll_path_write _ _ _ _ _ _ (by simpa using he), cf_ll_path_cons]
    exact ⟨rfl, he0, rfl, hc0, hfB⟩
  · rw [List.concat_eq_append] at hA
    subst hA
    simp only [List.reverse_append, List.reverse_cons, List.reverse_nil, List.nil_append,
      List.singleton_append, List.head?_cons, Option.getD_some] at hprev
    rw [cf_ll_path_append] at hfA
    obtain ⟨mid, hfA1, hfa⟩ := hfA
    simp only [cf_ll_path] at hfa
    obtain ⟨rfl, ha0, hna⟩ := hfa
    have haA1 : mid ∉ A1 := by
      have := (List.nodup_append.mp hndAB).1
      rw [List.nodup_append] at this
      intro hm
      exact this.2.2 hm (List.mem_singleton_self _) 
    have haB : mid ∉ B := by
      have := (List.nodup_append.mp hndAB).2.2
      exact fun hm => this (by simp) hm
    have hacur : mid ≠ cur := fun hm => hcA (hm ▸ by simp)
    have hea : e ≠ mid := fun hm => heA (hm ▸ by simp)
    have heA1 : e ∉ A1 := fun hm => heA (List.mem_append_left _ hm)
    rw [hprev] at hp1
    refine ⟨{ ll with
      next := cf_ll_write (cf_ll_write ll.next e cur) mid e
      prev := cf_ll_write (cf_ll_write ll.prev e (ll.prev cur)) cur e
      sz := (ll.sz + 1) % 4294967296 },
      by simp only [cf_ll_insert_before_lockfree, he0, hc0, or_self, if_false, hp1,
        hprev, if_neg ha0], ⟨?_, hbwd, hmod, hlt⟩, rfl, rfl⟩
    show cf_ll_path (cf_ll_write (cf_ll_write ll.next e cur) mid e) ll.head
      (A1 ++ [mid] ++ e :: cur :: B) 0
    rw [List.append_assoc, cf_ll_path_append]
    refine ⟨mid, ?_, ?_⟩
    · rw [cf_ll_path_write _ _ _ _ _ _ haA1, cf_ll_path_write _ _ _ _ _ _ heA1]
      exact hfA1
    · rw [List.singleton_append, cf_ll_path_cons, cf_ll_write_same, cf_ll_path_cons,
        cf_ll_write_other _ _ _ _ hea, cf_ll_write_same,
        cf_ll_path_write _ _ _ _ _ _ (by simp [hacur, haB]),
        cf_ll_path_write _ _ _ _ _ _ (by simp [hecur, heB]), cf_ll_path_cons]
      exact ⟨rfl, ha0, rfl, he0, rfl, hc0, hfB⟩

theorem cf_ll_holds_mirror (ll : cf_ll) (L : List Nat) (h : ll.holds L) :
    ll.mirror.holds L.reverse := by
  obtain ⟨h1, h2, h3, h4⟩ := h
  exact ⟨h2, by rw [List.reverse_reverse]; exact h1, by simpa using h3, by simpa using h4⟩

theorem cf_ll_mirror_mirror (ll : cf_ll) : ll.mirror.mirror = ll := rfl

/-- Function `cf_ll_append_lockfree` is `cf_ll_prepend_lockfree` with the two
directions exchanged, on a list whose `head` and `tail` are `NULL` together. -/
theorem cf_ll_append_mirror (ll : cf_ll) (e : Nat) (h : ll.head = 0 ↔ ll.tail = 0) :
    cf_ll_append_lockfree ll e = (cf_ll_prepend_lockfree ll.mirror e).map cf_ll.mirror := by
  unfold cf_ll_append_lockfree cf_ll_prepend_lockfree
  by_cases he : e = 0
  · simp [he]
  · by_cases hh : ll.head = 0
    · have ht : ll.tail = 0 := h.mp hh
      simp [he, hh, ht, cf_ll.mirror]
    · have ht : ll.tail ≠ 0 := fun ht => hh (h.mpr ht)
      simp [he, hh, ht, cf_ll.mirror]

/-- Function `cf_ll_insert_after_lockfree` is `cf_ll_insert_before_lockfree`
with the two directions exchanged. -/
theorem cf_ll_insert_after_mirror (ll : cf_ll) (cur e : Nat) :
    cf_ll_insert_after_lockfree ll cur e =
      (cf_ll_insert_before_lockfree ll.mirror cur e).map cf_ll.mirror := by
  unfold cf_ll_insert_after_lockfree cf_ll_insert_before_lockfree
  by_cases h0 : e = 0 ∨ cur = 0
  · simp [h0]
  · simp only [if_neg h0]
    by_cases h1 : cf_ll_write ll.next e (ll.next cur) cur = 0
    · simp [h1, cf_ll.mirror]
    · simp [h1, cf_ll.mirror]

/-- Appending a fresh element to a well-formed list. -/
theorem cf_ll_append_holds (ll : cf_ll) (L : List Nat) (e : Nat) (h : ll.holds L)
    (he0 : e ≠ 0) (he : e ∉ L) (hsz : L.length < 4294967295) :
    ∃ ll1, cf_ll_append_lockfree ll e = some ll1 ∧ ll1.holds (L ++ [e]) ∧
      ll1.destroyed = ll.destroyed ∧ ll1.destroy_fn = ll.destroy_fn := by
  obtain ⟨m1, hrun, hm1, hd, hfn⟩ :=
    cf_ll_prepend_holds ll.mirror L.reverse e (cf_ll_holds_mirror ll L h) he0
      (by simpa using he) (by simpa using hsz)
  refine ⟨m1.mirror, ?_, ?_, hd, hfn⟩
  · rw [cf_ll_append_mirror ll e (cf_ll_holds_wf ll L h).1, hrun]
    rfl
  · simpa using cf_ll_holds_mirror m1 _ hm1

/-- Inserting a fresh element after an element of a well-formed list. -/
theorem cf_ll_insert_after_holds (ll : cf_ll) (A B : List Nat) (cur e : Nat)
    (h : ll.holds (A ++ cur :: B)) (he0 : e ≠ 0) (he : e ∉ A ++ cur :: B)
    (hsz : (A ++ cur :: B).length < 4294967295) :
    ∃ ll1, cf_ll_insert_after_lockfree ll cur e = some ll1 ∧
      ll1.holds (A ++ cur :: e :: B) ∧
      ll1.destroyed = ll.destroyed ∧ ll1.destroy_fn = ll.destroy_fn := by
  have hm := cf_ll_holds_mirror ll _ h
  rw [cf_ll_reverse_middle] at hm
  obtain ⟨m1, hrun, hm1, hd, hfn⟩ :=
    cf_ll_insert_before_holds ll.mirror B.reverse A.reverse cur e hm he0
      (by
        intro hmem
        apply he
        simp only [List.mem_append, List.mem_reverse, List.mem_cons] at hmem ⊢
        tauto)
      (by
        simp only [List.length_append, List.length_cons, List.length_reverse] at hsz ⊢
        omega)
  refine ⟨m1.mirror, ?_, ?_, hd, hfn⟩
  · rw [cf_ll_insert_after_mirror, hrun]
    rfl
  · have := cf_ll_holds_mirror m1 _ hm1
    simpa using this

/-- Making the last element `a` of a walk point past the element `x` that
followed it joins the walk up to `a` with the walk that followed `x`. -/
theorem cf_ll_path_skip (link : Nat → Nat) (c x a : Nat) (A1 B : List Nat)
    (hA : cf_ll_path link c (A1 ++ [a]) x) (hB : cf_ll_path link (link x) B 0)
    (hnd : (A1 ++ [a] ++ B).Nodup) :
    cf_ll_path (cf_ll_write link a (link x)) c (A1 ++ [a] ++ B) 0 := by
  rw [cf_ll_path_append] at hA
  obtain ⟨mid, hA1, ha⟩ := hA
  simp only [cf_ll_path] at ha
  obtain ⟨rfl, ha0, -⟩ := ha
  rw [List.nodup_append] at hnd
  obtain ⟨hndA, -, hdis⟩ := hnd
  rw [List.nodup_append] at hndA
  have haA1 : mid ∉ A1 := fun hm => hndA.2.2 hm (List.mem_singleton_self _)
  have haB : mid ∉ B := fun hm => hdis (by simp) hm
  rw [List.append_assoc, cf_ll_path_append]
  refine ⟨mid, ?_, ?_⟩
  · rw [cf_ll_path_write _ _ _ _ _ _ haA1]
    exact hA1
  · rw [List.singleton_append, cf_ll_path_cons, cf_ll_write_same,
      cf_ll_path_write _ _ _ _ _ _ haB]
    exact ⟨rfl, ha0, hB⟩

/-- Deleting an element of a well-formed list: the element leaves the list, the
others keep their order, and the destructor callback, when there is one, is
invoked on it. -/
theorem cf_ll_delete_lockfree_holds (ll : cf_ll) (A B : List Nat) (e : Nat)
    (h : ll.holds (A ++ e :: B)) :
    ∃ ll1, cf_ll_delete_lockfree ll e = some ll1 ∧ ll1.holds (A ++ B) ∧
      ll1.destroyed = (if ll.destroy_fn then ll.destroyed ++ [e] else ll.destroyed) ∧
      ll1.destroy_fn = ll.destroy_fn ∧ ll1.next e = ll.next e ∧ ll1.prev e = ll.prev e := by
  obtain ⟨he0, heA, heB, hnd, hfA, hfB, hbB, hbA⟩ := cf_ll_holds_split ll A B e h
  obtain ⟨-, -, hlen, hlt⟩ := h
  simp only [List.length_append, List.length_cons] at hlen hlt
  have hhead := cf_ll_path_start _ _ _ _ hfA
  have htail := cf_ll_path_start _ _ _ _ hbB
  have hnext := cf_ll_path_start _ _ _ _ hfB
  have hprev := cf_ll_path_start _ _ _ _ hbA
  have hzB := cf_ll_path_ne_zero _ _ _ _ hfB
  have hzA := cf_ll_path_ne_zero _ _ _ _ hbA
  have hsub : (ll.sz + 4294967295) % 4294967296 = (A ++ B).length := by
    simp only [List.length_append]
    omega
  have hlt2 : (A ++ B).length < 4294967296 := by
    simp only [List.length_append]
    omega
  rcases List.eq_nil_or_concat A with hA | ⟨A1, a, hA⟩
  · subst hA
    simp only [List.head?_nil, Option.getD_none, List.reverse_nil] at hhead hprev
    cases B with
    | nil =>
      have hsz1 : ll.sz = 1 := by simpa using hlen
      refine ⟨{ ll with
          head := 0, tail := 0
          sz := (ll.sz + 4294967295) % 4294967296
          destroyed := if ll.destroy_fn then ll.destroyed ++ [e] else ll.destroyed },
        by simp only [cf_ll_delete_lockfree, cf_ll_unlink, if_pos hsz1], ?_, rfl, rfl, rfl, rfl⟩
      exact ⟨by simp [cf_ll_path], by simp [cf_ll_path], hsub, hlt2⟩
    | cons b B1 =>
      have hsz1 : ll.sz ≠ 1 := by
        simp only [List.length_nil, List.length_cons] at hlen
        omega
      simp only [List.head?_cons, Option.getD_some] at hnext
      have hb0 : b ≠ 0 := hzB b (List.mem_cons_self _ _)
      have hbe : b ≠ e := fun hm => heB (hm ▸ List.mem_cons_self _ _)
      refine ⟨{ ll with
          head := ll.next e
          prev := cf_ll_write ll.prev (ll.next e) 0
          sz := (ll.sz + 4294967295) % 4294967296
          destroyed := if ll.destroy_fn then ll.destroyed ++ [e] else ll.destroyed },
        by simp only [cf_ll_delete_lockfree, cf_ll_unlink, if_neg hsz1, hhead, if_true, he0,
          hnext, hb0, or_self, if_false],
        ⟨hfB, ?_, hsub, hlt2⟩, rfl, rfl, rfl,
        by simp only [hnext]; exact cf_ll_write_other _ _ _ _ (Ne.symm hbe)⟩
      show cf_ll_path (cf_ll_write ll.prev (ll.next e) 0) ll.tail ([] ++ b :: B1).reverse 0
      have hskip := cf_ll_path_skip ll.prev ll.tail e b B1.reverse []
        (by simpa using hbB) (by rw [hprev]; simp [cf_ll_path])
        (by
          have := List.nodup_reverse.mpr hnd
          simpa using this)
      rw [hprev] at hskip
      rw [hnext]
      simpa using hskip
  · rw [List.concat_eq_append] at hA
    subst hA
    simp only [List.reverse_append, List.reverse_cons, List.reverse_nil, List.nil_append,
      List.singleton_append, List.head?_cons, Option.getD_some] at hprev
    have ha0 : a ≠ 0 := hzA a (by simp)
    have hae : a ≠ e := fun hm => heA (hm ▸ by simp)
    have hhe : e ≠ ll.head := by
      intro hm
      apply heA
      cases A1 with
      | nil =>
        simp only [List.nil_append, List.head?_cons, Option.getD_some] at hhead
        rw [hm, hhead]
        simp
      | cons a1 A2 =>
        simp only [List.cons_append, List.head?_cons, Option.getD_some] at hhead
        rw [hm, hhead]
        simp
    cases B with
    | nil =>
      have hsz1 : ll.sz ≠ 1 := by
        simp only [List.length_append, List.length_cons, List.length_nil] at hlen
        omega
      simp only [List.reverse_nil, List.head?_nil, Option.getD_none] at htail hnext
      refine ⟨{ ll with
          tail := ll.prev e
          next := cf_ll_write ll.next (ll.prev e) 0
          sz := (ll.sz + 4294967295) % 4294967296
          destroyed := if ll.destroy_fn then ll.destroyed ++ [e] else ll.destroyed },
        by simp only [cf_ll_delete_lockfree, cf_ll_unlink, if_neg hsz1, if_neg hhe, htail,
          if_true, he0, hprev, ha0, or_self, if_false],
        ⟨?_, ?_, hsub, hlt2⟩, rfl, rfl,
        by simp only [hprev]; exact cf_ll_write_other _ _ _ _ (Ne.symm hae), rfl⟩
      · show cf_ll_path (cf_ll_write ll.next (ll.prev e) 0) ll.head (A1 ++ [a] ++ []) 0
        have hskip := cf_ll_path_skip ll.next ll.head e a A1 [] hfA
          (by rw [hnext]; simp [cf_ll_path]) hnd
        rw [hnext] at hskip
        rw [hprev]
        exact hskip
      · show cf_ll_path ll.prev (ll.prev e) (A1 ++ [a] ++ []).reverse 0
        simpa using hbA
    | cons b B1 =>
      have hsz1 : ll.sz ≠ 1 := by
        simp only [List.length_append, List.length_cons, List.length_nil] at hlen
        omega
      simp only [List.head?_cons, Option.getD_some] at hnext
      have hb0 : b ≠ 0 := hzB b (List.mem_cons_self _ _)
      have hbe : b ≠ e := fun hm => heB (hm ▸ List.mem_cons_self _ _)
      have hte : e ≠ ll.tail := by
        intro hm
        apply heB
        have : ll.tail = ((b :: B1).reverse).head?.getD e := htail
        rw [List.head?_reverse, List.getLast?_eq_getLast _ (List.cons_ne_nil b B1),
          Option.getD_some] at this
        rw [hm, this]
        exact List.getLast_mem _
      have hn1 : cf_ll_write ll.next (ll.prev e) (ll.next e) e = ll.next e := by
        rw [hprev]
        exact cf_ll_write_other _ _ _ _ (Ne.symm hae)
      have hn2 : cf_ll_write ll.next a b e = b := by
        rw [← hnext]
        exact cf_ll_write_other _ _ _ _ (Ne.symm hae)
      refine ⟨{ ll with
          next := cf_ll_write ll.next (ll.prev e) (ll.next e)
          prev := cf_ll_write ll.prev (ll.next e) (ll.prev e)
          sz := (ll.sz + 4294967295) % 4294967296
          destroyed := if ll.destroy_fn then ll.destroyed ++ [e] else ll.destroyed },
        by simp only [cf_ll_delete_lockfree, cf_ll_unlink, if_neg hsz1, if_neg hhe, if_neg hte,
          he0, hprev, hnext, hn2, ha0, hb0, or_self, if_false],
        ⟨?_, ?_, hsub, hlt2⟩, rfl, rfl, hn1,
        by simp only [hnext]; exact cf_ll_write_other _ _ _ _ (Ne.symm hbe)⟩
      · show cf_ll_path (cf_ll_write ll.next (ll.prev e) (ll.next e)) ll.head
          (A1 ++ [a] ++ b :: B1) 0
        rw [hprev]
        exact cf_ll_path_skip ll.next ll.head e a A1 (b :: B1) hfA hfB hnd
      · show cf_ll_path (cf_ll_write ll.prev (ll.next e) (ll.prev e)) ll.tail
          (A1 ++ [a] ++ b :: B1).reverse 0
        rw [hnext]
        have hskip := cf_ll_path_skip ll.prev ll.tail e b B1.reverse (A1 ++ [a]).reverse
          (by simpa using hbB) hbA
          (by
            have := List.nodup_reverse.mpr hnd
            simpa using this)
        simpa using hskip

theorem cf_ll_head_mem (M : List Nat) (hM : M ≠ []) : M.head?.getD 0 ∈ M := by
  rw [List.head?_eq_head hM, Option.getD_some]
  exact List.head_mem hM

theorem cf_ll_last_mem (M : List Nat) (hM : M ≠ []) : M.getLast?.getD 0 ∈ M := by
  rw [List.getLast?_eq_getLast _ hM, Option.getD_some]
  exact List.getLast_mem hM

/-- The observable facts of a well-formed list with forward traversal `L`. -/
theorem cf_ll_holds_facts (ll : cf_ll) (L : List Nat) (h : ll.holds L) :
    ll.wf ∧ cf_ll_forward ll = L ∧ cf_ll_backward ll = L.reverse ∧ ll.sz = L.length ∧
      ll.head = L.head?.getD 0 ∧ ll.tail = L.getLast?.getD 0 :=
  ⟨cf_ll_holds_wf ll L h, (cf_ll_holds_forward ll L h).1, (cf_ll_holds_forward ll L h).2,
    h.2.2.1, (cf_ll_holds_ends ll L h).1, (cf_ll_holds_ends ll L h).2⟩

/-! ## Claims on the linked list -/

/-- C17: every state reached from `cf_ll_init` by `cf_ll_append`,
`cf_ll_prepend` (of an element that is not in the list), `cf_ll_insert_before`,
`cf_ll_insert_after` (`cur` in the list, the new element not in it) and
`cf_ll_delete` (of an element of the list), the list never holding `2 ^ 32 - 1`
elements when one is added, is well formed: `head == NULL` iff `tail == NULL`
iff `sz == 0`, the forward traversal from `head` and the backward traversal
from `tail` both have length `sz`, and the backward traversal reversed is the
forward traversal. -/
theorem cf_ll_reachable_wf (ll : cf_ll) (h : cf_ll_reachable ll) :
    (ll.head = 0 ↔ ll.tail = 0) ∧ (ll.tail = 0 ↔ ll.sz = 0) ∧
      (cf_ll_forward ll).length = ll.sz ∧ (cf_ll_backward ll).length = ll.sz ∧
      (cf_ll_backward ll).reverse = cf_ll_forward ll := by
  have key : ll.wf := by
    induction h with
    | init g destroy_fn uselock =>
      apply cf_ll_holds_wf _ []
      exact ⟨rfl, rfl, rfl, by simp⟩
    | append s s1 e _ he0 he hsz hrun ih =>
      have hs := cf_ll_wf_holds s ih
      obtain ⟨s2, hrun2, h2, -, -⟩ := cf_ll_append_holds s _ e hs he0 he
        (by rw [ih.2.2.1]; exact hsz)
      have : s1 = s2 := Option.some.inj (hrun.symm.trans hrun2)
      exact this ▸ cf_ll_holds_wf _ _ h2
    | prepend s s1 e _ he0 he hsz hrun ih =>
      have hs := cf_ll_wf_holds s ih
      obtain ⟨s2, hrun2, h2, -, -⟩ := cf_ll_prepend_holds s _ e hs he0 he
        (by rw [ih.2.2.1]; exact hsz)
      have : s1 = s2 := Option.some.inj (hrun.symm.trans hrun2)
      exact this ▸ cf_ll_holds_wf _ _ h2
    | insert_before s s1 cur e _ hcur he0 he hsz hrun ih =>
      have hs := cf_ll_wf_holds s ih
      have hlen := ih.2.2.1
      obtain ⟨A, B, hAB⟩ := List.append_of_mem hcur
      rw [hAB] at hs he hlen
      obtain ⟨s2, hrun2, h2, -, -⟩ := cf_ll_insert_before_holds s A B cur e hs he0 he
        (by rw [hlen]; exact hsz)
      have : s1 = s2 := Option.some.inj (hrun.symm.trans hrun2)
      exact this ▸ cf_ll_holds_wf _ _ h2
    | insert_after s s1 cur e _ hcur he0 he hsz hrun ih =>
      have hs := cf_ll_wf_holds s ih
      have hlen := ih.2.2.1
      obtain ⟨A, B, hAB⟩ := List.append_of_mem hcur
      rw [hAB] at hs he hlen
      obtain ⟨s2, hrun2, h2, -, -⟩ := cf_ll_insert_after_holds s A B cur e hs he0 he
        (by rw [hlen]; exact hsz)
      have : s1 = s2 := Option.some.inj (hrun.symm.trans hrun2)
      exact this ▸ cf_ll_holds_wf _ _ h2
    | delete s s1 e _ hmem hrun ih =>
      have hs := cf_ll_wf_holds s ih
      obtain ⟨A, B, hAB⟩ := List.append_of_mem hmem
      rw [hAB] at hs
      obtain ⟨s2, hrun2, h2, -⟩ := cf_ll_delete_lockfree_holds s A B e hs
      have hsz0 : s.sz ≠ 0 := by
        rw [hs.2.2.1, List.length_append, List.length_cons]
        omega
      simp only [cf_ll_delete, if_neg hsz0] at hrun
      have : s1 = s2 := Option.some.inj (hrun.symm.trans hrun2)
      exact this ▸ cf_ll_holds_wf _ _ h2
  exact ⟨key.1, key.2.1, key.2.2.1, key.2.2.2.1, key.2.2.2.2.1⟩

/-- C17 on the state reached by `cf_ll_init`, `append(1)`, `append(2)`: the
list `1, 2`. -/
theorem cf_ll_reachable_wf_witness :
    cf_ll_reachable ⟨1, 2, 2, true, false,
      cf_ll_write (cf_ll_write (cf_ll_write (fun _ => 7) 1 0) 2 0) 1 2,
      cf_ll_write (cf_ll_write (fun _ => 7) 1 0) 2 1, []⟩ ∧
    cf_ll_forward ⟨1, 2, 2, true, false,
      cf_ll_write (cf_ll_write (cf_ll_write (fun _ => 7) 1 0) 2 0) 1 2,
      cf_ll_write (cf_ll_write (fun _ => 7) 1 0) 2 1, []⟩ = [1, 2] ∧
    (((1 : Nat) = 0 ↔ (2 : Nat) = 0) ∧ ((2 : Nat) = 0 ↔ (2 : Nat) = 0) ∧
      (cf_ll_forward ⟨1, 2, 2, true, false,
        cf_ll_write (cf_ll_write (cf_ll_write (fun _ => 7) 1 0) 2 0) 1 2,
        cf_ll_write (cf_ll_write (fun _ => 7) 1 0) 2 1, []⟩).length = 2 ∧
      (cf_ll_backward ⟨1, 2, 2, true, false,
        cf_ll_write (cf_ll_write (cf_ll_write (fun _ => 7) 1 0) 2 0) 1 2,
        cf_ll_write (cf_ll_write (fun _ => 7) 1 0) 2 1, []⟩).length = 2 ∧
      (cf_ll_backward ⟨1, 2, 2, true, false,
        cf_ll_write (cf_ll_write (cf_ll_write (fun _ => 7) 1 0) 2 0) 1 2,
        cf_ll_write (cf_ll_write (fun _ => 7) 1 0) 2 1, []⟩).reverse =
      cf_ll_forward ⟨1, 2, 2, true, false,
        cf_ll_write (cf_ll_write (cf_ll_write (fun _ => 7) 1 0) 2 0) 1 2,
        cf_ll_write (cf_ll_write (fun _ => 7) 1 0) 2 1, []⟩) :=
  have hr : cf_ll_reachable ⟨1, 2, 2, true, false,
      cf_ll_write (cf_ll_write (cf_ll_write (fun _ => 7) 1 0) 2 0) 1 2,
      cf_ll_write (cf_ll_write (fun _ => 7) 1 0) 2 1, []⟩ :=
    cf_ll_reachable.append
      ⟨1, 1, 1, true, false, cf_ll_write (fun _ => 7) 1 0, cf_ll_write (fun _ => 7) 1 0, []⟩
      _ 2
      (cf_ll_reachable.append
        (cf_ll_init ⟨7, 7, 7, false, false, fun _ => 7, fun _ => 7, []⟩ true false).2
        _ 1 (cf_ll_reachable.init _ true false) (by decide) (by decide) (by decide) rfl)
      (by decide) (by decide) (by decide) rfl
  ⟨hr, by decide, cf_ll_reachable_wf _ hr⟩

/-- C18: for a well-formed list with forward traversal `L` of fewer than
`2 ^ 32 - 1` elements and an element `e` (not `NULL`) that is not in `L`,
`cf_ll_prepend` gives the well-formed list `e :: L`, `cf_ll_append` gives
`L ++ [e]`, `cf_ll_insert_before(cur, e)` gives `L` with `e` immediately before
`cur` and `cf_ll_insert_after(cur, e)` gives `L` with `e` immediately after
`cur`; each raises `sz` by exactly 1 and makes `e` the head (the tail) exactly
when `e` was placed at the front (the back). -/
theorem cf_ll_insert_spec (ll : cf_ll) (L : List Nat) (e : Nat) (h : ll.holds L)
    (he0 : e ≠ 0) (he : e ∉ L) (hsz : L.length < 4294967295) :
    (∃ ll1, cf_ll_prepend ll e = some ll1 ∧ ll1.wf ∧ cf_ll_forward ll1 = e :: L ∧
      ll1.sz = ll.sz + 1 ∧ ll1.head = e ∧ (ll1.tail = e ↔ L = [])) ∧
    (∃ ll1, cf_ll_append ll e = some ll1 ∧ ll1.wf ∧ cf_ll_forward ll1 = L ++ [e] ∧
      ll1.sz = ll.sz + 1 ∧ ll1.tail = e ∧ (ll1.head = e ↔ L = [])) ∧
    (∀ A cur B, L = A ++ cur :: B →
      ∃ ll1, cf_ll_insert_before ll cur e = some ll1 ∧ ll1.wf ∧
        cf_ll_forward ll1 = A ++ e :: cur :: B ∧ ll1.sz = ll.sz + 1 ∧
        (ll1.head = e ↔ A = []) ∧ ll1.tail ≠ e) ∧
    (∀ A cur B, L = A ++ cur :: B →
      ∃ ll1, cf_ll_insert_after ll cur e = some ll1 ∧ ll1.wf ∧
        cf_ll_forward ll1 = A ++ cur :: e :: B ∧ ll1.sz = ll.sz + 1 ∧
        (ll1.tail = e ↔ B = []) ∧ ll1.head ≠ e) := by
  have hlen : ll.sz = L.length := h.2.2.1
  refine ⟨?_, ?_, ?_, ?_⟩
  · obtain ⟨ll1, hrun, h1, -, -⟩ := cf_ll_prepend_holds ll L e h he0 he hsz
    obtain ⟨hwf, hfw, -, hs, hh, ht⟩ := cf_ll_holds_facts ll1 _ h1
    refine ⟨ll1, hrun, hwf, hfw, by simp [hs, hlen], by simpa using hh, ?_⟩
    rw [ht]
    cases L with
    | nil => simp
    | cons x xs =>
      simp only [List.getLast?_cons_cons, reduceCtorEq, iff_false]
      intro hm
      exact he (hm ▸ cf_ll_last_mem (x :: xs) (List.cons_ne_nil _ _))
  · obtain ⟨ll1, hrun, h1, -, -⟩ := cf_ll_append_holds ll L e h he0 he hsz
    obtain ⟨hwf, hfw, -, hs, hh, ht⟩ := cf_ll_holds_facts ll1 _ h1
    refine ⟨ll1, hrun, hwf, hfw, by simp [hs, hlen], by simpa using ht, ?_⟩
    rw [hh]
    cases L with
    | nil => simp
    | cons x xs =>
      simp only [List.cons_append, List.head?_cons, Option.getD_some, reduceCtorEq, iff_false]
      intro hm
      exact he (hm ▸ List.mem_cons_self _ _)
  · intro A cur B hL
    subst hL
    obtain ⟨ll1, hrun, h1, -, -⟩ := cf_ll_insert_before_holds ll A B cur e h he0 he hsz
    obtain ⟨hwf, hfw, -, hs, hh, ht⟩ := cf_ll_holds_facts ll1 _ h1
    refine ⟨ll1, hrun, hwf, hfw, ?_, ?_, ?_⟩
    · simp only [hs, hlen, List.length_append, List.length_cons]
      omega
    · rw [hh]
      cases A with
      | nil => simp
      | cons a A1 =>
        simp only [List.cons_append, List.head?_cons, Option.getD_some, reduceCtorEq,
          iff_false]
        intro hm
        exact he (hm ▸ by simp)
    · rw [ht, show A ++ e :: cur :: B = (A ++ [e]) ++ cur :: B by simp,
        List.getLast?_append_of_ne_nil _ (List.cons_ne_nil _ _)]
      intro hm
      have := cf_ll_last_mem (cur :: B) (List.cons_ne_nil _ _)
      rw [hm] at this
      exact he (List.mem_append_right _ this)
  · intro A cur B hL
    subst hL
    obtain ⟨ll1, hrun, h1, -, -⟩ := cf_ll_insert_after_holds ll A B cur e h he0 he hsz
    obtain ⟨hwf, hfw, -, hs, hh, ht⟩ := cf_ll_holds_facts ll1 _ h1
    refine ⟨ll1, hrun, hwf, hfw, ?_, ?_, ?_⟩
    · simp only [hs, hlen, List.length_append, List.length_cons]
      omega
    · rw [ht, show A ++ cur :: e :: B = (A ++ [cur]) ++ e :: B by simp,
        List.getLast?_append_of_ne_nil _ (List.cons_ne_nil _ _)]
      cases B with
      | nil => simp
      | cons b B1 =>
        simp only [List.getLast?_cons_cons, reduceCtorEq, iff_false]
        intro hm
        have := cf_ll_last_mem (b :: B1) (List.cons_ne_nil _ _)
        rw [hm] at this
        exact he (List.mem_append_right _ (List.mem_cons_of_mem _ this))
    · rw [hh, show A ++ cur :: e :: B = (A ++ [cur]) ++ e :: B by simp,
        List.head?_append_of_ne_nil _ (by simp)]
      intro hm
      have := cf_ll_head_mem (A ++ [cur]) (by simp)
      rw [hm] at this
      apply he
      simp only [List.mem_append, List.mem_singleton, List.mem_cons] at this ⊢
      tauto

/-- C18 on the list `1, 2` with the new element `3`: prepend gives `3, 1, 2`,
append gives `1, 2, 3`, inserting before `2` gives `1, 3, 2` and inserting
after `2` gives `1, 2, 3` with `3` the new tail. -/
theorem cf_ll_insert_spec_witness :
    (cf_ll.holds ⟨1, 2, 2, true, false, fun x => if x = 1 then 2 else 0,
        fun x => if x = 2 then 1 else 0, []⟩ [1, 2] ∧
      (cf_ll_insert_before ⟨1, 2, 2, true, false, fun x => if x = 1 then 2 else 0,
          fun x => if x = 2 then 1 else 0, []⟩ 2 3).map
        (fun s => (s.head, s.tail, s.sz, cf_ll_forward s, cf_ll_backward s)) =
        some (1, 2, 3, [1, 3, 2], [2, 3, 1])) ∧
    (∃ ll1, cf_ll_prepend ⟨1, 2, 2, true, false, fun x => if x = 1 then 2 else 0,
        fun x => if x = 2 then 1 else 0, []⟩ 3 = some ll1 ∧ ll1.wf ∧
      cf_ll_forward ll1 = [3, 1, 2] ∧ ll1.sz = 2 + 1 ∧ ll1.head = 3 ∧
      (ll1.tail = 3 ↔ [1, 2] = [])) ∧
    (∃ ll1, cf_ll_append ⟨1, 2, 2, true, false, fun x => if x = 1 then 2 else 0,
        fun x => if x = 2 then 1 else 0, []⟩ 3 = some ll1 ∧ ll1.wf ∧
      cf_ll_forward ll1 = [1, 2] ++ [3] ∧ ll1.sz = 2 + 1 ∧ ll1.tail = 3 ∧
      (ll1.head = 3 ↔ [1, 2] = [])) ∧
    (∃ ll1, cf_ll_insert_before ⟨1, 2, 2, true, false, fun x => if x = 1 then 2 else 0,
        fun x => if x = 2 then 1 else 0, []⟩ 2 3 = some ll1 ∧ ll1.wf ∧
      cf_ll_forward ll1 = [1] ++ 3 :: 2 :: [] ∧ ll1.sz = 2 + 1 ∧
      (ll1.head = 3 ↔ [1] = []) ∧ ll1.tail ≠ 3) ∧
    (∃ ll1, cf_ll_insert_after ⟨1, 2, 2, true, false, fun x => if x = 1 then 2 else 0,
        fun x => if x = 2 then 1 else 0, []⟩ 2 3 = some ll1 ∧ ll1.wf ∧
      cf_ll_forward ll1 = [1] ++ 2 :: 3 :: [] ∧ ll1.sz = 2 + 1 ∧
      (ll1.tail = 3 ↔ ([] : List Nat) = []) ∧ ll1.head ≠ 3) :=
  ⟨by decide,
    (cf_ll_insert_spec ⟨1, 2, 2, true, false, fun x => if x = 1 then 2 else 0,
      fun x => if x = 2 then 1 else 0, []⟩ [1, 2] 3 (by decide) (by decide) (by decide)
      (by decide)).1,
    (cf_ll_insert_spec ⟨1, 2, 2, true, false, fun x => if x = 1 then 2 else 0,
      fun x => if x = 2 then 1 else 0, []⟩ [1, 2] 3 (by decide) (by decide) (by decide)
      (by decide)).2.1,
    (cf_ll_insert_spec ⟨1, 2, 2, true, false, fun x => if x = 1 then 2 else 0,
      fun x => if x = 2 then 1 else 0, []⟩ [1, 2] 3 (by decide) (by decide) (by decide)
      (by decide)).2.2.1 [1] 2 [] rfl,
    (cf_ll_insert_spec ⟨1, 2, 2, true, false, fun x => if x = 1 then 2 else 0,
      fun x => if x = 2 then 1 else 0, []⟩ [1, 2] 3 (by decide) (by decide) (by decide)
      (by decide)).2.2.2 [1] 2 [] rfl⟩

/-- C19: for a well-formed list with forward traversal `L` and an element `e`
of `L`, `cf_ll_delete(ll, e)` gives the well-formed list `L` without `e` (the
others in their order), lowers `sz` by exactly 1, leaves `head` and `tail` at
the first and last remaining element (both `NULL` when none remains), and
invokes the destructor callback, when one is set, exactly once, on `e`; on an
empty list it changes nothing and invokes nothing. -/
theorem cf_ll_delete_spec (ll : cf_ll) (L : List Nat) (e : Nat) (h : ll.holds L) :
    (e ∈ L →
      ∃ ll1, cf_ll_delete ll e = some ll1 ∧ ll1.wf ∧ cf_ll_forward ll1 = L.erase e ∧
        ll1.sz + 1 = ll.sz ∧
        ll1.head = (L.erase e).head?.getD 0 ∧ ll1.tail = (L.erase e).getLast?.getD 0 ∧
        (L = [e] → ll1.head = 0 ∧ ll1.tail = 0) ∧
        ll1.destroyed = (if ll.destroy_fn then ll.destroyed ++ [e] else ll.destroyed)) ∧
    (L = [] → cf_ll_delete ll e = some ll) := by
  have hlen : ll.sz = L.length := h.2.2.1
  constructor
  · intro hmem
    obtain ⟨A, B, hL⟩ := List.append_of_mem hmem
    subst hL
    obtain ⟨-, heA, -, -⟩ := cf_ll_holds_split ll A B e h
    obtain ⟨ll1, hrun, h1, hd, -, -, -⟩ := cf_ll_delete_lockfree_holds ll A B e h
    have herase : (A ++ e :: B).erase e = A ++ B := by
      rw [List.erase_append_right _ heA, List.erase_cons_head]
    obtain ⟨hwf, hfw, -, hs, hh, ht⟩ := cf_ll_holds_facts ll1 _ h1
    have hsz0 : ll.sz ≠ 0 := by
      simp only [hlen, List.length_append, List.length_cons]
      omega
    refine ⟨ll1, by simp only [cf_ll_delete, if_neg hsz0, hrun], hwf, by rw [hfw, herase],
      ?_, by rw [hh, herase], by rw [ht, herase], ?_, hd⟩
    · simp only [hs, hlen, List.length_append, List.length_cons]
      omega
    · intro hsole
      have hl := congrArg List.length hsole
      simp only [List.length_append, List.length_cons, List.length_nil] at hl
      have hA : A = [] := List.length_eq_zero.mp (by omega)
      have hB : B = [] := List.length_eq_zero.mp (by omega)
      subst hA hB
      simp [hh, ht]
  · intro hL
    subst hL
    have hsz0 : ll.sz = 0 := by simpa using hlen
    simp only [cf_ll_delete, if_pos hsz0]

/-- C19 on the list `1, 2, 3` (the elements A, B, C appended in this order, with
a destructor callback): `delete(2)` gives the traversal `1, 3`, count 2, head
`1`, tail `3`, and one destructor invocation, on `2`. -/
theorem cf_ll_delete_spec_witness :
    (cf_ll.holds ⟨1, 3, 3, true, false, fun x => if x = 1 then 2 else if x = 2 then 3 else 0,
        fun x => if x = 3 then 2 else if x = 2 then 1 else 0, []⟩ [1, 2, 3] ∧
      (((cf_ll_append (cf_ll_init ⟨7, 7, 7, false, false, fun _ => 7, fun _ => 7, []⟩
            true false).2 1).bind (fun s => cf_ll_append s 2)).bind
          (fun s => cf_ll_append s 3)).map
        (fun s => (s.head, s.tail, s.sz, cf_ll_forward s, cf_ll_backward s)) =
        some (1, 3, 3, [1, 2, 3], [3, 2, 1]) ∧
      (cf_ll_delete ⟨1, 3, 3, true, false,
          fun x => if x = 1 then 2 else if x = 2 then 3 else 0,
          fun x => if x = 3 then 2 else if x = 2 then 1 else 0, []⟩ 2).map
        (fun s => (s.head, s.tail, s.sz, cf_ll_forward s, cf_ll_backward s, s.destroyed)) =
        some (1, 3, 2, [1, 3], [3, 1], [2])) ∧
    (∃ ll1, cf_ll_delete ⟨1, 3, 3, true, false,
        fun x => if x = 1 then 2 else if x = 2 then 3 else 0,
        fun x => if x = 3 then 2 else if x = 2 then 1 else 0, []⟩ 2 = some ll1 ∧ ll1.wf ∧
      cf_ll_forward ll1 = [1, 2, 3].erase 2 ∧ ll1.sz + 1 = 3 ∧
      ll1.head = ([1, 2, 3].erase 2).head?.getD 0 ∧
      ll1.tail = ([1, 2, 3].erase 2).getLast?.getD 0 ∧
      ([1, 2, 3] = [2] → ll1.head = 0 ∧ ll1.tail = 0) ∧
      ll1.destroyed = (if true then [] ++ [2] else [])) :=
  ⟨⟨by decide, by decide, rfl⟩,
    (cf_ll_delete_spec ⟨1, 3, 3, true, false,
      fun x => if x = 1 then 2 else if x = 2 then 3 else 0,
      fun x => if x = 3 then 2 else if x = 2 then 1 else 0, []⟩ [1, 2, 3] 2
      (by decide)).1 (by decide)⟩

/-- The forward loop of `cf_ll_reduce` with a callback that asks to delete the
elements satisfying `P` and to go on otherwise, started on the first element of
the part `R` still to visit, `K` being what was kept so far. -/
theorem cf_ll_reduce_loop_forward {σ : Type} (P : Nat → Bool) :
    ∀ (R K : List Nat) (ll : cf_ll) (fuel : Nat) (rv : Int) (u : σ) (visited : List Nat),
      ll.holds (K ++ R) → R.length ≤ fuel →
      ∃ rv1 ll1,
        cf_ll_reduce_loop true (fun e (s : σ) => (if P e then CF_LL_REDUCE_DELETE else 0, s))
          fuel ll (R.head?.getD 0) rv u visited = some (rv1, ll1, u, visited ++ R) ∧
        ll1.holds (K ++ R.filter (fun e => !P e)) ∧
        ll1.destroyed = ll.destroyed ++ (if ll.destroy_fn then R.filter P else []) ∧
        ll1.destroy_fn = ll.destroy_fn := by
  intro R
  induction R with
  | nil =>
    intro K ll fuel rv u visited h _
    refine ⟨rv, ll, ?_, by simpa using h, by simp, rfl⟩
    cases fuel <;> simp [cf_ll_reduce_loop]
  | cons x R1 ih =>
    intro K ll fuel rv u visited h hfuel
    obtain ⟨hx0, -, -, -, -, hfR, -, -⟩ := cf_ll_holds_split ll K R1 x h
    have hnext := cf_ll_path_start _ _ _ _ hfR
    cases fuel with
    | zero => simp at hfuel
    | succ fuel =>
      simp only [List.length_cons] at hfuel
      simp only [List.head?_cons, Option.getD_some]
      unfold cf_ll_reduce_loop
      rw [if_neg hx0]
      by_cases hP : P x = true
      · obtain ⟨ll2, hdel, h2, hd2, hfn2, -, -⟩ := cf_ll_delete_lockfree_holds ll K R1 x h
        obtain ⟨rv1, ll1, hrun, h1, hd1, hfn1⟩ :=
          ih K ll2 fuel CF_LL_REDUCE_DELETE u (visited ++ [x]) h2 (by omega)
        refine ⟨rv1, ll1, ?_, by simpa [hP] using h1, ?_, hfn1.trans hfn2⟩
        · simp only [hP, if_true, hdel, hnext]
          rw [if_pos (by decide)]
          simpa using hrun
        · rw [hd1, hd2, hfn2]
          by_cases hfn : ll.destroy_fn = true <;> simp [hfn, hP]
      · have hPf : P x = false := by simpa using hP
        obtain ⟨rv1, ll1, hrun, h1, hd1, hfn1⟩ :=
          ih (K ++ [x]) ll fuel 0 u (visited ++ [x]) (by simpa using h) (by omega)
        refine ⟨rv1, ll1, ?_, by simpa [hPf] using h1, ?_, hfn1⟩
        · simp only [hPf, Bool.false_eq_true, if_false, ne_eq, not_true_eq_false, hnext]
          simpa using hrun
        · rw [hd1]
          simp [hPf]

/-- The backward loop of `cf_ll_reduce` with the same callback, started on the
last element of the part still to visit (given reversed, `Rr`), `K` being what
was kept so far. -/
theorem cf_ll_reduce_loop_backward {σ : Type} (P : Nat → Bool) :
    ∀ (Rr K : List Nat) (ll : cf_ll) (fuel : Nat) (rv : Int) (u : σ) (visited : List Nat),
      ll.holds (Rr.reverse ++ K) → Rr.length ≤ fuel →
      ∃ rv1 ll1,
        cf_ll_reduce_loop false (fun e (s : σ) => (if P e then CF_LL_REDUCE_DELETE else 0, s))
          fuel ll (Rr.head?.getD 0) rv u visited = some (rv1, ll1, u, visited ++ Rr) ∧
        ll1.holds ((Rr.reverse).filter (fun e => !P e) ++ K) ∧
        ll1.destroyed = ll.destroyed ++ (if ll.destroy_fn then Rr.filter P else []) ∧
        ll1.destroy_fn = ll.destroy_fn := by
  intro Rr
  induction Rr with
  | nil =>
    intro K ll fuel rv u visited h _
    refine ⟨rv, ll, ?_, by simpa using h, by simp, rfl⟩
    cases fuel <;> simp [cf_ll_reduce_loop]
  | cons x R1 ih =>
    intro K ll fuel rv u visited h hfuel
    have h0 : ll.holds (R1.reverse ++ x :: K) := by simpa using h
    obtain ⟨hx0, -, -, -, -, -, -, hbR⟩ := cf_ll_holds_split ll R1.reverse K x h0
    have hprev := cf_ll_path_start _ _ _ _ hbR
    rw [List.reverse_reverse] at hprev
    cases fuel with
    | zero => simp at hfuel
    | succ fuel =>
      simp only [List.length_cons] at hfuel
      simp only [List.head?_cons, Option.getD_some]
      unfold cf_ll_reduce_loop
      rw [if_neg hx0]
      by_cases hP : P x = true
      · obtain ⟨ll2, hdel, h2, hd2, hfn2, -, -⟩ :=
          cf_ll_delete_lockfree_holds ll R1.reverse K x h0
        obtain ⟨rv1, ll1, hrun, h1, hd1, hfn1⟩ :=
          ih K ll2 fuel CF_LL_REDUCE_DELETE u (visited ++ [x]) h2 (by omega)
        refine ⟨rv1, ll1, ?_, by simpa [hP] using h1, ?_, hfn1.trans hfn2⟩
        · simp only [hP, if_true, hdel, hprev]
          rw [if_pos (by decide)]
          simpa using hrun
        · rw [hd1, hd2, hfn2]
          by_cases hfn : ll.destroy_fn = true <;> simp [hfn, hP]
      · have hPf : P x = false := by simpa using hP
        obtain ⟨rv1, ll1, hrun, h1, hd1, hfn1⟩ :=
          ih (x :: K) ll fuel 0 u (visited ++ [x]) h0 (by omega)
        refine ⟨rv1, ll1, ?_, by simpa [hPf] using h1, ?_, hfn1⟩
        · simp only [hPf, Bool.false_eq_true, if_false, ne_eq, not_true_eq_false, hprev]
          simpa using hrun
        · rw [hd1]
          simp [hPf]

/-- C20: for a well-formed list with forward traversal `L`, every predicate `P`
and both directions, `cf_ll_reduce` with the callback that returns
`CF_LL_REDUCE_DELETE` on the elements satisfying `P` and 0 on the others, its
loop given at least as many iterations as `L` has elements, returns; it invokes
the callback on every element of `L` exactly once (in the order of `L`, or of
`L` reversed when going backward), leaves a well-formed list whose forward
traversal is `L` without the elements satisfying `P`, in their order, with `sz`
their number, and invokes the destructor callback, when one is set, exactly
once on each element satisfying `P`, in the order visited. -/
theorem cf_ll_reduce_delete_spec {σ : Type} (ll : cf_ll) (L : List Nat) (P : Nat → Bool)
    (forward : Bool) (fuel : Nat) (u : σ) (h : ll.holds L) (hfuel : L.length ≤ fuel) :
    ∃ rv ll1,
      cf_ll_reduce fuel ll forward
          (fun e (s : σ) => (if P e then CF_LL_REDUCE_DELETE else 0, s)) u =
        some (rv, ll1, u, if forward then L else L.reverse) ∧
      ll1.wf ∧ cf_ll_forward ll1 = L.filter (fun e => !P e) ∧
      ll1.sz = (L.filter (fun e => !P e)).length ∧
      ll1.destroyed = ll.destroyed ++
        (if ll.destroy_fn then (if forward then L else L.reverse).filter P else []) := by
  obtain ⟨hh, ht⟩ := cf_ll_holds_ends ll L h
  cases forward with
  | true =>
    obtain ⟨rv1, ll1, hrun, h1, hd, -⟩ :=
      cf_ll_reduce_loop_forward P L [] ll fuel 0 u [] (by simpa using h) hfuel
    obtain ⟨hwf, hfw, -, hs, -, -⟩ := cf_ll_holds_facts ll1 _ h1
    refine ⟨rv1, ll1, ?_, hwf, by simpa using hfw, by simpa using hs, by simpa using hd⟩
    simp only [cf_ll_reduce, if_true, hh]
    simpa using hrun
  | false =>
    obtain ⟨rv1, ll1, hrun, h1, hd, -⟩ :=
      cf_ll_reduce_loop_backward P L.reverse [] ll fuel 0 u [] (by simpa using h)
        (by simpa using hfuel)
    obtain ⟨hwf, hfw, -, hs, -, -⟩ := cf_ll_holds_facts ll1 _ h1
    refine ⟨rv1, ll1, ?_, hwf, by simpa using hfw, by simpa using hs, by simpa using hd⟩
    simp only [cf_ll_reduce, Bool.false_eq_true, if_false, ht, ← List.head?_reverse]
    simpa using hrun

/-- C20 on the list `1, 2, 3, 4` with a destructor callback and `P` = "is
even": the forward reduce visits 1, 2, 3, 4, leaves `1, 3` with count 2 and
destroys 2 then 4; the backward reduce visits 4, 3, 2, 1 and destroys 4 then
2. -/
theorem cf_ll_reduce_delete_spec_witness :
    (cf_ll.holds ⟨1, 4, 4, true, false,
        fun x => if x = 1 then 2 else if x = 2 then 3 else if x = 3 then 4 else 0,
        fun x => if x = 4 then 3 else if x = 3 then 2 else if x = 2 then 1 else 0, []⟩
        [1, 2, 3, 4] ∧
      (cf_ll_reduce 4 ⟨1, 4, 4, true, false,
          fun x => if x = 1 then 2 else if x = 2 then 3 else if x = 3 then 4 else 0,
          fun x => if x = 4 then 3 else if x = 3 then 2 else if x = 2 then 1 else 0, []⟩
          false (fun e (s : Unit) => (if decide (e % 2 = 0) then CF_LL_REDUCE_DELETE else 0, s))
          ()).map (fun r => (cf_ll_forward r.2.1, r.2.1.sz, r.2.1.destroyed, r.2.2.2)) =
        some ([1, 3], 2, [4, 2], [4, 3, 2, 1])) ∧
    ∃ rv ll1,
      cf_ll_reduce 4 ⟨1, 4, 4, true, false,
          fun x => if x = 1 then 2 else if x = 2 then 3 else if x = 3 then 4 else 0,
          fun x => if x = 4 then 3 else if x = 3 then 2 else if x = 2 then 1 else 0, []⟩
          true (fun e (s : Unit) => (if decide (e % 2 = 0) then CF_LL_REDUCE_DELETE else 0, s))
          () =
        some (rv, ll1, (), if true then [1, 2, 3, 4] else [1, 2, 3, 4].reverse) ∧
      ll1.wf ∧ cf_ll_forward ll1 = [1, 2, 3, 4].filter (fun e => !decide (e % 2 = 0)) ∧
      ll1.sz = ([1, 2, 3, 4].filter (fun e => !decide (e % 2 = 0))).length ∧
      ll1.destroyed = [] ++
        (if true then (if true then [1, 2, 3, 4] else [1, 2, 3, 4].reverse).filter
          (fun e => decide (e % 2 = 0)) else []) :=
  ⟨⟨by decide, rfl⟩,
    cf_ll_reduce_delete_spec ⟨1, 4, 4, true, false,
      fun x => if x = 1 then 2 else if x = 2 then 3 else if x = 3 then 4 else 0,
      fun x => if x = 4 then 3 else if x = 3 then 2 else if x = 2 then 1 else 0, []⟩
      [1, 2, 3, 4] (fun e => decide (e % 2 = 0)) true 4 () (by decide) (by decide)⟩

/-! ## Linked list: traversals with a general callback -/

theorem cf_ll_results_append {σ : Type} (fn : Nat → σ → Int × σ) :
    ∀ (A B : List Nat) (u : σ),
      cf_ll_results fn (A ++ B) u =
        cf_ll_results fn A u ++ cf_ll_results fn B (cf_ll_udata_after fn A u) := by
  intro A
  induction A with
  | nil => intro B u; rfl
  | cons a A ih => intro B u; simp [cf_ll_results, cf_ll_udata_after, ih]

theorem cf_ll_udata_after_append {σ : Type} (fn : Nat → σ → Int × σ) :
    ∀ (A B : List Nat) (u : σ),
      cf_ll_udata_after fn (A ++ B) u = cf_ll_udata_after fn B (cf_ll_udata_after fn A u) := by
  intro A
  induction A with
  | nil => intro B u; rfl
  | cons a A ih => intro B u; simp [cf_ll_udata_after, ih]

theorem cf_ll_kept_append {σ : Type} (fn : Nat → σ → Int × σ) :
    ∀ (A B : List Nat) (u : σ),
      cf_ll_kept fn (A ++ B) u =
        cf_ll_kept fn A u ++ cf_ll_kept fn B (cf_ll_udata_after fn A u) := by
  intro A
  induction A with
  | nil => intro B u; rfl
  | cons a A ih =>
    intro B u
    by_cases h : (fn a u).1 = 0 <;> simp [cf_ll_kept, cf_ll_udata_after, ih, h]

theorem cf_ll_kept_sublist {σ : Type} (fn : Nat → σ → Int × σ) :
    ∀ (A : List Nat) (u : σ), (cf_ll_kept fn A u).Sublist A := by
  intro A
  induction A with
  | nil => intro u; exact List.Sublist.slnil
  | cons a A ih =>
    intro u
    by_cases h : (fn a u).1 = 0
    · simp only [cf_ll_kept, if_pos h]
      exact (ih _).cons₂ a
    · simp only [cf_ll_kept, if_neg h]
      exact (ih _).cons a

theorem cf_ll_kept_of_zero {σ : Type} (fn : Nat → σ → Int × σ) :
    ∀ (A : List Nat) (u : σ), (∀ r ∈ cf_ll_results fn A u, r = 0) → cf_ll_kept fn A u = A := by
  intro A
  induction A with
  | nil => intro u _; rfl
  | cons a A ih =>
    intro u h
    simp only [cf_ll_results, List.mem_cons, forall_eq_or_imp] at h
    simp only [cf_ll_kept, if_pos h.1, ih _ h.2]

theorem cf_ll_results_length {σ : Type} (fn : Nat → σ → Int × σ) :
    ∀ (A : List Nat) (u : σ), (cf_ll_results fn A u).length = A.length := by
  intro A
  induction A with
  | nil => intro u; rfl
  | cons a A ih => intro u; simp [cf_ll_results, ih]

theorem cf_ll_getLast_cons (r rv : Int) (rs : List Int) :
    (r :: rs).getLast?.getD rv = rs.getLast?.getD r := by
  cases rs with
  | nil => rfl
  | cons s rs =>
    rw [List.getLast?_cons_cons, List.getLast?_eq_getLast _ (List.cons_ne_nil s rs)]
    rfl

theorem cf_ll_reduce_loop_succ {σ : Type} (forward : Bool) (fn : Nat → σ → Int × σ)
    (fuel : Nat) (ll : cf_ll) (cur : Nat) (rv : Int) (udata : σ) (visited : List Nat) :
    cf_ll_reduce_loop forward fn (fuel + 1) ll cur rv udata visited =
      if cur = 0 then some (rv, ll, udata, visited)
      else if (fn cur udata).1 ≠ 0 then
        if (fn cur udata).1 = CF_LL_REDUCE_DELETE then
          match cf_ll_delete_lockfree ll cur with
          | none => none
          | some ll1 =>
            cf_ll_reduce_loop forward fn fuel ll1 (if forward then ll.next cur else ll.prev cur)
              (fn cur udata).1 (fn cur udata).2 (visited ++ [cur])
        else some ((fn cur udata).1, ll, (fn cur udata).2, visited ++ [cur])
      else
        cf_ll_reduce_loop forward fn fuel ll (if forward then ll.next cur else ll.prev cur)
          (fn cur udata).1 (fn cur udata).2 (visited ++ [cur]) := rfl

theorem cf_ll_reduce_loop_null {σ : Type} (forward : Bool) (fn : Nat → σ → Int × σ)
    (fuel : Nat) (ll : cf_ll) (rv : Int) (udata : σ) (visited : List Nat) :
    cf_ll_reduce_loop forward fn fuel ll 0 rv udata visited = some (rv, ll, udata, visited) := by
  cases fuel <;> simp [cf_ll_reduce_loop]

/-- The forward loop of `cf_ll_reduce` over a stretch `A` of elements on which
the callback returns 0 or `CF_LL_REDUCE_DELETE`: it arrives at the element that
follows `A`, the elements of `A` on which the callback returned 0 being the
ones that stay. -/
theorem cf_ll_reduce_loop_continue_forward {σ : Type} (fn : Nat → σ → Int × σ) :
    ∀ (A K R : List Nat) (ll : cf_ll) (n : Nat) (rv : Int) (u : σ) (visited : List Nat),
      ll.holds (K ++ (A ++ R)) →
      (∀ r ∈ cf_ll_results fn A u, r = 0 ∨ r = CF_LL_REDUCE_DELETE) →
      ∃ ll1,
        cf_ll_reduce_loop true fn (A.length + n) ll ((A ++ R).head?.getD 0) rv u visited =
          cf_ll_reduce_loop true fn n ll1 (R.head?.getD 0)
            ((cf_ll_results fn A u).getLast?.getD rv) (cf_ll_udata_after fn A u)
            (visited ++ A) ∧
        ll1.holds (K ++ (cf_ll_kept fn A u ++ R)) ∧
        ((∀ r ∈ cf_ll_results fn A u, r = 0) → ll1 = ll) := by
  intro A
  induction A with
  | nil =>
    intro K R ll n rv u visited h _
    exact ⟨ll, by simp [cf_ll_results, cf_ll_udata_after], by simpa [cf_ll_kept] using h,
      fun _ => rfl⟩
  | cons x A1 ih =>
    intro K R ll n rv u visited h hA
    have h0 : ll.holds (K ++ x :: (A1 ++ R)) := by simpa using h
    obtain ⟨hx0, -, -, -, -, hfR, -, -⟩ := cf_ll_holds_split ll K (A1 ++ R) x h0
    have hnext := cf_ll_path_start _ _ _ _ hfR
    simp only [cf_ll_results, List.mem_cons, forall_eq_or_imp] at hA
    obtain ⟨hx, hA1⟩ := hA
    have hfuel : (x :: A1).length + n = (A1.length + n) + 1 := by
      simp only [List.length_cons]; omega
    rw [hfuel, cf_ll_reduce_loop_succ]
    simp only [List.cons_append, List.head?_cons, Option.getD_some, if_neg hx0, if_true, hnext]
    rcases hx with hx | hx
    · obtain ⟨ll1, hrun, h1, hsame⟩ :=
        ih (K ++ [x]) R ll n (fn x u).1 (fn x u).2 (visited ++ [x]) (by simpa using h0) hA1
      refine ⟨ll1, ?_, ?_, ?_⟩
      · rw [if_neg (by simp [hx]), hrun]
        simp [cf_ll_results, cf_ll_udata_after, cf_ll_getLast_cons]
      · simpa [cf_ll_kept, hx] using h1
      · intro hz
        exact hsame (fun r hr => hz r (by simp [cf_ll_results, hr]))
    · obtain ⟨ll2, hdel, h2, -, -, -, -⟩ := cf_ll_delete_lockfree_holds ll K (A1 ++ R) x h0
      obtain ⟨ll1, hrun, h1, -⟩ :=
        ih K R ll2 n (fn x u).1 (fn x u).2 (visited ++ [x]) h2 hA1
      have hne : (fn x u).1 ≠ 0 := by rw [hx]; decide
      refine ⟨ll1, ?_, ?_, ?_⟩
      · rw [if_pos hne, if_pos hx, hdel]
        simp only []
        rw [hrun]
        simp [cf_ll_results, cf_ll_udata_after, cf_ll_getLast_cons]
      · simpa [cf_ll_kept, hne] using h1
      · intro hz
        exact absurd (hz _ (by simp [cf_ll_results])) hne

/-- The backward loop of `cf_ll_reduce` over a stretch `A` of elements (in the
order visited) on which the callback returns 0 or `CF_LL_REDUCE_DELETE`; `R` is
what follows `A` in the order visited and `K` what lies behind. -/
theorem cf_ll_reduce_loop_continue_backward {σ : Type} (fn : Nat → σ → Int × σ) :
    ∀ (A K R : List Nat) (ll : cf_ll) (n : Nat) (rv : Int) (u : σ) (visited : List Nat),
      ll.holds ((A ++ R).reverse ++ K) →
      (∀ r ∈ cf_ll_results fn A u, r = 0 ∨ r = CF_LL_REDUCE_DELETE) →
      ∃ ll1,
        cf_ll_reduce_loop false fn (A.length + n) ll ((A ++ R).head?.getD 0) rv u visited =
          cf_ll_reduce_loop false fn n ll1 (R.head?.getD 0)
            ((cf_ll_results fn A u).getLast?.getD rv) (cf_ll_udata_after fn A u)
            (visited ++ A) ∧
        ll1.holds ((cf_ll_kept fn A u ++ R).reverse ++ K) ∧
        ((∀ r ∈ cf_ll_results fn A u, r = 0) → ll1 = ll) := by
  intro A
  induction A with
  | nil =>
    intro K R ll n rv u visited h _
    exact ⟨ll, by simp [cf_ll_results, cf_ll_udata_after], by simpa [cf_ll_kept] using h,
      fun _ => rfl⟩
  | cons x A1 ih =>
    intro K R ll n rv u visited h hA
    have h0 : ll.holds ((A1 ++ R).reverse ++ x :: K) := by simpa using h
    obtain ⟨hx0, -, -, -, -, -, -, hbR⟩ := cf_ll_holds_split ll (A1 ++ R).reverse K x h0
    have hprev := cf_ll_path_start _ _ _ _ hbR
    rw [List.reverse_reverse] at hprev
    simp only [cf_ll_results, List.mem_cons, forall_eq_or_imp] at hA
    obtain ⟨hx, hA1⟩ := hA
    have hfuel : (x :: A1).length + n = (A1.length + n) + 1 := by
      simp only [List.length_cons]; omega
    rw [hfuel, cf_ll_reduce_loop_succ]
    simp only [List.cons_append, List.head?_cons, Option.getD_some, if_neg hx0,
      Bool.false_eq_true, if_false, hprev]
    rcases hx with hx | hx
    · obtain ⟨ll1, hrun, h1, hsame⟩ :=
        ih (x :: K) R ll n (fn x u).1 (fn x u).2 (visited ++ [x]) h0 hA1
      refine ⟨ll1, ?_, ?_, ?_⟩
      · rw [if_neg (by simp [hx]), hrun]
        simp [cf_ll_results, cf_ll_udata_after, cf_ll_getLast_cons]
      · simpa [cf_ll_kept, hx] using h1
      · intro hz
        exact hsame (fun r hr => hz r (by simp [cf_ll_results, hr]))
    · obtain ⟨ll2, hdel, h2, -, -, -, -⟩ :=
        cf_ll_delete_lockfree_holds ll (A1 ++ R).reverse K x h0
      obtain ⟨ll1, hrun, h1, -⟩ :=
        ih K R ll2 n (fn x u).1 (fn x u).2 (visited ++ [x]) h2 hA1
      have hne : (fn x u).1 ≠ 0 := by rw [hx]; decide
      refine ⟨ll1, ?_, ?_, ?_⟩
      · rw [if_pos hne, if_pos hx, hdel]
        simp only []
        rw [hrun]
        simp [cf_ll_results, cf_ll_udata_after, cf_ll_getLast_cons]
      · simpa [cf_ll_kept, hne] using h1
      · intro hz
        exact absurd (hz _ (by simp [cf_ll_results])) hne

/-- The loop of `cf_ll_reduce` in either direction over a stretch `A` of
elements on which the callback returns 0 or `CF_LL_REDUCE_DELETE`, on a
well-formed list whose traversal in that direction is `A ++ R`. -/
theorem cf_ll_reduce_loop_continue {σ : Type} (fn : Nat → σ → Int × σ) (forward : Bool)
    (A R L : List Nat) (ll : cf_ll) (n : Nat) (rv : Int) (u : σ) (visited : List Nat)
    (h : ll.holds L) (hT : (if forward then L else L.reverse) = A ++ R)
    (hA : ∀ r ∈ cf_ll_results fn A u, r = 0 ∨ r = CF_LL_REDUCE_DELETE) :
    ∃ ll1,
      cf_ll_reduce_loop forward fn (A.length + n) ll (if forward then ll.head else ll.tail)
          rv u visited =
        cf_ll_reduce_loop forward fn n ll1 (R.head?.getD 0)
          ((cf_ll_results fn A u).getLast?.getD rv) (cf_ll_udata_after fn A u)
          (visited ++ A) ∧
      ll1.wf ∧
      (if forward then cf_ll_forward ll1 else cf_ll_backward ll1) = cf_ll_kept fn A u ++ R ∧
      ((∀ r ∈ cf_ll_results fn A u, r = 0) → ll1 = ll) := by
  obtain ⟨hh, ht⟩ := cf_ll_holds_ends ll L h
  cases forward with
  | true =>
    simp only [if_true] at hT ⊢
    subst hT
    obtain ⟨ll1, hrun, h1, hsame⟩ :=
      cf_ll_reduce_loop_continue_forward fn A [] R ll n rv u visited (by simpa using h) hA
    obtain ⟨hwf, hfw, -, -, -, -⟩ := cf_ll_holds_facts ll1 _ h1
    exact ⟨ll1, by rw [hh]; exact hrun, hwf, by simpa using hfw, hsame⟩
  | false =>
    simp only [Bool.false_eq_true, if_false] at hT ⊢
    have hL : L = (A ++ R).reverse := by rw [← hT, List.reverse_reverse]
    subst hL
    obtain ⟨ll1, hrun, h1, hsame⟩ :=
      cf_ll_reduce_loop_continue_backward fn A [] R ll n rv u visited (by simpa using h) hA
    obtain ⟨hwf, -, hbw, -, -, -⟩ := cf_ll_holds_facts ll1 _ h1
    refine ⟨ll1, ?_, hwf, by simpa using hbw, hsame⟩
    rw [ht, List.getLast?_reverse]
    exact hrun

theorem cf_ll_mem_traversal (ll : cf_ll) (hwf : ll.wf) (forward : Bool) (a : Nat) :
    a ∈ (if forward then cf_ll_forward ll else cf_ll_backward ll) ↔ a ∈ cf_ll_forward ll := by
  cases forward with
  | true => simp
  | false =>
    obtain ⟨-, -, -, -, hrev, -⟩ := hwf
    rw [← hrev]
    simp

theorem cf_ll_traversal_nodup (ll : cf_ll) (L : List Nat) (h : ll.holds L) (forward : Bool) :
    (if forward then L else L.reverse).Nodup := by
  have hnd := cf_ll_holds_nodup ll L h
  cases forward with
  | true => simpa using hnd
  | false => simpa using hnd

/-! ## Claims on the traversals -/

/-- C21: on a well-formed list with forward traversal `L`, in either direction:
if the callback returns 0 or `CF_LL_REDUCE_DELETE` on the elements `A` visited
first and then, on the element `x`, a value that is neither 0 nor
`CF_LL_REDUCE_DELETE`, then `cf_ll_reduce` (its loop given more than `|A|`
iterations) returns exactly that value; the callback was invoked on `A` and `x`
and on none of the elements `B` that come after `x` in the direction of the
traversal; and the list left is well formed, its traversal in that direction
being the elements of `A` on which the callback returned 0, then `x`, then `B`:
the current and all unvisited elements are still in the list. -/
theorem cf_ll_reduce_halts {σ : Type} (ll : cf_ll) (L A B : List Nat) (x : Nat)
    (forward : Bool) (fn : Nat → σ → Int × σ) (u : σ) (fuel : Nat)
    (h : ll.holds L) (hT : (if forward then L else L.reverse) = A ++ x :: B)
    (hA : ∀ q ∈ cf_ll_results fn A u, q = 0 ∨ q = CF_LL_REDUCE_DELETE)
    (hr0 : (fn x (cf_ll_udata_after fn A u)).1 ≠ 0)
    (hrd : (fn x (cf_ll_udata_after fn A u)).1 ≠ CF_LL_REDUCE_DELETE)
    (hfuel : A.length < fuel) :
    ∃ ll1,
      cf_ll_reduce fuel ll forward fn u =
        some ((fn x (cf_ll_udata_after fn A u)).1, ll1,
          (fn x (cf_ll_udata_after fn A u)).2, A ++ [x]) ∧
      (∀ y ∈ B, y ∉ A ++ [x]) ∧
      ll1.wf ∧
      (if forward then cf_ll_forward ll1 else cf_ll_backward ll1) =
        cf_ll_kept fn A u ++ x :: B ∧
      x ∈ cf_ll_forward ll1 ∧ ∀ y ∈ B, y ∈ cf_ll_forward ll1 := by
  obtain ⟨n, rfl⟩ : ∃ n, fuel = A.length + (n + 1) := ⟨fuel - A.length - 1, by omega⟩
  have hnd := cf_ll_traversal_nodup ll L h forward
  rw [hT] at hnd
  obtain ⟨ll1, hrun, hwf, htr, -⟩ :=
    cf_ll_reduce_loop_continue fn forward A (x :: B) L ll (n + 1) 0 u [] h hT hA
  have hx0 : x ≠ 0 := by
    have hz := cf_ll_path_ne_zero _ _ _ _ h.1
    have hx : x ∈ (if forward then L else L.reverse) := by rw [hT]; simp
    exact hz x (by cases forward <;> simpa using hx)
  refine ⟨ll1, ?_, ?_, hwf, htr, ?_, ?_⟩
  · unfold cf_ll_reduce
    rw [hrun, cf_ll_reduce_loop_succ]
    simp only [List.head?_cons, Option.getD_some, if_neg hx0, if_pos hr0, if_neg hrd,
      List.nil_append]
  · intro y hy hmem
    rw [List.nodup_append] at hnd
    rcases List.mem_append.mp hmem with hyA | hyx
    · exact hnd.2.2 hyA (List.mem_cons_of_mem _ hy)
    · rw [List.mem_singleton] at hyx
      subst hyx
      exact (List.nodup_cons.mp hnd.2.1).1 hy
  · rw [← cf_ll_mem_traversal ll1 hwf forward, htr]
    simp
  · intro y hy
    rw [← cf_ll_mem_traversal ll1 hwf forward, htr]
    simp [hy]

/-- C21 on the list `1, 2, 3, 4`, forward, with the callback that counts its
invocations in `udata`, returns `CF_LL_REDUCE_DELETE` on 2, 7 on 3 and 0
elsewhere: the call returns 7 after three invocations (on 1, 2, 3) and leaves
`1, 3, 4`. -/
theorem cf_ll_reduce_halts_witness :
    (cf_ll.holds ⟨1, 4, 4, true, false,
        fun x => if x = 1 then 2 else if x = 2 then 3 else if x = 3 then 4 else 0,
        fun x => if x = 4 then 3 else if x = 3 then 2 else if x = 2 then 1 else 0, []⟩
        [1, 2, 3, 4] ∧
      (cf_ll_reduce 4 ⟨1, 4, 4, true, false,
          fun x => if x = 1 then 2 else if x = 2 then 3 else if x = 3 then 4 else 0,
          fun x => if x = 4 then 3 else if x = 3 then 2 else if x = 2 then 1 else 0, []⟩
          true (fun e (s : Nat) =>
            (if e = 2 then CF_LL_REDUCE_DELETE else if e = 3 then 7 else 0, s + 1))
          0).map (fun r => (r.1, cf_ll_forward r.2.1, r.2.1.sz, r.2.2.1, r.2.2.2)) =
        some (7, [1, 3, 4], 3, 3, [1, 2, 3])) ∧
    ∃ ll1,
      cf_ll_reduce 4 ⟨1, 4, 4, true, false,
          fun x => if x = 1 then 2 else if x = 2 then 3 else if x = 3 then 4 else 0,
          fun x => if x = 4 then 3 else if x = 3 then 2 else if x = 2 then 1 else 0, []⟩
          true (fun e (s : Nat) =>
            (if e = 2 then CF_LL_REDUCE_DELETE else if e = 3 then 7 else 0, s + 1)) 0 =
        some (((fun e (s : Nat) =>
              (if e = 2 then CF_LL_REDUCE_DELETE else if e = 3 then (7 : Int) else 0, s + 1)) 3
            (cf_ll_udata_after (fun e (s : Nat) =>
              (if e = 2 then CF_LL_REDUCE_DELETE else if e = 3 then 7 else 0, s + 1))
              [1, 2] 0)).1, ll1,
          ((fun e (s : Nat) =>
              (if e = 2 then CF_LL_REDUCE_DELETE else if e = 3 then (7 : Int) else 0, s + 1)) 3
            (cf_ll_udata_after (fun e (s : Nat) =>
              (if e = 2 then CF_LL_REDUCE_DELETE else if e = 3 then 7 else 0, s + 1))
              [1, 2] 0)).2, [1, 2] ++ [3]) ∧
      (∀ y ∈ [4], y ∉ [1, 2] ++ [3]) ∧
      ll1.wf ∧
      (if true then cf_ll_forward ll1 else cf_ll_backward ll1) =
        cf_ll_kept (fun e (s : Nat) =>
          (if e = 2 then CF_LL_REDUCE_DELETE else if e = 3 then 7 else 0, s + 1)) [1, 2] 0 ++
          3 :: [4] ∧
      3 ∈ cf_ll_forward ll1 ∧ ∀ y ∈ [4], y ∈ cf_ll_forward ll1 :=
  ⟨⟨by decide, rfl⟩,
    cf_ll_reduce_halts ⟨1, 4, 4, true, false,
      fun x => if x = 1 then 2 else if x = 2 then 3 else if x = 3 then 4 else 0,
      fun x => if x = 4 then 3 else if x = 3 then 2 else if x = 2 then 1 else 0, []⟩
      [1, 2, 3, 4] [1, 2] [4] 3 true
      (fun e (s : Nat) =>
        (if e = 2 then CF_LL_REDUCE_DELETE else if e = 3 then 7 else 0, s + 1)) 0 4
      (by decide) (by decide) (by decide) (by decide) (by decide) (by decide)⟩

/-- C26: on a well-formed list with forward traversal `L`, in either direction,
with a callback that returns 0 or `CF_LL_REDUCE_DELETE` on every element it is
invoked on (the traversal is never halted), `cf_ll_reduce`, its loop given at
least `|L|` iterations, visits every element and returns the result of the last
invocation of the callback: 0 on an empty list, and otherwise 0 exactly when
the element visited last is still in the list and `CF_LL_REDUCE_DELETE`, which
is not 0, exactly when it was deleted. -/
theorem cf_ll_reduce_exhausted {σ : Type} (ll : cf_ll) (L : List Nat) (forward : Bool)
    (fn : Nat → σ → Int × σ) (u : σ) (fuel : Nat) (h : ll.holds L)
    (hT : ∀ q ∈ cf_ll_results fn (if forward then L else L.reverse) u,
      q = 0 ∨ q = CF_LL_REDUCE_DELETE)
    (hfuel : L.length ≤ fuel) :
    ∃ rv ll1,
      cf_ll_reduce fuel ll forward fn u =
        some (rv, ll1, cf_ll_udata_after fn (if forward then L else L.reverse) u,
          if forward then L else L.reverse) ∧
      ll1.wf ∧ (L = [] → rv = 0) ∧
      (∀ T1 a, (if forward then L else L.reverse) = T1 ++ [a] →
        rv = (fn a (cf_ll_udata_after fn T1 u)).1 ∧
        (a ∈ cf_ll_forward ll1 ↔ rv = 0) ∧
        (a ∉ cf_ll_forward ll1 ↔ rv = CF_LL_REDUCE_DELETE)) ∧
      CF_LL_REDUCE_DELETE ≠ 0 := by
  have hlen : (if forward then L else L.reverse).length = L.length := by
    cases forward <;> simp
  obtain ⟨n, hn⟩ : ∃ n, fuel = (if forward then L else L.reverse).length + n :=
    ⟨fuel - L.length, by omega⟩
  have hnd := cf_ll_traversal_nodup ll L h forward
  obtain ⟨ll1, hrun, hwf, htr, -⟩ :=
    cf_ll_reduce_loop_continue fn forward (if forward then L else L.reverse) [] L ll n 0 u []
      h (by simp) hT
  refine ⟨(cf_ll_results fn (if forward then L else L.reverse) u).getLast?.getD 0, ll1, ?_,
    hwf, ?_, ?_, by decide⟩
  · unfold cf_ll_reduce
    rw [hn, hrun]
    simp only [List.head?_nil, Option.getD_none, List.nil_append]
    exact cf_ll_reduce_loop_null _ _ _ _ _ _ _
  · intro hL
    subst hL
    cases forward <;> rfl
  · intro T1 a hTa
    rw [hTa] at hT hnd htr ⊢
    rw [cf_ll_results_append] at hT ⊢
    have hres : cf_ll_results fn [a] (cf_ll_udata_after fn T1 u) =
        [(fn a (cf_ll_udata_after fn T1 u)).1] := rfl
    rw [hres] at hT ⊢
    have hra := hT (fn a (cf_ll_udata_after fn T1 u)).1 (by simp)
    have haT1 : a ∉ T1 := by
      rw [List.nodup_append] at hnd
      exact fun hm => hnd.2.2 hm (List.mem_singleton_self a)
    have hak : a ∉ cf_ll_kept fn T1 u := fun hm => haT1 ((cf_ll_kept_sublist fn T1 u).subset hm)
    have hmem : a ∈ cf_ll_forward ll1 ↔ (fn a (cf_ll_udata_after fn T1 u)).1 = 0 := by
      rw [← cf_ll_mem_traversal ll1 hwf forward, htr, List.append_nil, cf_ll_kept_append]
      by_cases hz : (fn a (cf_ll_udata_after fn T1 u)).1 = 0
      · simp [cf_ll_kept, hz]
      · simp [cf_ll_kept, hz, hak]
    have hlast : (cf_ll_results fn T1 u ++ [(fn a (cf_ll_udata_after fn T1 u)).1]).getLast?.getD 0 =
        (fn a (cf_ll_udata_after fn T1 u)).1 := by simp
    rw [hlast]
    refine ⟨rfl, hmem, ?_⟩
    rw [hmem]
    rcases hra with hz | hd
    · rw [hz]; decide
    · rw [hd]; decide

/-- C26 on the list `1, 2`, forward, with the callback that deletes 2 and keeps
1: both elements are visited, nothing halts the traversal, and the call returns
`CF_LL_REDUCE_DELETE`, which is 1 and not 0; backward the element visited last
is 1, which is kept, and the call returns 0. -/
theorem cf_ll_reduce_exhausted_witness :
    (cf_ll.holds ⟨1, 2, 2, false, false, fun x => if x = 1 then 2 else 0,
        fun x => if x = 2 then 1 else 0, []⟩ [1, 2] ∧
      (cf_ll_reduce 2 ⟨1, 2, 2, false, false, fun x => if x = 1 then 2 else 0,
          fun x => if x = 2 then 1 else 0, []⟩ true
          (fun e (s : Unit) => (if e = 2 then CF_LL_REDUCE_DELETE else 0, s)) ()).map
        (fun r => (r.1, cf_ll_forward r.2.1, r.2.2.2)) = some (1, [1], [1, 2]) ∧
      (cf_ll_reduce 2 ⟨1, 2, 2, false, false, fun x => if x = 1 then 2 else 0,
          fun x => if x = 2 then 1 else 0, []⟩ false
          (fun e (s : Unit) => (if e = 2 then CF_LL_REDUCE_DELETE else 0, s)) ()).map
        (fun r => (r.1, cf_ll_forward r.2.1, r.2.2.2)) = some (0, [1], [2, 1])) ∧
    ∃ rv ll1,
      cf_ll_reduce 2 ⟨1, 2, 2, false, false, fun x => if x = 1 then 2 else 0,
          fun x => if x = 2 then 1 else 0, []⟩ true
          (fun e (s : Unit) => (if e = 2 then CF_LL_REDUCE_DELETE else 0, s)) () =
        some (rv, ll1,
          cf_ll_udata_after (fun e (s : Unit) => (if e = 2 then CF_LL_REDUCE_DELETE else 0, s))
            (if true then [1, 2] else [1, 2].reverse) (),
          if true then [1, 2] else [1, 2].reverse) ∧
      ll1.wf ∧ ([1, 2] = [] → rv = 0) ∧
      (∀ T1 a, (if true then [1, 2] else [1, 2].reverse) = T1 ++ [a] →
        rv = ((fun e (s : Unit) => (if e = 2 then CF_LL_REDUCE_DELETE else 0, s)) a
          (cf_ll_udata_after
            (fun e (s : Unit) => (if e = 2 then CF_LL_REDUCE_DELETE else 0, s)) T1 ())).1 ∧
        (a ∈ cf_ll_forward ll1 ↔ rv = 0) ∧
        (a ∉ cf_ll_forward ll1 ↔ rv = CF_LL_REDUCE_DELETE)) ∧
      CF_LL_REDUCE_DELETE ≠ 0 :=
  ⟨⟨by decide, rfl, rfl⟩,
    cf_ll_reduce_exhausted ⟨1, 2, 2, false, false, fun x => if x = 1 then 2 else 0,
      fun x => if x = 2 then 1 else 0, []⟩ [1, 2] true
      (fun e (s : Unit) => (if e = 2 then CF_LL_REDUCE_DELETE else 0, s)) () 2
      (by decide) (by decide) (by decide)⟩

/-! ## Linked list: `cf_ll_insert_reduce` -/

theorem cf_ll_insert_reduce_loop_succ {σ : Type} (e : Nat) (forward : Bool)
    (fn : Nat → σ → Int × σ) (fuel : Nat) (ll : cf_ll) (cur : Nat) (udata : σ)
    (visited : List Nat) :
    cf_ll_insert_reduce_loop e forward fn (fuel + 1) ll cur udata visited =
      if cur = 0 then cf_ll_insert_reduce_end e forward fn ll udata visited
      else if (fn cur udata).1 ≠ 0 then
        if (fn cur udata).1 = CF_LL_REDUCE_INSERT then
          match (if forward then cf_ll_insert_before_lockfree ll cur e
            else cf_ll_insert_after_lockfree ll cur e) with
          | none => none
          | some ll1 => some (0, ll1, (fn cur udata).2, visited ++ [cur])
        else some ((fn cur udata).1, ll, (fn cur udata).2, visited ++ [cur])
      else
        cf_ll_insert_reduce_loop e forward fn fuel ll
          (if forward then ll.next cur else ll.prev cur) (fn cur udata).2 (visited ++ [cur]) :=
  rfl

theorem cf_ll_insert_reduce_loop_null {σ : Type} (e : Nat) (forward : Bool)
    (fn : Nat → σ → Int × σ) (fuel : Nat) (ll : cf_ll) (udata : σ) (visited : List Nat) :
    cf_ll_insert_reduce_loop e forward fn fuel ll 0 udata visited =
      cf_ll_insert_reduce_end e forward fn ll udata visited := by
  cases fuel <;> simp [cf_ll_insert_reduce_loop]

/-- The loop of `cf_ll_insert_reduce` over a stretch `A` of elements on which
the callback returns 0: it arrives at what follows `A`, the list untouched. -/
theorem cf_ll_insert_reduce_loop_continue {σ : Type} (e : Nat) (forward : Bool)
    (fn : Nat → σ → Int × σ) (ll : cf_ll) :
    ∀ (A : List Nat) (cur stop n : Nat) (u : σ) (visited : List Nat),
      cf_ll_path (if forward then ll.next else ll.prev) cur A stop →
      (∀ r ∈ cf_ll_results fn A u, r = 0) →
      cf_ll_insert_reduce_loop e forward fn (A.length + n) ll cur u visited =
        cf_ll_insert_reduce_loop e forward fn n ll stop (cf_ll_udata_after fn A u)
          (visited ++ A) := by
  intro A
  induction A with
  | nil =>
    intro cur stop n u visited hp _
    simp only [cf_ll_path] at hp
    subst hp
    simp [cf_ll_udata_after]
  | cons x A1 ih =>
    intro cur stop n u visited hp hA
    obtain ⟨rfl, hx0, hrest⟩ := hp
    simp only [cf_ll_results, List.mem_cons, forall_eq_or_imp] at hA
    obtain ⟨hx, hA1⟩ := hA
    have hfuel : (cur :: A1).length + n = (A1.length + n) + 1 := by
      simp only [List.length_cons]; omega
    have hlink : (if forward then ll.next cur else ll.prev cur) =
        (if forward then ll.next else ll.prev) cur := by cases forward <;> rfl
    rw [hfuel, cf_ll_insert_reduce_loop_succ, if_neg hx0, if_neg (by simp [hx]), hlink,
      ih _ stop n _ _ hrest hA1]
    simp [cf_ll_udata_after]

theorem cf_ll_traversal_path (ll : cf_ll) (L : List Nat) (h : ll.holds L) (forward : Bool) :
    cf_ll_path (if forward then ll.next else ll.prev) (if forward then ll.head else ll.tail)
      (if forward then L else L.reverse) 0 := by
  cases forward with
  | true => exact h.1
  | false => exact h.2.1

/-- Function `cf_ll_insert_reduce` on a well-formed list whose traversal in the
direction asked is `A ++ R`, the callback returning 0 on `A`: the loop arrives
at the first element of `R`, or at `NULL`, with the list untouched. -/
theorem cf_ll_insert_reduce_continue {σ : Type} (e : Nat) (forward : Bool)
    (fn : Nat → σ → Int × σ) (ll : cf_ll) (L A R : List Nat) (n : Nat) (u : σ)
    (h : ll.holds L) (hT : (if forward then L else L.reverse) = A ++ R)
    (hA : ∀ r ∈ cf_ll_results fn A u, r = 0) :
    cf_ll_insert_reduce (A.length + n) ll e forward fn u =
      cf_ll_insert_reduce_loop e forward fn n ll (R.head?.getD 0) (cf_ll_udata_after fn A u)
        A := by
  have hp := cf_ll_traversal_path ll L h forward
  rw [hT, cf_ll_path_append] at hp
  obtain ⟨mid, hpA, hpR⟩ := hp
  have hmid := cf_ll_path_start _ _ _ _ hpR
  rw [← hmid]
  unfold cf_ll_insert_reduce
  rw [cf_ll_insert_reduce_loop_continue e forward fn ll A _ mid n u [] hpA hA]
  simp

/-- The insertion at the end of the traversal: on a well-formed list a fresh
element is appended (`forward`) or prepended. -/
theorem cf_ll_insert_end_holds (ll : cf_ll) (L : List Nat) (e : Nat) (forward : Bool)
    (h : ll.holds L) (he0 : e ≠ 0) (he : e ∉ L) (hsz : L.length < 4294967295) :
    ∃ ll1, (if forward then cf_ll_append_lockfree ll e else cf_ll_prepend_lockfree ll e) =
        some ll1 ∧
      ll1.holds (if forward then L ++ [e] else e :: L) := by
  cases forward with
  | true =>
    obtain ⟨ll1, hrun, h1, -, -⟩ := cf_ll_append_holds ll L e h he0 he hsz
    exact ⟨ll1, by simpa using hrun, by simpa using h1⟩
  | false =>
    obtain ⟨ll1, hrun, h1, -, -⟩ := cf_ll_prepend_holds ll L e h he0 he hsz
    exact ⟨ll1, by simpa using hrun, by simpa using h1⟩

/-- The insertion at an element `cur` met by the traversal `A ++ cur :: B` of a
well-formed list: a fresh element is put before `cur` (`forward`) or after
it. -/
theorem cf_ll_insert_at_holds (ll : cf_ll) (L A B : List Nat) (cur e : Nat) (forward : Bool)
    (h : ll.holds L) (hT : (if forward then L else L.reverse) = A ++ cur :: B)
    (he0 : e ≠ 0) (he : e ∉ L) (hsz : L.length < 4294967295) :
    ∃ ll1, (if forward then cf_ll_insert_before_lockfree ll cur e
        else cf_ll_insert_after_lockfree ll cur e) = some ll1 ∧
      ll1.holds (if forward then A ++ e :: cur :: B else B.reverse ++ cur :: e :: A.reverse) := by
  cases forward with
  | true =>
    simp only [if_true] at hT
    subst hT
    obtain ⟨ll1, hrun, h1, -, -⟩ := cf_ll_insert_before_holds ll A B cur e h he0 he hsz
    exact ⟨ll1, by simpa using hrun, by simpa using h1⟩
  | false =>
    simp only [Bool.false_eq_true, if_false] at hT
    have hL : L = B.reverse ++ cur :: A.reverse := by
      rw [← List.reverse_reverse L, hT]; simp
    subst hL
    obtain ⟨ll1, hrun, h1, -, -⟩ :=
      cf_ll_insert_after_holds ll B.reverse A.reverse cur e h he0 he hsz
    exact ⟨ll1, by simpa using hrun, by simpa using h1⟩

theorem cf_ll_traversal_ne_zero (ll : cf_ll) (L : List Nat) (h : ll.holds L) (forward : Bool)
    (x : Nat) (hx : x ∈ (if forward then L else L.reverse)) : x ≠ 0 := by
  have hz := cf_ll_path_ne_zero _ _ _ _ h.1
  exact hz x (by cases forward <;> simpa using hx)

/-- Function `cf_ll_insert_reduce` when the callback returns 0 on the elements
`A` and a non-zero value on the element `cur` that follows them: what the loop
returns. -/
theorem cf_ll_insert_reduce_at {σ : Type} (e : Nat) (forward : Bool)
    (fn : Nat → σ → Int × σ) (ll : cf_ll) (L A B : List Nat) (cur fuel : Nat) (u : σ)
    (h : ll.holds L) (hT : (if forward then L else L.reverse) = A ++ cur :: B)
    (hA : ∀ r ∈ cf_ll_results fn A u, r = 0)
    (hr : (fn cur (cf_ll_udata_after fn A u)).1 ≠ 0) (hfuel : A.length < fuel) :
    cf_ll_insert_reduce fuel ll e forward fn u =
      if (fn cur (cf_ll_udata_after fn A u)).1 = CF_LL_REDUCE_INSERT then
        match (if forward then cf_ll_insert_before_lockfree ll cur e
          else cf_ll_insert_after_lockfree ll cur e) with
        | none => none
        | some ll1 => some (0, ll1, (fn cur (cf_ll_udata_after fn A u)).2, A ++ [cur])
      else some ((fn cur (cf_ll_udata_after fn A u)).1, ll,
        (fn cur (cf_ll_udata_after fn A u)).2, A ++ [cur]) := by
  obtain ⟨n, rfl⟩ : ∃ n, fuel = A.length + (n + 1) := ⟨fuel - A.length - 1, by omega⟩
  have hc0 : cur ≠ 0 := cf_ll_traversal_ne_zero ll L h forward cur (by rw [hT]; simp)
  rw [cf_ll_insert_reduce_continue e forward fn ll L A (cur :: B) (n + 1) u h hT hA,
    cf_ll_insert_reduce_loop_succ]
  simp only [List.head?_cons, Option.getD_some, if_neg hc0, if_pos hr]

/-- Function `cf_ll_insert_reduce` when the callback returns 0 on every
element: the loop ends and the callback is invoked with `NULL`. -/
theorem cf_ll_insert_reduce_at_end {σ : Type} (e : Nat) (forward : Bool)
    (fn : Nat → σ → Int × σ) (ll : cf_ll) (L : List Nat) (fuel : Nat) (u : σ)
    (h : ll.holds L)
    (hA : ∀ r ∈ cf_ll_results fn (if forward then L else L.reverse) u, r = 0)
    (hfuel : L.length ≤ fuel) :
    cf_ll_insert_reduce fuel ll e forward fn u =
      cf_ll_insert_reduce_end e forward fn ll
        (cf_ll_udata_after fn (if forward then L else L.reverse) u)
        (if forward then L else L.reverse) := by
  have hlen : (if forward then L else L.reverse).length = L.length := by
    cases forward <;> simp
  obtain ⟨n, rfl⟩ : ∃ n, fuel = (if forward then L else L.reverse).length + n :=
    ⟨fuel - L.length, by omega⟩
  rw [cf_ll_insert_reduce_continue e forward fn ll L _ [] n u h (by simp) hA]
  exact cf_ll_insert_reduce_loop_null _ _ _ _ _ _ _

/-! ## Claims on `cf_ll_insert_reduce` -/

/-- C23: on a well-formed list with forward traversal `L`, in either direction,
with a new element `e` (not `NULL`, not in the list, the list holding fewer
than `2 ^ 32 - 1` elements) and the loop given at least `|L|` iterations.
First, if the predicate returns 0 on every element, `cf_ll_insert_reduce`
invokes it on every element and then exactly once more with `NULL`; if that
call returns `CF_LL_REDUCE_INSERT`, `e` is appended (`forward`) or prepended,
`sz` grows by 1 and 0 is returned; if it returns 0 the list is unchanged and 0
is returned.  Second, if the predicate returns 0 on the elements `A` visited
first and `CF_LL_REDUCE_INSERT` on the element `cur`, `e` is put immediately
before `cur` (`forward`) or immediately after it, nothing is visited after
`cur`, `sz` grows by 1 and 0 is returned. -/
theorem cf_ll_insert_reduce_spec {σ : Type} (ll : cf_ll) (L : List Nat) (e : Nat)
    (forward : Bool) (fn : Nat → σ → Int × σ) (u : σ) (fuel : Nat)
    (h : ll.holds L) (he0 : e ≠ 0) (he : e ∉ L) (hsz : L.length < 4294967295)
    (hfuel : L.length ≤ fuel) :
    ((∀ r ∈ cf_ll_results fn (if forward then L else L.reverse) u, r = 0) →
      ((fn 0 (cf_ll_udata_after fn (if forward then L else L.reverse) u)).1 =
          CF_LL_REDUCE_INSERT →
        ∃ ll1,
          cf_ll_insert_reduce fuel ll e forward fn u =
            some (0, ll1, (fn 0 (cf_ll_udata_after fn (if forward then L else L.reverse) u)).2,
              (if forward then L else L.reverse) ++ [0]) ∧
          ll1.wf ∧ cf_ll_forward ll1 = (if forward then L ++ [e] else e :: L) ∧
          ll1.sz = ll.sz + 1) ∧
      ((fn 0 (cf_ll_udata_after fn (if forward then L else L.reverse) u)).1 = 0 →
        cf_ll_insert_reduce fuel ll e forward fn u =
          some (0, ll, (fn 0 (cf_ll_udata_after fn (if forward then L else L.reverse) u)).2,
            (if forward then L else L.reverse) ++ [0]))) ∧
    (∀ A cur B, (if forward then L else L.reverse) = A ++ cur :: B →
      (∀ r ∈ cf_ll_results fn A u, r = 0) →
      (fn cur (cf_ll_udata_after fn A u)).1 = CF_LL_REDUCE_INSERT →
      ∃ ll1,
        cf_ll_insert_reduce fuel ll e forward fn u =
          some (0, ll1, (fn cur (cf_ll_udata_after fn A u)).2, A ++ [cur]) ∧
        (∀ y ∈ B, y ∉ A ++ [cur]) ∧
        ll1.wf ∧
        cf_ll_forward ll1 =
          (if forward then A ++ e :: cur :: B else B.reverse ++ cur :: e :: A.reverse) ∧
        ll1.sz = ll.sz + 1) := by
  have hlen := h.2.2.1
  refine ⟨fun hall => ⟨fun hins => ?_, fun hzero => ?_⟩, fun A cur B hT hA hins => ?_⟩
  · obtain ⟨ll1, hrun, h1⟩ := cf_ll_insert_end_holds ll L e forward h he0 he hsz
    obtain ⟨hwf, hfw, -, hs, -, -⟩ := cf_ll_holds_facts ll1 _ h1
    refine ⟨ll1, ?_, hwf, hfw, ?_⟩
    · rw [cf_ll_insert_reduce_at_end e forward fn ll L fuel u h hall hfuel]
      unfold cf_ll_insert_reduce_end
      rw [if_pos (by rw [hins]; decide), if_pos hins, hrun]
    · rw [hs, hlen]
      cases forward <;> simp
  · rw [cf_ll_insert_reduce_at_end e forward fn ll L fuel u h hall hfuel]
    unfold cf_ll_insert_reduce_end
    rw [if_neg (by simp [hzero]), hzero]
  · obtain ⟨ll1, hrun, h1⟩ := cf_ll_insert_at_holds ll L A B cur e forward h hT he0 he hsz
    obtain ⟨hwf, hfw, -, hs, -, -⟩ := cf_ll_holds_facts ll1 _ h1
    have hAlen : A.length < fuel := by
      have := congrArg List.length hT
      have hl : (if forward then L else L.reverse).length = L.length := by
        cases forward <;> simp
      rw [hl] at this
      simp only [List.length_append, List.length_cons] at this
      omega
    have hnd := cf_ll_traversal_nodup ll L h forward
    rw [hT] at hnd
    refine ⟨ll1, ?_, ?_, hwf, hfw, ?_⟩
    · rw [cf_ll_insert_reduce_at e forward fn ll L A B cur fuel u h hT hA
        (by rw [hins]; decide) hAlen, if_pos hins, hrun]
    · intro y hy hmem
      rw [List.nodup_append] at hnd
      rcases List.mem_append.mp hmem with hyA | hyx
      · exact hnd.2.2 hyA (List.mem_cons_of_mem _ hy)
      · rw [List.mem_singleton] at hyx
        subst hyx
        exact (List.nodup_cons.mp hnd.2.1).1 hy
    · rw [hs, hlen]
      have hl := congrArg List.length hT
      cases forward
      · simp only [Bool.false_eq_true, if_false, List.length_reverse, List.length_append,
          List.length_cons] at hl ⊢
        omega
      · simp only [if_true, List.length_append, List.length_cons] at hl ⊢
        omega

/-- C23 on the list `1, 2, 3` and the new element 9, the predicate counting its
invocations in `udata`.  With the predicate that returns `CF_LL_REDUCE_INSERT`
on 2: forward the result is `1, 9, 2, 3` after the visits of 1 and 2, backward
it is `1, 2, 9, 3` after the visits of 3 and 2.  With the predicate that
returns `CF_LL_REDUCE_INSERT` on `NULL` only: forward the result is
`1, 2, 3, 9`, backward `9, 1, 2, 3`, after four invocations, the last one with
`NULL`. -/
theorem cf_ll_insert_reduce_spec_witness :
    (cf_ll.holds ⟨1, 3, 3, false, false,
        fun x => if x = 1 then 2 else if x = 2 then 3 else 0,
        fun x => if x = 3 then 2 else if x = 2 then 1 else 0, []⟩ [1, 2, 3] ∧
      (9 : Nat) ≠ 0 ∧ 9 ∉ [1, 2, 3] ∧ [1, 2, 3].length < 4294967295 ∧ [1, 2, 3].length ≤ 3) ∧
    ((cf_ll_insert_reduce 3 ⟨1, 3, 3, false, false,
          fun x => if x = 1 then 2 else if x = 2 then 3 else 0,
          fun x => if x = 3 then 2 else if x = 2 then 1 else 0, []⟩ 9 true
          (fun cur (s : Nat) => (if cur = 2 then CF_LL_REDUCE_INSERT else 0, s + 1)) 0).map
        (fun r => (r.1, cf_ll_forward r.2.1, r.2.1.sz, r.2.2.1, r.2.2.2)) =
        some (0, [1, 9, 2, 3], 4, 2, [1, 2]) ∧
      (cf_ll_insert_reduce 3 ⟨1, 3, 3, false, false,
          fun x => if x = 1 then 2 else if x = 2 then 3 else 0,
          fun x => if x = 3 then 2 else if x = 2 then 1 else 0, []⟩ 9 false
          (fun cur (s : Nat) => (if cur = 2 then CF_LL_REDUCE_INSERT else 0, s + 1)) 0).map
        (fun r => (r.1, cf_ll_forward r.2.1, r.2.1.sz, r.2.2.1, r.2.2.2)) =
        some (0, [1, 2, 9, 3], 4, 2, [3, 2]) ∧
      (cf_ll_insert_reduce 3 ⟨1, 3, 3, false, false,
          fun x => if x = 1 then 2 else if x = 2 then 3 else 0,
          fun x => if x = 3 then 2 else if x = 2 then 1 else 0, []⟩ 9 true
          (fun cur (s : Nat) => (if cur = 0 then CF_LL_REDUCE_INSERT else 0, s + 1)) 0).map
        (fun r => (r.1, cf_ll_forward r.2.1, r.2.1.sz, r.2.2.1, r.2.2.2)) =
        some (0, [1, 2, 3, 9], 4, 4, [1, 2, 3, 0]) ∧
      (cf_ll_insert_reduce 3 ⟨1, 3, 3, false, false,
          fun x => if x = 1 then 2 else if x = 2 then 3 else 0,
          fun x => if x = 3 then 2 else if x = 2 then 1 else 0, []⟩ 9 false
          (fun cur (s : Nat) => (if cur = 0 then CF_LL_REDUCE_INSERT else 0, s + 1)) 0).map
        (fun r => (r.1, cf_ll_forward r.2.1, r.2.1.sz, r.2.2.1, r.2.2.2)) =
        some (0, [9, 1, 2, 3], 4, 4, [3, 2, 1, 0])) ∧
    (∃ ll1,
      cf_ll_insert_reduce 3 ⟨1, 3, 3, false, false,
          fun x => if x = 1 then 2 else if x = 2 then 3 else 0,
          fun x => if x = 3 then 2 else if x = 2 then 1 else 0, []⟩ 9 true
          (fun cur (s : Nat) => (if cur = 2 then CF_LL_REDUCE_INSERT else 0, s + 1)) 0 =
        some (0, ll1, 2, [1] ++ [2]) ∧
      (∀ y ∈ [3], y ∉ [1] ++ [2]) ∧ ll1.wf ∧
      cf_ll_forward ll1 = (if true then [1] ++ 9 :: 2 :: [3]
        else [3].reverse ++ 2 :: 9 :: [1].reverse) ∧
      ll1.sz = 3 + 1) :=
  ⟨⟨by decide, by decide, by decide, by decide, by decide⟩, ⟨rfl, rfl, rfl, rfl⟩,
    (cf_ll_insert_reduce_spec ⟨1, 3, 3, false, false,
      fun x => if x = 1 then 2 else if x = 2 then 3 else 0,
      fun x => if x = 3 then 2 else if x = 2 then 1 else 0, []⟩ [1, 2, 3] 9 true
      (fun cur (s : Nat) => (if cur = 2 then CF_LL_REDUCE_INSERT else 0, s + 1)) 0 3
      (by decide) (by decide) (by decide) (by decide) (by decide)).2 [1] 2 [3] rfl
      (by decide) (by decide)⟩

theorem cf_ll_results_stateless {σ : Type} (g : Nat → Int) :
    ∀ (A : List Nat) (u : σ), cf_ll_results (fun cur (s : σ) => (g cur, s)) A u = A.map g := by
  intro A
  induction A with
  | nil => intro u; rfl
  | cons a A ih => intro u; simp [cf_ll_results, ih]

theorem cf_ll_udata_after_stateless {σ : Type} (g : Nat → Int) :
    ∀ (A : List Nat) (u : σ), cf_ll_udata_after (fun cur (s : σ) => (g cur, s)) A u = u := by
  intro A
  induction A with
  | nil => intro u; rfl
  | cons a A ih => intro u; simp [cf_ll_udata_after, ih]

theorem cf_ll_dropWhile_head (p : Nat → Bool) :
    ∀ (L : List Nat) (y : Nat) (B : List Nat), L.dropWhile p = y :: B → p y = false := by
  intro L
  induction L with
  | nil => intro y B h; simp at h
  | cons x xs ih =>
    intro y B h
    by_cases hx : p x = true
    · rw [List.dropWhile_cons_of_pos hx] at h
      exact ih y B h
    · rw [List.dropWhile_cons_of_neg hx] at h
      obtain ⟨rfl, -⟩ := List.cons.inj h
      simpa using hx

/-- Putting `e` after the leading elements whose key is at most the key of `e`
keeps a list sorted by key. -/
theorem cf_ll_sorted_insert (key : Nat → Int) (e : Nat) :
    ∀ (L : List Nat), L.Pairwise (fun a b => key a ≤ key b) →
      (L.takeWhile (fun x => decide (key x ≤ key e)) ++
        e :: L.dropWhile (fun x => decide (key x ≤ key e))).Pairwise
        (fun a b => key a ≤ key b) := by
  intro L
  induction L with
  | nil => intro _; simp
  | cons x xs ih =>
    intro hs
    rw [List.pairwise_cons] at hs
    obtain ⟨hx, hxs⟩ := hs
    by_cases hk : key x ≤ key e
    · rw [List.takeWhile_cons_of_pos (by simpa using hk),
        List.dropWhile_cons_of_pos (by simpa using hk), List.cons_append, List.pairwise_cons]
      refine ⟨?_, ih hxs⟩
      intro b hb
      rcases List.mem_append.mp hb with hb1 | hb2
      · exact hx b ((List.takeWhile_sublist _).subset hb1)
      · rcases List.mem_cons.mp hb2 with rfl | hb3
        · exact hk
        · exact hx b ((List.dropWhile_sublist _).subset hb3)
    · rw [List.takeWhile_cons_of_neg (by simpa using hk),
        List.dropWhile_cons_of_neg (by simpa using hk), List.nil_append, List.pairwise_cons]
      refine ⟨?_, List.pairwise_cons.mpr ⟨hx, hxs⟩⟩
      intro b hb
      have hlt : key e < key x := by omega
      rcases List.mem_cons.mp hb with rfl | hb1
      · omega
      · have := hx b hb1
        omega

/-- C22: on a well-formed list whose forward traversal `L` is sorted
non-decreasingly by `key`, with a new element `e` (not `NULL`, not in the list,
the list holding fewer than `2 ^ 32 - 1` elements), `cf_ll_insert_reduce`
forward with the predicate that returns `CF_LL_REDUCE_INSERT` at `NULL` and on
an element whose key is greater than the key of `e`, and 0 otherwise, its loop
given at least `|L|` iterations, returns 0 and leaves a well-formed list of
`sz + 1` elements whose forward traversal is `L` with `e` put before the first
element of greater key: it is sorted and holds `e` and the elements of `L`.
When every key is greater `e` comes first, when none is `e` comes last (so also
on the empty list). -/
theorem cf_ll_insert_reduce_sorted {σ : Type} (ll : cf_ll) (L : List Nat) (e : Nat)
    (key : Nat → Int) (u : σ) (fuel : Nat) (h : ll.holds L)
    (hs : L.Pairwise (fun a b => key a ≤ key b))
    (he0 : e ≠ 0) (he : e ∉ L) (hsz : L.length < 4294967295) (hfuel : L.length ≤ fuel) :
    ∃ ll1 visited,
      cf_ll_insert_reduce fuel ll e true
          (fun cur (s : σ) =>
            (if cur = 0 then CF_LL_REDUCE_INSERT
              else if key e < key cur then CF_LL_REDUCE_INSERT else 0, s)) u =
        some (0, ll1, u, visited) ∧
      ll1.wf ∧ ll1.sz = ll.sz + 1 ∧
      cf_ll_forward ll1 = L.takeWhile (fun x => decide (key x ≤ key e)) ++
        e :: L.dropWhile (fun x => decide (key x ≤ key e)) ∧
      (cf_ll_forward ll1).Pairwise (fun a b => key a ≤ key b) ∧
      (cf_ll_forward ll1).Perm (e :: L) ∧
      ((∀ x ∈ L, key e < key x) → cf_ll_forward ll1 = e :: L) ∧
      ((∀ x ∈ L, key x ≤ key e) → cf_ll_forward ll1 = L ++ [e]) := by
  have hz := cf_ll_path_ne_zero _ _ _ _ h.1
  have hlen := h.2.2.1
  have hsplit : L.takeWhile (fun x => decide (key x ≤ key e)) ++
      L.dropWhile (fun x => decide (key x ≤ key e)) = L := List.takeWhile_append_dropWhile _ _
  have hA : ∀ r ∈ cf_ll_results (fun cur (s : σ) =>
      (if cur = 0 then CF_LL_REDUCE_INSERT
        else if key e < key cur then CF_LL_REDUCE_INSERT else 0, s))
      (L.takeWhile (fun x => decide (key x ≤ key e))) u, r = 0 := by
    intro r hr
    rw [cf_ll_results_stateless, List.mem_map] at hr
    obtain ⟨x, hx, rfl⟩ := hr
    have hx0 : x ≠ 0 := hz x ((List.takeWhile_sublist _).subset hx)
    have hk : key x ≤ key e := by simpa using List.mem_takeWhile_imp hx
    rw [if_neg hx0, if_neg (by omega)]
  -- the list after the call, in both cases
  have key_fact : ∃ ll1 visited,
      cf_ll_insert_reduce fuel ll e true
          (fun cur (s : σ) =>
            (if cur = 0 then CF_LL_REDUCE_INSERT
              else if key e < key cur then CF_LL_REDUCE_INSERT else 0, s)) u =
        some (0, ll1, u, visited) ∧
      ll1.holds (L.takeWhile (fun x => decide (key x ≤ key e)) ++
        e :: L.dropWhile (fun x => decide (key x ≤ key e))) := by
    rcases hR : L.dropWhile (fun x => decide (key x ≤ key e)) with _ | ⟨y, B⟩
    · rw [hR, List.append_nil] at hsplit
      rw [hsplit] at hA ⊢
      obtain ⟨ll1, hrun, h1⟩ := cf_ll_insert_end_holds ll L e true h he0 he hsz
      simp only [if_true] at hrun
      refine ⟨ll1, L ++ [0], ?_, by simpa using h1⟩
      rw [cf_ll_insert_reduce_at_end e true _ ll L fuel u h (by simpa using hA) hfuel]
      unfold cf_ll_insert_reduce_end
      simp only [if_true, cf_ll_udata_after_stateless]
      rw [if_pos (by decide), hrun]
    · rw [hR] at hsplit
      have hy0 : y ≠ 0 := hz y (by rw [← hsplit]; simp)
      have hky : key e < key y := by
        have := cf_ll_dropWhile_head _ L y B hR
        simp only [decide_eq_false_iff_not] at this
        omega
      obtain ⟨ll1, hrun, h1⟩ :=
        cf_ll_insert_at_holds ll L (L.takeWhile (fun x => decide (key x ≤ key e))) B y e true
          h (by simpa using hsplit.symm) he0 he hsz
      simp only [if_true] at hrun
      have hAlen : (L.takeWhile (fun x => decide (key x ≤ key e))).length < fuel := by
        have := congrArg List.length hsplit
        simp only [List.length_append, List.length_cons] at this
        omega
      refine ⟨ll1, L.takeWhile (fun x => decide (key x ≤ key e)) ++ [y], ?_,
        by simpa using h1⟩
      rw [cf_ll_insert_reduce_at e true _ ll L _ B y fuel u h (by simpa using hsplit.symm) hA
        (by
          simp only [cf_ll_udata_after_stateless, if_neg hy0, if_pos hky]
          decide) hAlen]
      simp only [cf_ll_udata_after_stateless, if_neg hy0, if_pos hky, if_true]
      rw [hrun]
  obtain ⟨ll1, visited, hrun, h1⟩ := key_fact
  obtain ⟨hwf, hfw, -, hs1, -, -⟩ := cf_ll_holds_facts ll1 _ h1
  refine ⟨ll1, visited, hrun, hwf, ?_, hfw, ?_, ?_, ?_, ?_⟩
  · rw [hs1, hlen]
    have := congrArg List.length hsplit
    simp only [List.length_append, List.length_cons] at this ⊢
    omega
  · rw [hfw]
    exact cf_ll_sorted_insert key e L hs
  · rw [hfw]
    have : (L.takeWhile (fun x => decide (key x ≤ key e)) ++
        e :: L.dropWhile (fun x => decide (key x ≤ key e))).Perm
        (e :: (L.takeWhile (fun x => decide (key x ≤ key e)) ++
          L.dropWhile (fun x => decide (key x ≤ key e)))) := List.perm_middle
    rwa [hsplit] at this
  · intro hall
    rw [hfw]
    cases L with
    | nil => rfl
    | cons x xs =>
      have hx := hall x (List.mem_cons_self _ _)
      rw [List.takeWhile_cons_of_neg (by simp only [decide_eq_true_eq]; omega),
        List.dropWhile_cons_of_neg (by simp only [decide_eq_true_eq]; omega)]
      rfl
  · intro hall
    rw [hfw]
    have htw : L.takeWhile (fun x => decide (key x ≤ key e)) = L :=
      List.takeWhile_eq_self_iff.mpr (fun x hx => by simpa using hall x hx)
    have hdw : L.dropWhile (fun x => decide (key x ≤ key e)) = [] :=
      List.dropWhile_eq_nil_iff.mpr (fun x hx => by simpa using hall x hx)
    rw [htw, hdw]

/-- C22 on the list `1, 2, 3` with the keys 10, 20, 30.  A new element 9 of key
25 goes between 2 and 3, of key 20 also (after the element of equal key), of
key 5 before all, of key 35 after all; on the empty list it becomes the only
element. -/
theorem cf_ll_insert_reduce_sorted_witness :
    (cf_ll.holds ⟨1, 3, 3, false, false,
        fun x => if x = 1 then 2 else if x = 2 then 3 else 0,
        fun x => if x = 3 then 2 else if x = 2 then 1 else 0, []⟩ [1, 2, 3] ∧
      [1, 2, 3].Pairwise
        (fun a b => (fun x : Nat => if x = 9 then (25 : Int) else 10 * x) a ≤
          (fun x : Nat => if x = 9 then (25 : Int) else 10 * x) b) ∧
      (9 : Nat) ≠ 0 ∧ 9 ∉ [1, 2, 3] ∧ [1, 2, 3].length < 4294967295 ∧ [1, 2, 3].length ≤ 3) ∧
    ([25, 20, 5, 35].map (fun k : Int =>
        (cf_ll_insert_reduce 3 ⟨1, 3, 3, false, false,
          fun x => if x = 1 then 2 else if x = 2 then 3 else 0,
          fun x => if x = 3 then 2 else if x = 2 then 1 else 0, []⟩ 9 true
          (fun cur (s : Unit) =>
            (if cur = 0 then CF_LL_REDUCE_INSERT
              else if (fun x : Nat => if x = 9 then k else 10 * x) 9 <
                  (fun x : Nat => if x = 9 then k else 10 * x) cur
                then CF_LL_REDUCE_INSERT else 0, s)) ()).map
        (fun r => (r.1, cf_ll_forward r.2.1, r.2.1.sz, r.2.2.2))) =
        [some (0, [1, 2, 9, 3], 4, [1, 2, 3]), some (0, [1, 2, 9, 3], 4, [1, 2, 3]),
          some (0, [9, 1, 2, 3], 4, [1]), some (0, [1, 2, 3, 9], 4, [1, 2, 3, 0])] ∧
      (cf_ll_insert_reduce 0 ⟨0, 0, 0, false, false, fun _ => 0, fun _ => 0, []⟩ 9 true
          (fun cur (s : Unit) =>
            (if cur = 0 then CF_LL_REDUCE_INSERT
              else if (fun x : Nat => if x = 9 then (25 : Int) else 10 * x) 9 <
                  (fun x : Nat => if x = 9 then (25 : Int) else 10 * x) cur
                then CF_LL_REDUCE_INSERT else 0, s)) ()).map
        (fun r => (r.1, cf_ll_forward r.2.1, r.2.1.sz, r.2.2.2)) =
        some (0, [9], 1, [0])) ∧
    ∃ ll1 visited,
      cf_ll_insert_reduce 3 ⟨1, 3, 3, false, false,
          fun x => if x = 1 then 2 else if x = 2 then 3 else 0,
          fun x => if x = 3 then 2 else if x = 2 then 1 else 0, []⟩ 9 true
          (fun cur (s : Unit) =>
            (if cur = 0 then CF_LL_REDUCE_INSERT
              else if (fun x : Nat => if x = 9 then (25 : Int) else 10 * x) 9 <
                  (fun x : Nat => if x = 9 then (25 : Int) else 10 * x) cur
                then CF_LL_REDUCE_INSERT else 0, s)) () =
        some (0, ll1, (), visited) ∧
      ll1.wf ∧ ll1.sz = 3 + 1 ∧
      cf_ll_forward ll1 =
        [1, 2, 3].takeWhile (fun x => decide
          ((fun x : Nat => if x = 9 then (25 : Int) else 10 * x) x ≤
            (fun x : Nat => if x = 9 then (25 : Int) else 10 * x) 9)) ++
        9 :: [1, 2, 3].dropWhile (fun x => decide
          ((fun x : Nat => if x = 9 then (25 : Int) else 10 * x) x ≤
            (fun x : Nat => if x = 9 then (25 : Int) else 10 * x) 9)) ∧
      (cf_ll_forward ll1).Pairwise
        (fun a b => (fun x : Nat => if x = 9 then (25 : Int) else 10 * x) a ≤
          (fun x : Nat => if x = 9 then (25 : Int) else 10 * x) b) ∧
      (cf_ll_forward ll1).Perm (9 :: [1, 2, 3]) ∧
      ((∀ x ∈ [1, 2, 3], (fun x : Nat => if x = 9 then (25 : Int) else 10 * x) 9 <
          (fun x : Nat => if x = 9 then (25 : Int) else 10 * x) x) →
        cf_ll_forward ll1 = 9 :: [1, 2, 3]) ∧
      ((∀ x ∈ [1, 2, 3], (fun x : Nat => if x = 9 then (25 : Int) else 10 * x) x ≤
          (fun x : Nat => if x = 9 then (25 : Int) else 10 * x) 9) →
        cf_ll_forward ll1 = [1, 2, 3] ++ [9]) :=
  ⟨⟨by decide, by decide, by decide, by decide, by decide, by decide⟩, ⟨by decide, by decide⟩,
    cf_ll_insert_reduce_sorted ⟨1, 3, 3, false, false,
      fun x => if x = 1 then 2 else if x = 2 then 3 else 0,
      fun x => if x = 3 then 2 else if x = 2 then 1 else 0, []⟩ [1, 2, 3] 9
      (fun x : Nat => if x = 9 then (25 : Int) else 10 * x) () 3
      (by decide) (by decide) (by decide) (by decide) (by decide) (by decide)⟩

theorem cf_ll_getLast_zero (rs : List Int) (h : ∀ r ∈ rs, r = 0) : rs.getLast?.getD 0 = 0 := by
  rcases List.eq_nil_or_concat rs with hnil | ⟨rs1, r, hrs⟩
  · subst hnil; rfl
  · subst hrs
    rw [List.concat_eq_append] at h ⊢
    rw [List.getLast?_concat, Option.getD_some]
    exact h r (by simp)

/-- C25 as stated fails on the list `1, 2, 3` with the predicate that returns
`CF_LL_REDUCE_DELETE` on 2 and 0 elsewhere (it never returns
`CF_LL_REDUCE_INSERT`): `cf_ll_reduce` deletes 2, goes on to 3 and returns 0,
while `cf_ll_insert_reduce` stops at 2, deletes nothing and returns
`CF_LL_REDUCE_DELETE`; the same in the backward direction. -/
theorem cf_ll_insert_reduce_no_delete :
    (cf_ll_reduce 3 ⟨1, 3, 3, true, false,
          fun x => if x = 1 then 2 else if x = 2 then 3 else 0,
          fun x => if x = 3 then 2 else if x = 2 then 1 else 0, []⟩ true
          (fun cur (s : Unit) => (if cur = 2 then CF_LL_REDUCE_DELETE else 0, s)) ()).map
        (fun r => (r.1, cf_ll_forward r.2.1, r.2.1.sz, r.2.1.destroyed, r.2.2.2)) =
        some (0, [1, 3], 2, [2], [1, 2, 3]) ∧
      (cf_ll_insert_reduce 3 ⟨1, 3, 3, true, false,
          fun x => if x = 1 then 2 else if x = 2 then 3 else 0,
          fun x => if x = 3 then 2 else if x = 2 then 1 else 0, []⟩ 9 true
          (fun cur (s : Unit) => (if cur = 2 then CF_LL_REDUCE_DELETE else 0, s)) ()).map
        (fun r => (r.1, cf_ll_forward r.2.1, r.2.1.sz, r.2.1.destroyed, r.2.2.2)) =
        some (1, [1, 2, 3], 3, [], [1, 2]) ∧
      (cf_ll_reduce 3 ⟨1, 3, 3, true, false,
          fun x => if x = 1 then 2 else if x = 2 then 3 else 0,
          fun x => if x = 3 then 2 else if x = 2 then 1 else 0, []⟩ false
          (fun cur (s : Unit) => (if cur = 2 then CF_LL_REDUCE_DELETE else 0, s)) ()).map
        (fun r => (r.1, cf_ll_forward r.2.1, r.2.1.sz, r.2.1.destroyed, r.2.2.2)) =
        some (0, [1, 3], 2, [2], [3, 2, 1]) ∧
      (cf_ll_insert_reduce 3 ⟨1, 3, 3, true, false,
          fun x => if x = 1 then 2 else if x = 2 then 3 else 0,
          fun x => if x = 3 then 2 else if x = 2 then 1 else 0, []⟩ 9 false
          (fun cur (s : Unit) => (if cur = 2 then CF_LL_REDUCE_DELETE else 0, s)) ()).map
        (fun r => (r.1, cf_ll_forward r.2.1, r.2.1.sz, r.2.1.destroyed, r.2.2.2)) =
        some (1, [1, 2, 3], 3, [], [3, 2]) :=
  ⟨rfl, rfl, rfl, rfl⟩

/-- C25, amended: on a well-formed list with forward traversal `L`, in either
direction, the loops given at least `|L|` iterations.  First, if the predicate
returns 0 on the elements `A` visited first and on the element `cur` a non-zero
value other than `CF_LL_REDUCE_INSERT`, then `cf_ll_insert_reduce` stops at
`cur` and returns that value with the list unchanged, `CF_LL_REDUCE_DELETE`
included (nothing is deleted); and if the value is not `CF_LL_REDUCE_DELETE`,
`cf_ll_reduce` returns the same value, list, `udata` and visits.  Second, if
the predicate returns 0 on every element, `cf_ll_reduce` returns 0 with the
list unchanged after visiting every element, and `cf_ll_insert_reduce` makes
the same visits followed by one invocation with `NULL`, whose result, when it
is not `CF_LL_REDUCE_INSERT`, it returns with the list unchanged. -/
theorem cf_ll_insert_reduce_vs_reduce {σ : Type} (ll : cf_ll) (L : List Nat) (e : Nat)
    (forward : Bool) (fn : Nat → σ → Int × σ) (u : σ) (fuel : Nat)
    (h : ll.holds L) (hfuel : L.length ≤ fuel) :
    (∀ A cur B, (if forward then L else L.reverse) = A ++ cur :: B →
      (∀ r ∈ cf_ll_results fn A u, r = 0) →
      (fn cur (cf_ll_udata_after fn A u)).1 ≠ 0 →
      (fn cur (cf_ll_udata_after fn A u)).1 ≠ CF_LL_REDUCE_INSERT →
      cf_ll_insert_reduce fuel ll e forward fn u =
          some ((fn cur (cf_ll_udata_after fn A u)).1, ll,
            (fn cur (cf_ll_udata_after fn A u)).2, A ++ [cur]) ∧
        ((fn cur (cf_ll_udata_after fn A u)).1 ≠ CF_LL_REDUCE_DELETE →
          cf_ll_reduce fuel ll forward fn u =
            some ((fn cur (cf_ll_udata_after fn A u)).1, ll,
              (fn cur (cf_ll_udata_after fn A u)).2, A ++ [cur]))) ∧
    ((∀ r ∈ cf_ll_results fn (if forward then L else L.reverse) u, r = 0) →
      cf_ll_reduce fuel ll forward fn u =
          some (0, ll, cf_ll_udata_after fn (if forward then L else L.reverse) u,
            if forward then L else L.reverse) ∧
        ((fn 0 (cf_ll_udata_after fn (if forward then L else L.reverse) u)).1 ≠
            CF_LL_REDUCE_INSERT →
          cf_ll_insert_reduce fuel ll e forward fn u =
            some ((fn 0 (cf_ll_udata_after fn (if forward then L else L.reverse) u)).1, ll,
              (fn 0 (cf_ll_udata_after fn (if forward then L else L.reverse) u)).2,
              (if forward then L else L.reverse) ++ [0]))) := by
  have hlen : (if forward then L else L.reverse).length = L.length := by
    cases forward <;> simp
  refine ⟨fun A cur B hT hA hr0 hri => ⟨?_, fun hrd => ?_⟩, fun hall => ⟨?_, fun hri => ?_⟩⟩
  · have hAlen : A.length < fuel := by
      have := congrArg List.length hT
      rw [hlen] at this
      simp only [List.length_append, List.length_cons] at this
      omega
    rw [cf_ll_insert_reduce_at e forward fn ll L A B cur fuel u h hT hA hr0 hAlen, if_neg hri]
  · obtain ⟨n, rfl⟩ : ∃ n, fuel = A.length + (n + 1) := by
      have := congrArg List.length hT
      rw [hlen] at this
      simp only [List.length_append, List.length_cons] at this
      exact ⟨fuel - A.length - 1, by omega⟩
    have hc0 : cur ≠ 0 := cf_ll_traversal_ne_zero ll L h forward cur (by rw [hT]; simp)
    obtain ⟨ll1, hrun, -, -, hsame⟩ :=
      cf_ll_reduce_loop_continue fn forward A (cur :: B) L ll (n + 1) 0 u [] h hT
        (fun r hr => Or.inl (hA r hr))
    rw [hsame hA] at hrun
    unfold cf_ll_reduce
    rw [hrun, cf_ll_reduce_loop_succ]
    simp only [List.head?_cons, Option.getD_some, if_neg hc0, if_pos hr0, if_neg hrd,
      List.nil_append]
  · obtain ⟨n, hn⟩ : ∃ n, fuel = (if forward then L else L.reverse).length + n :=
      ⟨fuel - L.length, by omega⟩
    obtain ⟨ll1, hrun, -, -, hsame⟩ :=
      cf_ll_reduce_loop_continue fn forward (if forward then L else L.reverse) [] L ll n 0 u []
        h (by simp) (fun r hr => Or.inl (hall r hr))
    rw [hsame hall, cf_ll_getLast_zero _ hall] at hrun
    unfold cf_ll_reduce
    rw [hn, hrun]
    simp only [List.head?_nil, Option.getD_none, List.nil_append]
    exact cf_ll_reduce_loop_null _ _ _ _ _ _ _
  · rw [cf_ll_insert_reduce_at_end e forward fn ll L fuel u h hall hfuel]
    unfold cf_ll_insert_reduce_end
    by_cases hz : (fn 0 (cf_ll_udata_after fn (if forward then L else L.reverse) u)).1 = 0
    · rw [if_neg (by simp [hz])]
    · rw [if_pos hz, if_neg hri]

/-- C25, amended, on the list `1, 2, 3`, forward, with the predicate that
counts its invocations in `udata` and returns 5 on 2 and 0 elsewhere: both
`cf_ll_insert_reduce` and `cf_ll_reduce` return 5 after visiting 1 and 2, the
list unchanged.  With the predicate that returns 0 on the elements and 5 on
`NULL`, `cf_ll_reduce` returns 0 after three visits and `cf_ll_insert_reduce`
returns 5 after four. -/
theorem cf_ll_insert_reduce_vs_reduce_witness :
    (cf_ll.holds ⟨1, 3, 3, false, false,
        fun x => if x = 1 then 2 else if x = 2 then 3 else 0,
        fun x => if x = 3 then 2 else if x = 2 then 1 else 0, []⟩ [1, 2, 3] ∧
      [1, 2, 3].length ≤ 3) ∧
    ((cf_ll_reduce 3 ⟨1, 3, 3, false, false,
          fun x => if x = 1 then 2 else if x = 2 then 3 else 0,
          fun x => if x = 3 then 2 else if x = 2 then 1 else 0, []⟩ true
          (fun cur (s : Nat) => (if cur = 0 then 5 else 0, s + 1)) 0).map
        (fun r => (r.1, cf_ll_forward r.2.1, r.2.2.1, r.2.2.2)) =
        some (0, [1, 2, 3], 3, [1, 2, 3]) ∧
      (cf_ll_insert_reduce 3 ⟨1, 3, 3, false, false,
          fun x => if x = 1 then 2 else if x = 2 then 3 else 0,
          fun x => if x = 3 then 2 else if x = 2 then 1 else 0, []⟩ 9 true
          (fun cur (s : Nat) => (if cur = 0 then 5 else 0, s + 1)) 0).map
        (fun r => (r.1, cf_ll_forward r.2.1, r.2.2.1, r.2.2.2)) =
        some (5, [1, 2, 3], 4, [1, 2, 3, 0])) ∧
    (cf_ll_insert_reduce 3 ⟨1, 3, 3, false, false,
          fun x => if x = 1 then 2 else if x = 2 then 3 else 0,
          fun x => if x = 3 then 2 else if x = 2 then 1 else 0, []⟩ 9 true
          (fun cur (s : Nat) => (if cur = 2 then 5 else 0, s + 1)) 0 =
        some (5, ⟨1, 3, 3, false, false,
          fun x => if x = 1 then 2 else if x = 2 then 3 else 0,
          fun x => if x = 3 then 2 else if x = 2 then 1 else 0, []⟩, 2, [1] ++ [2]) ∧
      ((5 : Int) ≠ CF_LL_REDUCE_DELETE →
        cf_ll_reduce 3 ⟨1, 3, 3, false, false,
            fun x => if x = 1 then 2 else if x = 2 then 3 else 0,
            fun x => if x = 3 then 2 else if x = 2 then 1 else 0, []⟩ true
            (fun cur (s : Nat) => (if cur = 2 then 5 else 0, s + 1)) 0 =
          some (5, ⟨1, 3, 3, false, false,
            fun x => if x = 1 then 2 else if x = 2 then 3 else 0,
            fun x => if x = 3 then 2 else if x = 2 then 1 else 0, []⟩, 2, [1] ++ [2]))) :=
  ⟨⟨by decide, by decide⟩, ⟨rfl, rfl⟩,
    (cf_ll_insert_reduce_vs_reduce ⟨1, 3, 3, false, false,
      fun x => if x = 1 then 2 else if x = 2 then 3 else 0,
      fun x => if x = 3 then 2 else if x = 2 then 1 else 0, []⟩ [1, 2, 3] 9 true
      (fun cur (s : Nat) => (if cur = 2 then 5 else 0, s + 1)) 0 3
      (by decide) (by decide)).1 [1] 2 [3] rfl (by decide) (by decide) (by decide)⟩

/-! ## The pair: `as_pair_val_tostring` -/

/-- Function `strcpy` to the end of the part `P` already written: `P` stays,
the string and its NUL follow, the size of the block is unchanged. -/
theorem strcpy_at (s P cs rest : List Char) (off : Nat) (hs : s = P ++ rest)
    (hoff : off = P.length) (hlen : cs.length + 1 ≤ rest.length) :
    ∃ rest1, strcpy s off (some cs) = some (P ++ cs ++ NUL :: rest1) ∧
      rest1.length + cs.length + 1 = rest.length := by
  subst hs hoff
  refine ⟨rest.drop (cs.length + 1), ?_, by simp only [List.length_drop]; omega⟩
  unfold strcpy
  simp only []
  rw [if_pos (by simp only [List.length_append]; omega)]
  have h1 : List.take P.length (P ++ rest) = P := by simp
  have h2 : List.drop (P.length + cs.length + 1) (P ++ rest) = rest.drop (cs.length + 1) := by
    rw [Nat.add_assoc, List.drop_append]
  rw [h1, h2]
  simp

theorem c_string_at (P rest : List Char) (hP : NUL ∉ P) : c_string (P ++ NUL :: rest) = P := by
  unfold c_string
  rw [List.takeWhile_append_of_pos (by
    intro c hc
    have : c ≠ NUL := fun h => hP (h ▸ hc)
    simpa using this)]
  simp

/-- Function `as_pair_val_tostring` when both members render to C strings and
the allocation succeeds: every write lies inside the block of
`len(a) + len(b) + 5` characters and the C string returned is `(a, b)`. -/
theorem as_pair_val_tostring_renders (as_val_tostring : Nat → Option (List Char))
    (junk : Nat → Char) (p : as_pair) (a b : List Char)
    (ha : as_val_tostring p._1 = some a) (hb : as_val_tostring p._2 = some b)
    (hna : NUL ∉ a) (hnb : NUL ∉ b)
    (hl : a.length + b.length + 5 < 18446744073709551616) :
    ∃ str, as_pair_val_tostring as_val_tostring (some junk) (some p) = some (some str) ∧
      str.length = a.length + b.length + 5 ∧
      c_string str = ['('] ++ a ++ [',', ' '] ++ b ++ [')'] := by
  have hstr : ((List.range (a.length + b.length + 5)).map junk).length =
      a.length + b.length + 5 := by simp
  obtain ⟨r1, h1, l1⟩ := strcpy_at ((List.range (a.length + b.length + 5)).map junk) []
    ['('] ((List.range (a.length + b.length + 5)).map junk) 0 rfl rfl
    (by rw [hstr]; simp)
  rw [hstr] at l1
  simp only [List.length_singleton] at l1
  obtain ⟨r2, h2, l2⟩ := strcpy_at ([] ++ ['('] ++ NUL :: r1) ([] ++ ['(']) a (NUL :: r1) 1
    rfl (by simp) (by simp only [List.length_cons]; omega)
  simp only [List.length_cons] at l2
  obtain ⟨r3, h3, l3⟩ := strcpy_at ([] ++ ['('] ++ a ++ NUL :: r2) ([] ++ ['('] ++ a)
    [',', ' '] (NUL :: r2) (1 + a.length) rfl (by simp; omega)
    (by simp only [List.length_cons, List.length_nil]; omega)
  simp only [List.length_cons, List.length_nil] at l3
  obtain ⟨r4, h4, l4⟩ := strcpy_at ([] ++ ['('] ++ a ++ [',', ' '] ++ NUL :: r3)
    ([] ++ ['('] ++ a ++ [',', ' ']) b (NUL :: r3) (1 + a.length + 2) rfl (by simp; omega)
    (by simp only [List.length_cons]; omega)
  simp only [List.length_cons] at l4
  obtain ⟨r5, h5, l5⟩ := strcpy_at ([] ++ ['('] ++ a ++ [',', ' '] ++ b ++ NUL :: r4)
    ([] ++ ['('] ++ a ++ [',', ' '] ++ b) [')'] (NUL :: r4) (1 + a.length + 2 + b.length) rfl
    (by simp; omega) (by simp only [List.length_cons, List.length_nil]; omega)
  simp only [List.length_cons, List.length_nil] at l5
  have hr5 : r5 = [] := List.eq_nil_of_length_eq_zero (by omega)
  subst hr5
  have hset : char_store ([] ++ ['('] ++ a ++ [',', ' '] ++ b ++ [')'] ++ [NUL])
      (1 + a.length + 2 + b.length + 1) NUL =
      some ([] ++ ['('] ++ a ++ [',', ' '] ++ b ++ [')'] ++ [NUL]) := by
    unfold char_store
    rw [if_pos (by simp; omega)]
    congr 1
    have hidx : 1 + a.length + 2 + b.length + 1 =
        ([] ++ ['('] ++ a ++ [',', ' '] ++ b ++ [')']).length := by simp; omega
    rw [hidx, List.set_append_right _ _ (Nat.le_refl _)]
    simp
  refine ⟨[] ++ ['('] ++ a ++ [',', ' '] ++ b ++ [')'] ++ [NUL], ?_, by simp; omega, ?_⟩
  · unfold as_pair_val_tostring
    simp only [ha, hb, strlen, malloc, Nat.mod_eq_of_lt hl, h1, Option.some_bind, h2, h3, h4,
      h5, hset, Option.map_some']
  · have := c_string_at ([] ++ ['('] ++ a ++ [',', ' '] ++ b ++ [')']) [] (by
      simp only [List.nil_append, List.mem_append, List.mem_cons, List.mem_singleton,
        List.not_mem_nil, or_false, not_or]
      exact ⟨⟨⟨⟨by decide, hna⟩, by decide, by decide⟩, hnb⟩, by decide⟩)
    simpa using this

/-- C24 fails when a member renders as `NULL`: for every pair and every outcome
of the allocation, when `as_val_tostring` gives `NULL` for the first or for the
second member, `as_pair_val_tostring` passes that `NULL` to `strlen`, which
reads through it: the call faults. -/
theorem as_pair_val_tostring_null_member (as_val_tostring : Nat → Option (List Char))
    (m : Option (Nat → Char)) (p : as_pair)
    (h : as_val_tostring p._1 = none ∨ as_val_tostring p._2 = none) :
    as_pair_val_tostring as_val_tostring m (some p) = none := by
  unfold as_pair_val_tostring
  rcases h with h | h
  · simp [h, strlen]
  · cases h1 : as_val_tostring p._1 <;> simp [h, h1, strlen]

/-- C24 on the pair whose first member is `NULL` and whose second member
renders as `7`, the value core rendering `NULL` as `NULL`: the call faults,
while the pair of two members that render as `7` gives `(7, 7)` in a block of 7
characters. -/
theorem as_pair_val_tostring_null_member_witness :
    ((fun v : Nat => if v = 0 then none else some ['7']) (as_pair.mk 0 5)._1 = none ∨
      (fun v : Nat => if v = 0 then none else some ['7']) (as_pair.mk 0 5)._2 = none) ∧
    as_pair_val_tostring (fun v => if v = 0 then none else some ['7']) (some fun _ => 'x')
      (some ⟨5, 5⟩) = some (some ['(', '7', ',', ' ', '7', ')', NUL]) ∧
    as_pair_val_tostring (fun v => if v = 0 then none else some ['7']) (some fun _ => 'x')
      (some ⟨0, 5⟩) = none :=
  ⟨Or.inl rfl, by decide,
    as_pair_val_tostring_null_member (fun v => if v = 0 then none else some ['7'])
      (some fun _ => 'x') ⟨0, 5⟩ (Or.inl rfl)⟩
